import Mathlib

/-!
catboost: pool ingestion, permutation and border generation.

A shallow embedding of `catboost/libs/algo/helpers.cpp` and
`catboost/libs/data/load_data.cpp`.

Conventions of the embedding
* `yvector<T>` is `List T`; an index outside the vector is undefined behaviour
  in the source and is the fault `Fault.outOfRange` here.
* `size_t` arithmetic is written with explicit `% 2 ^ 64`, the casts `(ui32)` and
  `(const int)` of the source with explicit `% 2 ^ 32` and `toInt32`. The length
  of a list stands for `size()` and for `ysize()`.
* A `float` is its 32 bit pattern (`TFloat`); only `IsNan`, `operator<` and
  `operator==` of the source are used on it and are defined on the bits.
* `CB_ENSURE` / `Y_VERIFY` failures are values of `Fault`; a loop of the source
  that has no syntactic bound runs on fuel and `Fault.outOfFuel` says the fuel
  ran out before the loop was left.
* Library code outside the two files (`SplitRangeTo`, `FromString`,
  `CalcCatFeatureHash`, `BestSplit`, `ReadPairs`, the resident set size) is a
  parameter.
-/

namespace Catboost

/-! ## Faults -/

/-- Ways in which the embedded code does not return normally. -/
inductive Fault where
  /-- `Y_VERIFY(permutation.ysize() == pool->Docs.ysize())` failed -/
  | verifyFailed
  /-- an index outside a vector -/
  | outOfRange
  /-- the fuel given to an unbounded loop ran out -/
  | outOfFuel
  /-- a division by zero -/
  | divisionByZero
  /-- `CB_ENSURE(UsedRAMLimit >= bytesUsed && threadCount > 0, "CatBoost needs N Mb ...")` -/
  | memoryError (needMb : Nat)
  /-- `CB_ENSURE(taskFailedBecauseOfNans == 0, "There are nan factors ...")` -/
  | nanError
  /-- `CB_ENSURE(threadCount > 0)` of the reader -/
  | threadCount
  /-- `"Too many weight columns"` -/
  | tooManyWeight
  /-- `"Too many target columns"` -/
  | tooManyTarget
  /-- `"Too many DocId columns"` -/
  | tooManyDocId
  /-- `"Too many queryId columns"` -/
  | tooManyQueryId
  /-- `"Pool should have at least one factor"` -/
  | noFactors
  /-- `"wrong columns number in pool header"` -/
  | wrongHeader
  /-- `"wrong columns number in pool line L: expected E, found F"` -/
  | wrongColumnsNumber (line expected found : Nat)
  /-- `"empty values not supported"` (with the column kind it was raised for) -/
  | emptyValue (kind : String)
  /-- `"Factor T in column C and row R is declared as numeric and cannot be parsed as float"` -/
  | cannotParseFloat (token : String) (column row : Nat)
  /-- `FromString<T>` threw on the token -/
  | fromString (token : String)
  /-- `"Unknown class name: W"` -/
  | unknownClassName (word : String)
  /-- `"Error: feature ids size should be equal to factor count"` -/
  | featureIdsSize
  /-- `ReadPairs` failed -/
  | pairsError
  /-- the `ui32` counter of a loop can not reach its `size_t` bound: the loop is not left -/
  | counterWraps
  deriving DecidableEq, Repr

deriving instance DecidableEq for Except

/-! ## Floats as bit patterns -/

/-- A `float`: its 32 bits (sign, 8 exponent bits, 23 mantissa bits). -/
structure TFloat where
  bits : Nat
  deriving DecidableEq, Repr

/-- A `double`: its 64 bits. It is only stored. -/
structure TDouble where
  bits : Nat
  deriving DecidableEq, Repr

namespace TFloat

/-- The magnitude bits (exponent and mantissa). -/
def mag (f : TFloat) : Nat := f.bits % 2 ^ 31

/-- The sign bit. -/
def sign (f : TFloat) : Bool := (f.bits / 2 ^ 31) % 2 = 1

/-- `IsNan(float)`: all exponent bits set and a non-zero mantissa. -/
def IsNan (f : TFloat) : Bool := decide (2 ^ 31 - 2 ^ 23 < f.mag)

/-- The position of a non-NaN float on the number line: sign and magnitude,
both zeros at 0. -/
def key (f : TFloat) : Int := if f.sign then - (f.mag : Int) else (f.mag : Int)

/-- `operator<` of `float`: false when an operand is NaN. -/
def lt (a b : TFloat) : Bool := !a.IsNan && !b.IsNan && decide (a.key < b.key)

/-- `operator==` of `float`: false when an operand is NaN, true on the two zeros. -/
def feq (a b : TFloat) : Bool := !a.IsNan && !b.IsNan && decide (a.key = b.key)

/-- `std::numeric_limits<float>::lowest()`, `-FLT_MAX`. -/
def lowest : TFloat := ⟨0xFF7FFFFF⟩

/-- `std::numeric_limits<float>::max()`, `FLT_MAX`. -/
def max : TFloat := ⟨0x7F7FFFFF⟩

/-- `std::numeric_limits<float>::quiet_NaN()`. -/
def quietNaN : TFloat := ⟨0x7FC00000⟩

end TFloat

/-- The order of the keys is total. -/
instance : IsTotal TFloat (fun a b => a.key ≤ b.key) := ⟨fun a b => le_total a.key b.key⟩

/-- The order of the keys is transitive. -/
instance : IsTrans TFloat (fun a b => a.key ≤ b.key) := ⟨fun _ _ _ h1 h2 => le_trans h1 h2⟩

/-! ## The pool -/

/-- `TDocInfo`. -/
structure TDocInfo where
  Target : TFloat := ⟨0⟩
  Weight : TFloat := ⟨0x3F800000⟩
  Factors : List TFloat := []
  Baseline : List TDouble := []
  Id : String := ""
  deriving DecidableEq, Repr

/-- `TPair`. The ids are indices of documents; an id that is not the index of
an element is out of range wherever it is used as an index. -/
structure TPair where
  WinnerId : Nat
  LoserId : Nat
  deriving DecidableEq, Repr

/-- `TPool`. `CatFeaturesHashToString` is the `yhash<int, TString>` as the list
of its entries, one per key. -/
structure TPool where
  Docs : List TDocInfo := []
  CatFeatures : List Int := []
  FeatureId : List String := []
  CatFeaturesHashToString : List (Int × String) := []
  Pairs : List TPair := []
  deriving DecidableEq, Repr

/-! ## `ApplyPermutation` and `InvertPermutation` (helpers.cpp) -/

/-- `DoSwap(v[i], v[j])` on a vector; `none` when an index is outside it. -/
def DoSwap {α : Type} (v : List α) (i j : Nat) : Option (List α) :=
  match v[i]?, v[j]? with
  | some a, some b => some ((v.set i b).set j a)
  | _, _ => none

/-- The loops of lines 84-90: `for (i = 0; i < n; ++i) while (toIndices[i] != i) { swap; swap; }`.
Each test of a loop condition takes one unit of fuel. The third component
counts the executions of the `while` body. -/
def cycleLoop (n : Nat) : Nat → Nat → List TDocInfo → List Nat → Nat →
    Except Fault (List TDocInfo × List Nat × Nat)
  | 0, _, _, _, _ => .error .outOfFuel
  | fuel + 1, i, docs, toIndices, swaps =>
    if i < n then
      match toIndices[i]? with
      | none => .error .outOfRange
      | some destinationIndex =>
        if destinationIndex ≠ i then
          match DoSwap docs i destinationIndex, DoSwap toIndices i destinationIndex with
          | some docs', some toIndices' => cycleLoop n fuel i docs' toIndices' (swaps + 1)
          | _, _ => .error .outOfRange
        else cycleLoop n fuel (i + 1) docs toIndices swaps
    else .ok (docs, toIndices, swaps)

/-- The loop of lines 92-95 over `pool->Pairs`. -/
def rewritePairs (permutation : List Nat) : List TPair → Except Fault (List TPair)
  | [] => .ok []
  | pair :: rest =>
    match permutation[pair.WinnerId]?, permutation[pair.LoserId]? with
    | some w, some l =>
      match rewritePairs permutation rest with
      | .ok rest' => .ok (⟨w, l⟩ :: rest')
      | .error e => .error e
    | _, _ => .error .outOfRange

/-- `ApplyPermutation(permutation, pool)`, on `fuel` loop tests. -/
def ApplyPermutation (fuel : Nat) (permutation : List Nat) (pool : TPool) : Except Fault TPool :=
  if permutation.length ≠ pool.Docs.length then .error .verifyFailed
  else
    match cycleLoop permutation.length fuel 0 pool.Docs permutation 0 with
    | .error e => .error e
    | .ok (docs, _, _) =>
      match rewritePairs permutation pool.Pairs with
      | .error e => .error e
      | .ok pairs => .ok { pool with Docs := docs, Pairs := pairs }

/-- The loop of `InvertPermutation`: `result[permutation[i]] = i` for the
remaining entries of `permutation`, `i` being the index of the first of them. -/
def invertLoop : List Nat → Nat → List Nat → Except Fault (List Nat)
  | [], _, result => .ok result
  | p :: rest, i, result =>
    if p < result.length then invertLoop rest (i + 1) (result.set p i) else .error .outOfRange

/-- `InvertPermutation(permutation)`. -/
def InvertPermutation (permutation : List Nat) : Except Fault (List Nat) :=
  invertLoop permutation 0 (List.replicate permutation.length 0)

/-- The list is a permutation of `0 .. n-1`, `n` its length. -/
def IsPermutation (p : List Nat) : Prop := p.Nodup ∧ ∀ x ∈ p, x < p.length

instance (p : List Nat) : Decidable (IsPermutation p) := by
  unfold IsPermutation; infer_instance

/-- Pairs whose ids are document indices below `n`. -/
def PairsValid (n : Nat) (pairs : List TPair) : Prop :=
  ∀ pair ∈ pairs, pair.WinnerId < n ∧ pair.LoserId < n

instance (n : Nat) (pairs : List TPair) : Decidable (PairsValid n pairs) := by
  unfold PairsValid; infer_instance

/-- A document that only has an id, for examples. -/
def docNamed (s : String) : TDocInfo := { Id := s }

/-! ## `GenerateBorders` (helpers.cpp) -/

/-- `ENanMode`. -/
inductive ENanMode where
  | Min
  | Max
  | Forbidden
  deriving DecidableEq, Repr

/-- `EBorderSelectionType`: the value is only forwarded to `BestSplit`. -/
abbrev EBorderSelectionType := Nat

/-- The fields of `ctx->Params` that `GenerateBorders` reads. `UsedRAMLimit` is a `ui64`. -/
structure TFitParams where
  BorderCount : Int
  FeatureBorderType : EBorderSelectionType
  NanMode : ENanMode
  UsedRAMLimit : Nat
  deriving DecidableEq, Repr

/-- The fields of `TLearnContext` that `GenerateBorders` reads. `CatFeatures` is
the `yhash_set<int>` as the list of its elements, each once. -/
structure TLearnContext where
  CatFeatures : List Int
  Params : TFitParams
  deriving DecidableEq, Repr

/-- The conversion of an `int` to `size_t`. -/
def toSizeT (x : Int) : Nat := (x % 2 ^ 64).toNat

/-- `yvector::resize(n)` with `d` the value-initialised element. -/
def resize {α : Type} (v : List α) (n : Nat) (d : α) : List α :=
  v.take n ++ List.replicate (n - v.length) d

/-- `Sort(begin, end)` on floats: ascending by `operator<` (`Sort` is a reserved word here). -/
def SortAsc (v : List TFloat) : List TFloat :=
  v.insertionSort (fun a b => TFloat.lt b a = false)

/-- The outputs of `GenerateBorders` and its flag; `execRanges` and `calls`
record the `ExecRange(first, last)` calls and the indices `calcOneFeatureBorder`
was run on, in order. -/
structure TBordersState where
  borders : List (List TFloat)
  hasNans : List Bool
  taskFailedBecauseOfNans : Bool := false
  execRanges : List (Nat × Nat) := []
  calls : List Nat := []
  deriving DecidableEq, Repr

/-- The loop of lines 44-50: the non-NaN values of factor `floatFeatureIdx` over
the documents, and whether a NaN was met. -/
def collectVals (floatFeatureIdx : Nat) :
    List TDocInfo → List TFloat → Bool → Except Fault (List TFloat × Bool)
  | [], vals, hasNan => .ok (vals, hasNan)
  | doc :: rest, vals, hasNan =>
    match doc.Factors[floatFeatureIdx]? with
    | none => .error .outOfRange
    | some f =>
      if !f.IsNan then collectVals floatFeatureIdx rest (vals ++ [f]) hasNan
      else collectVals floatFeatureIdx rest vals true

/-- Lines 51-65 for one feature: the block of borders and whether the failure
flag is raised. -/
def bordersBlock (BestSplit : List TFloat → Int → EBorderSelectionType → List TFloat)
    (params : TFitParams) (vals : List TFloat) (hasNan : Bool) : List TFloat × Bool :=
  let borderSet := BestSplit (SortAsc vals) params.BorderCount params.FeatureBorderType
  let block := SortAsc borderSet
  if hasNan then
    match params.NanMode with
    | .Min => (TFloat.lowest :: block, false)
    | .Max => (block ++ [TFloat.max], false)
    | .Forbidden => (block, true)
  else (block, false)

/-- The lambda `calcOneFeatureBorder(idx)`. -/
def calcOneFeatureBorder (BestSplit : List TFloat → Int → EBorderSelectionType → List TFloat)
    (docInfos : List TDocInfo) (params : TFitParams) (floatIndexes : List Nat)
    (idx : Nat) (st : TBordersState) : Except Fault TBordersState :=
  match floatIndexes[idx]? with
  | none => .error .outOfRange
  | some floatFeatureIdx =>
    if idx < st.hasNans.length ∧ idx < st.borders.length then
      match collectVals floatFeatureIdx docInfos [] false with
      | .error e => .error e
      | .ok (vals, hasNan) =>
        let (block, failed) := bordersBlock BestSplit params vals hasNan
        .ok { st with
              hasNans := st.hasNans.set idx hasNan
              borders := st.borders.set idx block
              taskFailedBecauseOfNans := st.taskFailedBecauseOfNans || failed
              calls := st.calls ++ [idx] }
    else .error .outOfRange

/-- Run `f` on `first, first+1, ..` , `count` times: the body of
`ExecRange(f, first, first + count, WAIT_COMPLETE)` in index order, and the
trailing `for` loop. -/
def forRange {σ : Type} (f : Nat → σ → Except Fault σ) : Nat → Nat → σ → Except Fault σ
  | 0, _, s => .ok s
  | count + 1, first, s =>
    match f first s with
    | .error e => .error e
    | .ok s' => forRange f count (first + 1) s'

/-- The loop of lines 69-72: full batches of `threadCount` features, the flag
tested after each. It returns the `nReason` it stopped at. -/
def batchLoop (calcOne : Nat → TBordersState → Except Fault TBordersState)
    (threadCount reasonCount : Nat) : Nat → Nat → TBordersState → Except Fault (Nat × TBordersState)
  | 0, _, _ => .error .outOfFuel
  | fuel + 1, nReason, st =>
    if nReason + threadCount ≤ reasonCount then
      match forRange calcOne threadCount nReason
          { st with execRanges := st.execRanges ++ [(nReason, nReason + threadCount)] } with
      | .error e => .error e
      | .ok st' =>
        if st'.taskFailedBecauseOfNans then .error .nanError
        else batchLoop calcOne threadCount reasonCount fuel (nReason + threadCount) st'
    else .ok (nReason, st)

/-- `bytesRequiredPerThread` of line 33, in `size_t` arithmetic. -/
def bytesRequiredPerThread (borderCount : Int) (docCount : Nat) : Nat :=
  let bytes1M := 1024 * 1024
  let bytesThreadStack := 2 * bytes1M
  let bytesBestSplit := ((4 + toSizeT (borderCount - 1) * 8 + 2 * 8 + 2 * 8 + 2 * 8) * docCount) % 2 ^ 64
  let bytesGenerateBorders := (4 * docCount) % 2 ^ 64
  (bytesThreadStack + bytesGenerateBorders + bytesBestSplit) % 2 ^ 64

/-- `reasonCount` of line 15, in `size_t` arithmetic. -/
def reasonCountOf (factorCount categCount : Nat) : Nat :=
  (factorCount + 2 ^ 64 - categCount % 2 ^ 64) % 2 ^ 64

/-- `threadCount` of line 34: `Min(reasonCount, (UsedRAMLimit - bytesUsed) / bytesRequiredPerThread)`
with the subtraction in `size_t` arithmetic. -/
def threadCountOf (reasonCount usedRAMLimit bytesUsed bytesPerThread : Nat) : Nat :=
  min reasonCount (((usedRAMLimit + 2 ^ 64 - bytesUsed) % 2 ^ 64) / bytesPerThread)

/-- `floatIndexes` of lines 22-27. -/
def floatIndexesOf (categFeatures : List Int) (factorCount : Nat) : List Nat :=
  (List.range factorCount).filter fun (i : Nat) => decide ((i : Int) ∉ categFeatures)

/-- `GenerateBorders(docInfos, ctx, borders, hasNans)`. `bytesUsed` is the
resident set size that `NMemInfo::GetMemInfo()` reports, `BestSplit` the border
selection (the elements of the set it returns), `borders0` and `hasNans0` the
contents of the two output vectors at the call. The batch loop gets
`reasonCount + 1` loop tests, which it can not use up. -/
def GenerateBorders (BestSplit : List TFloat → Int → EBorderSelectionType → List TFloat)
    (bytesUsed : Nat) (docInfos : List TDocInfo) (ctx : TLearnContext)
    (borders0 : List (List TFloat)) (hasNans0 : List Bool) : Except Fault TBordersState :=
  match docInfos with
  | [] => .error .outOfRange
  | doc0 :: _ =>
    let reasonCount := reasonCountOf doc0.Factors.length ctx.CatFeatures.length
    let st0 : TBordersState :=
      { borders := resize borders0 reasonCount [], hasNans := resize hasNans0 reasonCount false }
    if reasonCount = 0 then .ok st0
    else
      let floatIndexes := floatIndexesOf ctx.CatFeatures doc0.Factors.length
      let bytes1M := 1024 * 1024
      let bytesPerThread := bytesRequiredPerThread ctx.Params.BorderCount docInfos.length
      if bytesPerThread = 0 then .error .divisionByZero
      else
        let threadCount :=
          threadCountOf reasonCount ctx.Params.UsedRAMLimit bytesUsed bytesPerThread
        if ¬ (ctx.Params.UsedRAMLimit ≥ bytesUsed ∧ threadCount > 0) then
          .error (.memoryError (((bytesUsed + bytesPerThread) % 2 ^ 64) / bytes1M + 1))
        else
          let calcOne := calcOneFeatureBorder BestSplit docInfos ctx.Params floatIndexes
          match batchLoop calcOne threadCount reasonCount (reasonCount + 1) 0 st0 with
          | .error e => .error e
          | .ok (nReason, st) => forRange calcOne (reasonCount - nReason) nReason st

/-! ## Library code that the loader calls (load_data.cpp) -/

/-- The functions of `util` and of other catboost libraries that `load_data.cpp`
calls and that are outside the two files. `IntToFloat` is the conversion of an
`int` to `float`. -/
structure TEnv where
  /-- `SplitRangeTo<const char, yvector<TStringBuf>>(begin, end, delim, &words)` -/
  SplitRangeTo : Char → String → List String
  /-- `TryFromString<float>`; `FromString<float>` throws where it fails -/
  TryFromStringFloat : String → Option TFloat
  /-- `FromString<double>`, `none` where it throws -/
  FromStringDouble : String → Option TDouble
  /-- `CalcCatFeatureHash`, an `int` -/
  CalcCatFeatureHash : String → Int
  /-- the conversion `int → float` -/
  IntToFloat : Int → TFloat
  /-- `ReadPairs(pairsFile, docCount)` -/
  ReadPairs : String → Nat → Except Fault (List TPair)

/-- Modelled from the spec: `ConvertCatFeatureHashToFloat`, which is declared
outside the two files. Section 6: the hash is stored into a float slot as
`float_from_bits(uint32_bits_of_i32(hash32))`, a bit-preserving reinterpretation. -/
def ConvertCatFeatureHashToFloat (hashVal : Int) : TFloat := ⟨(hashVal % 2 ^ 32).toNat⟩

/-! ## `TPoolBuilder` (load_data.cpp) -/

/-- `EColumn`. -/
inductive EColumn where
  | Num
  | Categ
  | Target
  | Auxiliary
  | DocId
  | QueryId
  | Weight
  | Baseline
  deriving DecidableEq, Repr

/-- `TColumn`; `ColType` is the field `Type`. -/
structure TColumn where
  ColType : EColumn
  Id : String := ""
  deriving DecidableEq, Repr

/-- Modelled from the spec: `IsFactorColumn`, which is declared outside the two
files. Section 3: a "factor column" is Num or Categ. -/
def IsFactorColumn (t : EColumn) : Bool := t = .Num || t = .Categ

/-- `TPoolColumnsMetaInfo`. -/
structure TPoolColumnsMetaInfo where
  FactorCount : Nat := 0
  BaselineCount : Nat := 0
  HasQueryIds : Bool := false
  HasDocIds : Bool := false
  HasWeights : Bool := false
  CatFeatureIds : List Int := []
  deriving DecidableEq, Repr

/-- `TPoolBuilder`: the pool it writes to and its private fields. Part `k` of
`LockedHashMapParts` is the list of the entries of its `yhash<int, TString>`. -/
structure TPoolBuilder where
  Pool : TPool
  Cursor : Nat := 0
  FactorCount : Nat := 0
  BaselineCount : Nat := 0
  LockedHashMapParts : List (List (Int × String)) := List.replicate 256 []
  deriving DecidableEq, Repr

/-- `InitBuilder(pool)`: a new builder on the pool. -/
def InitBuilder (pool : TPool) : TPoolBuilder := { Pool := pool }

/-- `yhash::has(key)`. -/
def hashHas (m : List (Int × String)) (key : Int) : Bool := m.any fun e => e.1 = key

/-- `yhash::find(key)`. -/
def hashFind (m : List (Int × String)) (key : Int) : Option String :=
  (m.find? fun e => e.1 = key).map Prod.snd

/-- `yhash::insert(value)`: nothing is done when the key is present. -/
def hashInsert (m : List (Int × String)) (e : Int × String) : List (Int × String) :=
  if hashHas m e.1 then m else m ++ [e]

/-- `yhash::insert(first, last)`. -/
def hashInsertRange (m : List (Int × String)) (es : List (Int × String)) : List (Int × String) :=
  es.foldl hashInsert m

namespace TPoolBuilder

/-- `Start(poolMetaInfo)`. -/
def Start (poolMetaInfo : TPoolColumnsMetaInfo) (b : TPoolBuilder) : TPoolBuilder :=
  { b with
    Pool := { b.Pool with Docs := [], CatFeatures := poolMetaInfo.CatFeatureIds }
    FactorCount := poolMetaInfo.FactorCount
    BaselineCount := poolMetaInfo.BaselineCount }

/-- The body of the loop of `StartNextBlock` on one document. -/
def initDoc (factorCount baselineCount : Nat) (doc : TDocInfo) : TDocInfo :=
  { doc with
    Factors := resize doc.Factors factorCount ⟨0⟩
    Baseline := resize doc.Baseline baselineCount ⟨0⟩ }

/-- `StartNextBlock(blockSize)`. The loop counter `i` is a `ui32` and its bound
`Docs.size()` a `size_t`: the loop is left only when the new size is below `2^32`. -/
def StartNextBlock (blockSize : Nat) (b : TPoolBuilder) : Except Fault TPoolBuilder :=
  let cursor := b.Pool.Docs.length % 2 ^ 32
  let docs := resize b.Pool.Docs (b.Pool.Docs.length + blockSize) ({} : TDocInfo)
  if docs.length < 2 ^ 32 then
    .ok { b with
          Cursor := cursor
          Pool := { b.Pool with
                    Docs := docs.take cursor ++
                      (docs.drop cursor).map (initDoc b.FactorCount b.BaselineCount) } }
  else .error .counterWraps

/-- `GetLine(localIdx)`, as the index `Cursor + localIdx` in `ui32` arithmetic. -/
def GetLine (localIdx : Nat) (b : TPoolBuilder) : Nat := (b.Cursor + localIdx) % 2 ^ 32

/-- A write to a field of `GetLine(localIdx)`. -/
def modifyLine (localIdx : Nat) (f : TDocInfo → Except Fault TDocInfo) (b : TPoolBuilder) :
    Except Fault TPoolBuilder :=
  match b.Pool.Docs[b.GetLine localIdx]? with
  | none => .error .outOfRange
  | some doc =>
    match f doc with
    | .error e => .error e
    | .ok doc' => .ok { b with Pool := { b.Pool with Docs := b.Pool.Docs.set (b.GetLine localIdx) doc' } }

/-- `AddFloatFeature(localIdx, featureId, feature)`. -/
def AddFloatFeature (localIdx featureId : Nat) (feature : TFloat) (b : TPoolBuilder) :
    Except Fault TPoolBuilder :=
  b.modifyLine localIdx fun doc =>
    if featureId < doc.Factors.length then .ok { doc with Factors := doc.Factors.set featureId feature }
    else .error .outOfRange

/-- `AddCatFeature(localIdx, featureId, feature)`: the part of the hash is
`hashVal & 0xff`. -/
def AddCatFeature (env : TEnv) (localIdx featureId : Nat) (feature : String) (b : TPoolBuilder) :
    Except Fault TPoolBuilder :=
  let hashVal := env.CalcCatFeatureHash feature
  let part := (hashVal % 256).toNat
  match b.LockedHashMapParts[part]? with
  | none => .error .outOfRange
  | some curPart =>
    let curPart' := if !hashHas curPart hashVal then curPart ++ [(hashVal, feature)] else curPart
    AddFloatFeature localIdx featureId (ConvertCatFeatureHashToFloat hashVal)
      { b with LockedHashMapParts := b.LockedHashMapParts.set part curPart' }

/-- `AddTarget(localIdx, value)`. -/
def AddTarget (localIdx : Nat) (value : TFloat) (b : TPoolBuilder) : Except Fault TPoolBuilder :=
  b.modifyLine localIdx fun doc => .ok { doc with Target := value }

/-- `AddWeight(localIdx, value)`. -/
def AddWeight (localIdx : Nat) (value : TFloat) (b : TPoolBuilder) : Except Fault TPoolBuilder :=
  b.modifyLine localIdx fun doc => .ok { doc with Weight := value }

/-- `AddQueryId(localIdx, queryId)`: both arguments are unused. -/
def AddQueryId (_localIdx : Nat) (_queryId : String) (b : TPoolBuilder) : Except Fault TPoolBuilder :=
  .ok b

/-- `AddBaseline(localIdx, offset, value)`. -/
def AddBaseline (localIdx offset : Nat) (value : TDouble) (b : TPoolBuilder) :
    Except Fault TPoolBuilder :=
  b.modifyLine localIdx fun doc =>
    if offset < doc.Baseline.length then .ok { doc with Baseline := doc.Baseline.set offset value }
    else .error .outOfRange

/-- `AddDocId(localIdx, value)`. -/
def AddDocId (localIdx : Nat) (value : String) (b : TPoolBuilder) : Except Fault TPoolBuilder :=
  b.modifyLine localIdx fun doc => .ok { doc with Id := value }

/-- `SetFeatureIds(featureIds)`. -/
def SetFeatureIds (featureIds : List String) (b : TPoolBuilder) : Except Fault TPoolBuilder :=
  if featureIds.length = b.FactorCount then .ok { b with Pool := { b.Pool with FeatureId := featureIds } }
  else .error .featureIdsSize

/-- `SetPairs(pairs)`. -/
def SetPairs (pairs : List TPair) (b : TPoolBuilder) : TPoolBuilder :=
  { b with Pool := { b.Pool with Pairs := pairs } }

/-- `GetDocCount()`. -/
def GetDocCount (b : TPoolBuilder) : Nat := b.Pool.Docs.length

/-- `Finish()`. -/
def Finish (b : TPoolBuilder) : TPoolBuilder :=
  if b.Pool.Docs ≠ [] then
    { b with
      Pool := { b.Pool with
                CatFeaturesHashToString :=
                  b.LockedHashMapParts.foldl hashInsertRange b.Pool.CatFeaturesHashToString } }
  else b

end TPoolBuilder

/-! ## `TTargetConverter`, `GetCategFeatures`, `IsNan` (load_data.cpp) -/

/-- The loop of `TTargetConverter::operator()` from `classIndex` on. -/
def findClass (word : String) : List String → Nat → Option Nat
  | [], _ => none
  | name :: rest, classIndex => if name = word then some classIndex else findClass word rest (classIndex + 1)

/-- `TTargetConverter::operator()(word)` with `ClassNames = classNames`. -/
def TTargetConverter (env : TEnv) (classNames : List String) (word : String) : Except Fault TFloat :=
  if classNames = [] then
    match env.TryFromStringFloat word with
    | some v => .ok v
    | none => .error (.fromString word)
  else
    match findClass word classNames 0 with
    | some classIndex => .ok (env.IntToFloat classIndex)
    | none => .error (.unknownClassName word)

/-- The loop of `GetCategFeatures` with the running `featureId`. -/
def getCategFeaturesLoop : List TColumn → Nat → List Int → List Int
  | [], _, categFeatures => categFeatures
  | column :: rest, featureId, categFeatures =>
    match column.ColType with
    | .Categ => getCategFeaturesLoop rest (featureId + 1) (categFeatures ++ [(featureId : Int)])
    | .Num => getCategFeaturesLoop rest (featureId + 1) categFeatures
    | _ => getCategFeaturesLoop rest featureId categFeatures

/-- `GetCategFeatures(columns)`. -/
def GetCategFeatures (columns : List TColumn) : List Int := getCategFeaturesLoop columns 0 []

/-- `IsNan(const TStringBuf&)`. -/
def IsNanToken (s : String) : Bool := s = "nan" || s = "NaN" || s = "NAN"

/-! ## `TPoolReader` (load_data.cpp) -/

/-- `TPoolReader`, in the sequential model: `Reader` is the lines of the pool
file that have not been read, and a read that `ReadBlockAsync` starts has run to
completion when it returns. -/
structure TPoolReader where
  PairsFile : String
  ThreadCount : Int
  LinesRead : Nat := 0
  FieldDelimiter : Char
  HasHeader : Bool
  ClassNames : List String
  BlockSize : Int
  Reader : List String
  ColumnsDescription : List TColumn := []
  PoolMetaInfo : TPoolColumnsMetaInfo := {}
  FeatureIds : List String := []
  ReadBuffer : List String := []
  ParseBuffer : List String := []
  deriving DecidableEq, Repr

/-- The conversion of a count (`ptrdiff_t`) to `int`. -/
def toInt32 (n : Nat) : Int := ((n : Int) + 2 ^ 31) % 2 ^ 32 - 2 ^ 31

/-- `CountIf(begin, end, [](x) { return x.Type == t; })`. -/
def countType (columns : List TColumn) (t : EColumn) : Nat :=
  columns.countP fun x => x.ColType = t

/-- The loop of `readLineBufferLambda`: `while (ReadBuffer.size() < BlockSize &&
Reader.ReadLine(bufReadLine)) ReadBuffer.push_back(bufReadLine)`; it returns the
buffer and the lines left in the file. -/
def readLineBuffer (blockSize : Nat) : List String → List String → List String × List String
  | [], readBuffer => (readBuffer, [])
  | line :: rest, readBuffer =>
    if readBuffer.length < blockSize then readLineBuffer blockSize rest (readBuffer ++ [line])
    else (readBuffer, line :: rest)

namespace TPoolReader

/-- `ReadBlockAsync()`, run to completion. -/
def ReadBlockAsync (r : TPoolReader) : TPoolReader :=
  let (readBuffer, reader) := readLineBuffer (toSizeT r.BlockSize) r.Reader []
  { r with ReadBuffer := readBuffer, Reader := reader }

/-- `ReadBlock()`: the reader after the call and the value returned. -/
def ReadBlock (r : TPoolReader) : TPoolReader × Bool :=
  let r1 := { r with ReadBuffer := r.ParseBuffer, ParseBuffer := r.ReadBuffer }
  if r1.ParseBuffer ≠ [] then (r1.ReadBlockAsync, true) else (r1, false)

/-- The header part of the constructor, lines 277-292: the feature ids and the
lines left in the file. -/
def readHeader (env : TEnv) (r : TPoolReader) : Except Fault TPoolReader :=
  if r.HasHeader then
    let line := r.Reader.headD ""
    let words := env.SplitRangeTo r.FieldDelimiter line
    if words.length = r.ColumnsDescription.length then
      .ok { r with
            Reader := r.Reader.tail
            FeatureIds :=
              ((words.zip r.ColumnsDescription).filter fun wc =>
                wc.2.ColType = .Categ || wc.2.ColType = .Num).map Prod.fst }
    else .error .wrongHeader
  else .ok r

/-- The constructor `TPoolReader::TPoolReader` on a pool file that exists.
`poolLines` is the content of the pool file, `columnsCount` what
`ReadColumnsCount` returns on it, `cd` what `ReadCD(cdFile, columnsCount)`
returns when `cdFile` is not empty. -/
def create (env : TEnv) (cd : Option (List TColumn)) (columnsCount : Nat)
    (poolLines : List String) (pairsFile : String) (threadCount : Int) (fieldDelimiter : Char)
    (hasHeader : Bool) (classNames : List String) (blockSize : Int) : Except Fault TPoolReader :=
  if ¬ threadCount > 0 then .error .threadCount
  else
    let columns : Except Fault (List TColumn) :=
      match cd with
      | some columns => .ok columns
      | none =>
        if 0 < columnsCount then
          .ok ((List.replicate columnsCount (⟨.Num, ""⟩ : TColumn)).set 0 ⟨.Target, ""⟩)
        else .error .outOfRange
    match columns with
    | .error e => .error e
    | .ok columns =>
      let weightColumns := toInt32 (countType columns .Weight)
      if ¬ weightColumns ≤ 1 then .error .tooManyWeight
      else
        let baselineCount := countType columns .Baseline % 2 ^ 32
        let targetColumns := toInt32 (countType columns .Target)
        if ¬ targetColumns ≤ 1 then .error .tooManyTarget
        else
          let docIdColumns := toInt32 (countType columns .DocId)
          if ¬ docIdColumns ≤ 1 then .error .tooManyDocId
          else
            let queryIdColumns := toInt32 (countType columns .QueryId)
            if ¬ queryIdColumns ≤ 1 then .error .tooManyQueryId
            else
              let factorCount := (columns.countP fun x => IsFactorColumn x.ColType) % 2 ^ 32
              if ¬ factorCount > 0 then .error .noFactors
              else
                let r : TPoolReader :=
                  { PairsFile := pairsFile
                    ThreadCount := threadCount
                    LinesRead := 0
                    FieldDelimiter := fieldDelimiter
                    HasHeader := hasHeader
                    ClassNames := classNames
                    BlockSize := blockSize
                    Reader := poolLines
                    ColumnsDescription := columns
                    PoolMetaInfo :=
                      { FactorCount := factorCount
                        BaselineCount := baselineCount
                        HasQueryIds := decide (queryIdColumns ≠ 0)
                        HasDocIds := decide (docIdColumns ≠ 0)
                        HasWeights := decide (weightColumns ≠ 0)
                        CatFeatureIds := GetCategFeatures columns } }
                match r.readHeader env with
                | .error e => .error e
                | .ok r' => .ok r'.ReadBlockAsync

/-- The value `val` of the case `EColumn::Num` of `parseFeaturesInBlock`
(lines 341-350) for the token `word` of column `i`. -/
def parseNum (env : TEnv) (r : TPoolReader) (lineIdx i : Nat) (word : String) :
    Except Fault TFloat :=
  if word = "" then .error (.emptyValue "")
  else
    match env.TryFromStringFloat word with
    | some v => .ok v
    | none =>
      if IsNanToken word then .ok TFloat.quietNaN
      else .error (.cannotParseFloat word (i + 1) (r.LinesRead + lineIdx + 1))

/-- The loop of `parseFeaturesInBlock` over the columns, from column `i` on. -/
def parseWords (env : TEnv) (r : TPoolReader) (lineIdx : Nat) :
    List String → List TColumn → Nat → Nat → Nat → TPoolBuilder → Except Fault TPoolBuilder
  | [], _, _, _, _, b => .ok b
  | _ :: _, [], _, _, _, _ => .error .outOfRange
  | word :: words, column :: columns, i, featureId, baselineIdx, b =>
    match column.ColType with
    | .Categ =>
      match b.AddCatFeature env lineIdx featureId word with
      | .error e => .error e
      | .ok b' => parseWords env r lineIdx words columns (i + 1) (featureId + 1) baselineIdx b'
    | .Num =>
      match parseNum env r lineIdx i word with
      | .error e => .error e
      | .ok val =>
        match b.AddFloatFeature lineIdx featureId val with
        | .error e => .error e
        | .ok b' => parseWords env r lineIdx words columns (i + 1) (featureId + 1) baselineIdx b'
    | .Target =>
      if word = "" then .error (.emptyValue "target")
      else
        match TTargetConverter env r.ClassNames word with
        | .error e => .error e
        | .ok v =>
          match b.AddTarget lineIdx v with
          | .error e => .error e
          | .ok b' => parseWords env r lineIdx words columns (i + 1) featureId baselineIdx b'
    | .Weight =>
      if word = "" then .error (.emptyValue "weight")
      else
        match env.TryFromStringFloat word with
        | none => .error (.fromString word)
        | some v =>
          match b.AddWeight lineIdx v with
          | .error e => .error e
          | .ok b' => parseWords env r lineIdx words columns (i + 1) featureId baselineIdx b'
    | .Auxiliary => parseWords env r lineIdx words columns (i + 1) featureId baselineIdx b
    | .QueryId =>
      match b.AddQueryId lineIdx word with
      | .error e => .error e
      | .ok b' => parseWords env r lineIdx words columns (i + 1) featureId baselineIdx b'
    | .Baseline =>
      if word = "" then .error (.emptyValue "baseline")
      else
        match env.FromStringDouble word with
        | none => .error (.fromString word)
        | some v =>
          match b.AddBaseline lineIdx baselineIdx v with
          | .error e => .error e
          | .ok b' => parseWords env r lineIdx words columns (i + 1) featureId (baselineIdx + 1) b'
    | .DocId =>
      if word = "" then .error (.emptyValue "doc id")
      else
        match b.AddDocId lineIdx word with
        | .error e => .error e
        | .ok b' => parseWords env r lineIdx words columns (i + 1) featureId baselineIdx b'

/-- The lambda `parseFeaturesInBlock(lineIdx)`. -/
def parseFeaturesInBlock (env : TEnv) (r : TPoolReader) (lineIdx : Nat) (b : TPoolBuilder) :
    Except Fault TPoolBuilder :=
  match r.ParseBuffer[lineIdx]? with
  | none => .error .outOfRange
  | some line =>
    let words := env.SplitRangeTo r.FieldDelimiter line
    if words.length = r.ColumnsDescription.length then
      parseWords env r lineIdx words r.ColumnsDescription 0 0 0 b
    else .error (.wrongColumnsNumber (lineIdx + 1) r.ColumnsDescription.length words.length)

/-- `ProcessBlock()`: the lines of the block are parsed in index order and the
first one that fails gives the fault. -/
def ProcessBlock (env : TEnv) (r : TPoolReader) (b : TPoolBuilder) :
    Except Fault (TPoolReader × TPoolBuilder) :=
  match b.StartNextBlock (r.ParseBuffer.length % 2 ^ 32) with
  | .error e => .error e
  | .ok b1 =>
    match forRange (parseFeaturesInBlock env r) r.ParseBuffer.length 0 b1 with
    | .error e => .error e
    | .ok b2 => .ok ({ r with LinesRead := r.LinesRead + r.ParseBuffer.length }, b2)

end TPoolReader

/-! ## `ReadPool` -/

/-- `StartBuilder(featureIds, poolMetaInfo, hasHeader, poolBuilder)`. -/
def StartBuilder (featureIds : List String) (poolMetaInfo : TPoolColumnsMetaInfo)
    (hasHeader : Bool) (b : TPoolBuilder) : Except Fault TPoolBuilder :=
  if hasHeader then (b.Start poolMetaInfo).SetFeatureIds featureIds else .ok (b.Start poolMetaInfo)

/-- `FinalizeBuilder(columnsDescription, pairsFile, poolBuilder)`. -/
def FinalizeBuilder (env : TEnv) (columnsDescription : List TColumn) (pairsFile : String)
    (b : TPoolBuilder) : Except Fault TPoolBuilder :=
  let b1 : Except Fault TPoolBuilder :=
    if ¬ columnsDescription.all (fun column => column.Id = "") then
      b.SetFeatureIds
        ((columnsDescription.filter fun column =>
          column.ColType = .Categ || column.ColType = .Num).map TColumn.Id)
    else .ok b
  match b1 with
  | .error e => .error e
  | .ok b1 =>
    let b2 := b1.Finish
    if pairsFile ≠ "" then
      match env.ReadPairs pairsFile b2.GetDocCount with
      | .error e => .error e
      | .ok pairs => .ok (b2.SetPairs pairs)
    else .ok b2

/-- The loop `while (poolReader.ReadBlock()) poolReader.ProcessBlock();`, one
unit of fuel for each call of `ReadBlock`. -/
def readLoop (env : TEnv) : Nat → TPoolReader → TPoolBuilder →
    Except Fault (TPoolReader × TPoolBuilder)
  | 0, _, _ => .error .outOfFuel
  | fuel + 1, r, b =>
    match r.ReadBlock with
    | (r1, true) =>
      match r1.ProcessBlock env b with
      | .error e => .error e
      | .ok (r2, b2) => readLoop env fuel r2 b2
    | (r1, false) => .ok (r1, b)

/-- `ReadPool(cdFile, poolFile, pairsFile, threadCount, verbose, fieldDelimiter,
hasHeader, classNames, poolBuilder)` with the block size `10000` of the source
replaced by the parameter `blockSize`. -/
def ReadPool (env : TEnv) (fuel : Nat) (cd : Option (List TColumn)) (columnsCount : Nat)
    (poolLines : List String) (pairsFile : String) (threadCount : Int) (fieldDelimiter : Char)
    (hasHeader : Bool) (classNames : List String) (blockSize : Int) (b : TPoolBuilder) :
    Except Fault TPoolBuilder :=
  match TPoolReader.create env cd columnsCount poolLines pairsFile threadCount fieldDelimiter
      hasHeader classNames blockSize with
  | .error e => .error e
  | .ok poolReader =>
    match StartBuilder poolReader.FeatureIds poolReader.PoolMetaInfo hasHeader b with
    | .error e => .error e
    | .ok b1 =>
      match readLoop env fuel poolReader b1 with
      | .error e => .error e
      | .ok (poolReader', b2) =>
        FinalizeBuilder env poolReader'.ColumnsDescription poolReader'.PairsFile b2

/-! ## The memory estimate in the words of the specification -/

/-- The estimate of the bytes per feature computation, as the specification
writes it: `n * (sizeof(float) + (K-1)*sizeof(size_t) + 2*sizeof(double) +
2*sizeof(size_t) + 2*sizeof(double)) + n*sizeof(float) + T` with `T` = 2 MiB, in
64-bit unsigned arithmetic. -/
def specPerThread (n : Nat) (K : Int) : Nat :=
  (n * (4 + toSizeT (K - 1) * 8 + 2 * 8 + 2 * 8 + 2 * 8) + n * 4 + 2 * 2 ^ 20) % 2 ^ 64

/-- The number of numeric features: the factor indices of the first document
that are not categorical. -/
def numericFeatureCount (doc0 : TDocInfo) (categFeatures : List Int) : Nat :=
  ((List.range doc0.Factors.length).filter fun (i : Nat) => decide ((i : Int) ∉ categFeatures)).length

/-- The degree of parallelism as the specification writes it:
`p = min(numericFeatureCount, floor((B - U) / perThread))`, in 64-bit unsigned arithmetic. -/
def specParallelism (numericFeatures B U perThread : Nat) : Nat :=
  min numericFeatures (((B + 2 ^ 64 - U) % 2 ^ 64) / perThread)

/-- The categorical features are factor indices of the document, each once,
and the document has fewer than `2^64` factors. -/
def CatFeaturesValid (doc0 : TDocInfo) (categFeatures : List Int) : Prop :=
  categFeatures.Nodup ∧ (∀ c ∈ categFeatures, 0 ≤ c ∧ c < (doc0.Factors.length : Int)) ∧
    doc0.Factors.length < 2 ^ 64

instance (doc0 : TDocInfo) (categFeatures : List Int) :
    Decidable (CatFeaturesValid doc0 categFeatures) := by
  unfold CatFeaturesValid; infer_instance

/-! ## Notions used to state the loop invariants -/

/-- The index that position `k` takes its value from when positions `i` and `j`
are swapped. -/
def swapIdx (i j k : Nat) : Nat := if k = j then i else if k = i then j else k

/-- The positions of `toIndices` that do not hold their own index. -/
def nonFixed (toIndices : List Nat) : Finset Nat :=
  (Finset.range toIndices.length).filter (fun j => toIndices[j]? ≠ some j)

/-- The invariant of the cycle loop: `toIndices[j]` is the position the
document now at `j` has to reach; positions below `i` are settled. -/
structure CycleInv (n : Nat) (old : List TDocInfo) (perm : List Nat) (i : Nat)
    (docs : List TDocInfo) (toIndices : List Nat) : Prop where
  docsLen : docs.length = n
  toLen : toIndices.length = n
  bound : ∀ (j v : Nat), toIndices[j]? = some v → v < n
  inj : ∀ (a b : Nat), a < n → b < n → toIndices[a]? = toIndices[b]? → a = b
  settled : ∀ (j : Nat), j < i → toIndices[j]? = some j
  source : ∀ (k : Nat), k < n → ∃ (j : Nat), j < n ∧ docs[j]? = old[k]? ∧ toIndices[j]? = perm[k]?


/-- The number of cycles of a permutation of `0 .. n-1`, fixed points counted as
cycles of length one: the cycles of length two or more, and the points outside
the support. -/
def numCycles {n : Nat} (σ : Equiv.Perm (Fin n)) : Nat :=
  Multiset.card σ.cycleType + (n - σ.support.card)

/-- `sigma` and `tau` are inverse to each other on the indices below `n`. -/
def Rearr (n : Nat) (sigma tau : Nat → Nat) : Prop :=
  ∀ k, k < n → sigma k < n ∧ tau k < n ∧ sigma (tau k) = k ∧ tau (sigma k) = k

/-- Entry `idx` of the two output vectors holds what `calcOneFeatureBorder(idx)`
computes from the documents. -/
def FeatureDone (BestSplit : List TFloat → Int → EBorderSelectionType → List TFloat)
    (docInfos : List TDocInfo) (params : TFitParams) (floatIndexes : List Nat)
    (st : TBordersState) (idx : Nat) : Prop :=
  ∃ floatFeatureIdx vals hasNan,
    floatIndexes[idx]? = some floatFeatureIdx ∧
    collectVals floatFeatureIdx docInfos [] false = .ok (vals, hasNan) ∧
    st.borders[idx]? = some (bordersBlock BestSplit params vals hasNan).1 ∧
    st.hasNans[idx]? = some hasNan

/-- The ascending-sorted output of `BestSplit` on the ascending-sorted non-NaN
values of a feature column. -/
def sortedSplit (BestSplit : List TFloat → Int → EBorderSelectionType → List TFloat)
    (params : TFitParams) (column : List TFloat) : List TFloat :=
  SortAsc (BestSplit (SortAsc (column.filter fun v => !v.IsNan))
    params.BorderCount params.FeatureBorderType)

/-- `thresholds[i] < thresholds[i+1]` for every valid `i`, with `operator<` of `float`. -/
def StrictlyIncreasing (thresholds : List TFloat) : Prop :=
  ∀ (i : Nat) (h : i + 1 < thresholds.length),
    TFloat.lt (thresholds[i]) (thresholds[i + 1]) = true

instance (thresholds : List TFloat) : Decidable (StrictlyIncreasing thresholds) := by
  unfold StrictlyIncreasing
  exact decidable_of_iff (∀ i : Fin thresholds.length, ∀ h : i.1 + 1 < thresholds.length,
      TFloat.lt (thresholds[i.1]) (thresholds[i.1 + 1]) = true)
    ⟨fun h i hi => h ⟨i, by omega⟩ hi, fun h i hi => h i.1 hi⟩

/-! ## Sequences of builder calls -/

/-- A call of a `TPoolBuilder` method between `Start` and `Finish`. -/
inductive TBuilderCall where
  | StartNextBlock (blockSize : Nat)
  | AddCatFeature (localIdx featureId : Nat) (feature : String)
  | AddFloatFeature (localIdx featureId : Nat) (feature : TFloat)
  | AddTarget (localIdx : Nat) (value : TFloat)
  | AddWeight (localIdx : Nat) (value : TFloat)
  | AddQueryId (localIdx : Nat) (queryId : String)
  | AddBaseline (localIdx offset : Nat) (value : TDouble)
  | AddDocId (localIdx : Nat) (value : String)
  | SetFeatureIds (featureIds : List String)
  | SetPairs (pairs : List TPair)
  deriving DecidableEq, Repr

/-- The call on a builder. -/
def TBuilderCall.run (env : TEnv) : TBuilderCall → TPoolBuilder → Except Fault TPoolBuilder
  | .StartNextBlock n, b => b.StartNextBlock n
  | .AddCatFeature l f s, b => b.AddCatFeature env l f s
  | .AddFloatFeature l f v, b => b.AddFloatFeature l f v
  | .AddTarget l v, b => b.AddTarget l v
  | .AddWeight l v, b => b.AddWeight l v
  | .AddQueryId l q, b => b.AddQueryId l q
  | .AddBaseline l o v, b => b.AddBaseline l o v
  | .AddDocId l v, b => b.AddDocId l v
  | .SetFeatureIds ids, b => b.SetFeatureIds ids
  | .SetPairs pairs, b => .ok (b.SetPairs pairs)

/-- The calls one after the other, stopping at the first fault. -/
def runCalls (env : TEnv) : List TBuilderCall → TPoolBuilder → Except Fault TPoolBuilder
  | [], b => .ok b
  | c :: cs, b =>
    match c.run env b with
    | .error e => .error e
    | .ok b' => runCalls env cs b'

/-- The string of an `AddCatFeature` call. -/
def TBuilderCall.catString : TBuilderCall → Option String
  | .AddCatFeature _ _ s => some s
  | _ => none

/-- The string of the first `AddCatFeature` call whose hash is `key`. -/
def firstCat (env : TEnv) (calls : List TBuilderCall) (key : Int) : Option String :=
  (calls.filterMap TBuilderCall.catString).find? fun s => env.CalcCatFeatureHash s = key

/-- The entry for `key` in the part of the sharded hash that `key & 0xff` selects. -/
def partsFind (parts : List (List (Int × String))) (key : Int) : Option String :=
  hashFind (parts.getD (key % 256).toNat []) key

/-- Every entry of the sharded hash is in the part that its key selects. -/
def PartsSharded (parts : List (List (Int × String))) : Prop :=
  parts.length = 256 ∧
    ∀ (p : Nat) (part : List (Int × String)), parts[p]? = some part →
      ∀ e ∈ part, (e.1 % 256).toNat = p

/-- The builder with the document at `idx` replaced. -/
def setLine (b : TPoolBuilder) (idx : Nat) (doc : TDocInfo) : TPoolBuilder :=
  { b with Pool := { b.Pool with Docs := b.Pool.Docs.set idx doc } }

/-- The document with factor `featureId` replaced. -/
def setFactor (doc : TDocInfo) (featureId : Nat) (feature : TFloat) : TDocInfo :=
  { doc with Factors := doc.Factors.set featureId feature }

/-- The builder with part `p` of the sharded hash replaced. -/
def setPart (b : TPoolBuilder) (p : Nat) (part : List (Int × String)) : TPoolBuilder :=
  { b with LockedHashMapParts := b.LockedHashMapParts.set p part }

/-- The parts of a builder that no `Add*` call changes. -/
def SameFrame (b b' : TPoolBuilder) : Prop :=
  b'.Pool.Docs.length = b.Pool.Docs.length ∧ b'.Cursor = b.Cursor ∧
    b'.FactorCount = b.FactorCount ∧ b'.BaselineCount = b.BaselineCount ∧
    b'.Pool.CatFeaturesHashToString = b.Pool.CatFeaturesHashToString

/-- Every document has `F` factors and `B` baseline entries, and these are the
counts that the builder holds. -/
def DocsSized (F B : Nat) (b : TPoolBuilder) : Prop :=
  b.FactorCount = F ∧ b.BaselineCount = B ∧
    ∀ d ∈ b.Pool.Docs, d.Factors.length = F ∧ d.Baseline.length = B

/-! ## The builder calls of one line -/

/-- The number of `Num` and `Categ` columns before column `k`. -/
def factorsBefore (columns : List TColumn) (k : Nat) : Nat :=
  (columns.take k).countP fun column => column.ColType = .Num || column.ColType = .Categ

/-- A call put in front of the calls of the columns that follow. -/
def consCall (c : TBuilderCall) (t : List TBuilderCall × Option Fault) :
    List TBuilderCall × Option Fault :=
  (c :: t.1, t.2)

/-- The loop of `parseFeaturesInBlock` over the columns, from column `i` on, with
the builder calls recorded instead of run: the calls it makes, in order, up to
the first token it rejects, and the fault of that token. -/
def lineTrace (env : TEnv) (r : TPoolReader) (lineIdx : Nat) :
    List String → List TColumn → Nat → Nat → Nat → List TBuilderCall × Option Fault
  | [], _, _, _, _ => ([], none)
  | _ :: _, [], _, _, _ => ([], some .outOfRange)
  | word :: words, column :: columns, i, featureId, baselineIdx =>
    match column.ColType with
    | .Categ =>
      consCall (.AddCatFeature lineIdx featureId word)
        (lineTrace env r lineIdx words columns (i + 1) (featureId + 1) baselineIdx)
    | .Num =>
      match TPoolReader.parseNum env r lineIdx i word with
      | .error e => ([], some e)
      | .ok val =>
        consCall (.AddFloatFeature lineIdx featureId val)
          (lineTrace env r lineIdx words columns (i + 1) (featureId + 1) baselineIdx)
    | .Target =>
      if word = "" then ([], some (.emptyValue "target"))
      else
        match TTargetConverter env r.ClassNames word with
        | .error e => ([], some e)
        | .ok v =>
          consCall (.AddTarget lineIdx v)
            (lineTrace env r lineIdx words columns (i + 1) featureId baselineIdx)
    | .Weight =>
      if word = "" then ([], some (.emptyValue "weight"))
      else
        match env.TryFromStringFloat word with
        | none => ([], some (.fromString word))
        | some v =>
          consCall (.AddWeight lineIdx v)
            (lineTrace env r lineIdx words columns (i + 1) featureId baselineIdx)
    | .Auxiliary => lineTrace env r lineIdx words columns (i + 1) featureId baselineIdx
    | .QueryId =>
      consCall (.AddQueryId lineIdx word)
        (lineTrace env r lineIdx words columns (i + 1) featureId baselineIdx)
    | .Baseline =>
      if word = "" then ([], some (.emptyValue "baseline"))
      else
        match env.FromStringDouble word with
        | none => ([], some (.fromString word))
        | some v =>
          consCall (.AddBaseline lineIdx baselineIdx v)
            (lineTrace env r lineIdx words columns (i + 1) featureId (baselineIdx + 1))
    | .DocId =>
      if word = "" then ([], some (.emptyValue "doc id"))
      else
        consCall (.AddDocId lineIdx word)
          (lineTrace env r lineIdx words columns (i + 1) featureId baselineIdx)

/-- The lambda `parseFeaturesInBlock(lineIdx)` with the builder calls recorded
instead of run. -/
def lineDispatch (env : TEnv) (r : TPoolReader) (lineIdx : Nat) :
    List TBuilderCall × Option Fault :=
  match r.ParseBuffer[lineIdx]? with
  | none => ([], some .outOfRange)
  | some line =>
    let words := env.SplitRangeTo r.FieldDelimiter line
    if words.length = r.ColumnsDescription.length then
      lineTrace env r lineIdx words r.ColumnsDescription 0 0 0
    else ([], some (.wrongColumnsNumber (lineIdx + 1) r.ColumnsDescription.length words.length))

/-- The recorded calls run on a builder, then the recorded fault raised. -/
def finishTrace (env : TEnv) (t : List TBuilderCall × Option Fault) (b : TPoolBuilder) :
    Except Fault TPoolBuilder :=
  match runCalls env t.1 b with
  | .error e => .error e
  | .ok b' =>
    match t.2 with
    | none => .ok b'
    | some e => .error e

/-- The factor slot that a call writes. -/
def TBuilderCall.factorSlot : TBuilderCall → Option Nat
  | .AddCatFeature _ featureId _ => some featureId
  | .AddFloatFeature _ featureId _ => some featureId
  | _ => none

/-- The call is a write to the document of line `lineIdx`, with a factor index
below `F` or a baseline offset below `B` when it has one. -/
def CallInRange (lineIdx F B : Nat) : TBuilderCall → Prop
  | .AddCatFeature l featureId _ => l = lineIdx ∧ featureId < F
  | .AddFloatFeature l featureId _ => l = lineIdx ∧ featureId < F
  | .AddBaseline l offset _ => l = lineIdx ∧ offset < B
  | .AddTarget l _ => l = lineIdx
  | .AddWeight l _ => l = lineIdx
  | .AddDocId l _ => l = lineIdx
  | .AddQueryId l _ => l = lineIdx
  | .StartNextBlock _ => False
  | .SetFeatureIds _ => False
  | .SetPairs _ => False

/-- What a call does to the document it is made on: the body of the `Add*`
method on `GetLine(localIdx)`. -/
def TBuilderCall.onDoc (env : TEnv) : TBuilderCall → TDocInfo → Except Fault TDocInfo
  | .AddCatFeature _ featureId feature, doc =>
    if featureId < doc.Factors.length then
      .ok { doc with
            Factors := doc.Factors.set featureId
              (ConvertCatFeatureHashToFloat (env.CalcCatFeatureHash feature)) }
    else .error .outOfRange
  | .AddFloatFeature _ featureId feature, doc =>
    if featureId < doc.Factors.length then
      .ok { doc with Factors := doc.Factors.set featureId feature }
    else .error .outOfRange
  | .AddTarget _ value, doc => .ok { doc with Target := value }
  | .AddWeight _ value, doc => .ok { doc with Weight := value }
  | .AddBaseline _ offset value, doc =>
    if offset < doc.Baseline.length then
      .ok { doc with Baseline := doc.Baseline.set offset value }
    else .error .outOfRange
  | .AddDocId _ value, doc => .ok { doc with Id := value }
  | _, doc => .ok doc

/-- The calls one after the other on one document. -/
def docAfter (env : TEnv) : List TBuilderCall → TDocInfo → Except Fault TDocInfo
  | [], doc => .ok doc
  | c :: cs, doc =>
    match c.onDoc env doc with
    | .error e => .error e
    | .ok doc' => docAfter env cs doc'

/-! ## The lines of a block and the documents they are written to -/

/-- The blocks that successive calls of `ReadBlock` deliver until it returns
`false`: the `ParseBuffer` after each call that returns `true`. One unit of fuel
for each call. -/
def deliveredBlocks : Nat → TPoolReader → Option (List (List String))
  | 0, _ => none
  | fuel + 1, r =>
    match r.ReadBlock with
    | (r1, true) =>
      match deliveredBlocks fuel r1 with
      | some blocks => some (r1.ParseBuffer :: blocks)
      | none => none
    | (_, false) => some []

/-- The state of the reader between two calls of `ReadBlock`: the read buffer
holds the first `BlockSize` of the lines `rest` that are still to be
delivered, the file the others. -/
def ReaderReady (r : TPoolReader) (rest : List String) : Prop :=
  r.ReadBuffer = rest.take (toSizeT r.BlockSize) ∧ r.Reader = rest.drop (toSizeT r.BlockSize)

/-- The fault `cannotParseFloat tok col row` names a token of a numeric column
of the line with the words `words`: `row` is `LinesRead + lineIdx + 1`, and
`col` is the 1-based position, counted from column `i`, of the token `tok`,
which is not empty, does not parse and is not a NaN literal. -/
def RejectedNum (env : TEnv) (r : TPoolReader) (lineIdx : Nat) (words : List String)
    (columns : List TColumn) (i : Nat) (tok : String) (col row : Nat) : Prop :=
  row = r.LinesRead + lineIdx + 1 ∧
    ∃ k, col = i + k + 1 ∧ words[k]? = some tok ∧
      (columns[k]?).map TColumn.ColType = some .Num ∧
      env.TryFromStringFloat tok = none ∧ IsNanToken tok = false ∧ tok ≠ ""

/-- The data lines of a pool file: its lines without the header line. -/
def dataLines (hasHeader : Bool) (poolLines : List String) : List String :=
  if hasHeader then poolLines.tail else poolLines

/-! ## Concrete inputs used in examples -/

/-- Scenario E of the specification: documents `A B C D` and the pair `(0, 3)`. -/
def scenarioE : TPool :=
  { Docs := [docNamed "A", docNamed "B", docNamed "C", docNamed "D"], Pairs := [⟨0, 3⟩] }

/-- A document that only has factors. -/
def docOf (factors : List TFloat) : TDocInfo := { Factors := factors }

/-- `1.0f`, `2.0f` and a NaN. -/
def f1 : TFloat := ⟨0x3F800000⟩
def f2 : TFloat := ⟨0x40000000⟩

/-- A border selection that returns no border. -/
def noBorders : List TFloat → Int → EBorderSelectionType → List TFloat := fun _ _ _ => []

/-- A border selection that returns the single border `lowest()`. -/
def lowestBorder : List TFloat → Int → EBorderSelectionType → List TFloat :=
  fun _ _ _ => [TFloat.lowest]

/-- A border selection that returns the two borders `2.0f, 1.0f`, in this order. -/
def twoBorders : List TFloat → Int → EBorderSelectionType → List TFloat :=
  fun _ _ _ => [f2, f1]

/-- A context without categorical features, `BorderCount = 1` and room for two
feature computations on a one-document pool. -/
def ctxTwoThreads (nanMode : ENanMode) : TLearnContext :=
  ⟨[], ⟨1, 0, nanMode, 2 * 2097208⟩⟩

/-- A splitter on a delimiter that keeps empty tokens, on the characters of a line. -/
def splitChars (delim : Char) : List Char → List Char → List (List Char)
  | [], cur => [cur]
  | c :: cs, cur =>
    if c = delim then cur :: splitChars delim cs [] else splitChars delim cs (cur ++ [c])

/-- An instance of the library functions for examples: tokens are split on the
delimiter, the floats that parse are `0`, `1` and `2`, the hash of a string is
its length. -/
def testEnv : TEnv where
  SplitRangeTo := fun delim s => (splitChars delim s.data []).map String.mk
  TryFromStringFloat := fun s =>
    if s = "0" then some ⟨0⟩ else if s = "1" then some f1 else if s = "2" then some f2 else none
  FromStringDouble := fun s => if s = "0" then some ⟨0⟩ else none
  CalcCatFeatureHash := fun s => (s.length : Int)
  IntToFloat := fun n => if n = 0 then ⟨0⟩ else if n = 1 then f1 else f2
  ReadPairs := fun _ _ => .ok []

/-- Three builder calls: a block of two documents and two categorical values of
the same hash (`testEnv` hashes a string to its length). -/
def exampleCalls : List TBuilderCall :=
  [.StartNextBlock 2, .AddCatFeature 0 0 "red", .AddCatFeature 1 0 "sun"]

/-- The builder after `exampleCalls` on a new builder started with one factor. -/
def exampleBuilder : TPoolBuilder :=
  match runCalls testEnv exampleCalls ((InitBuilder {}).Start { FactorCount := 1 }) with
  | .ok b => b
  | .error _ => InitBuilder {}

/-- A column description with a target and one numeric feature. -/
def targetNum : List TColumn := [⟨.Target, ""⟩, ⟨.Num, ""⟩]

/-- A pool file of four data lines for `targetNum`. -/
def fourLines : List String := ["1,2", "0,1", "1,0", "2,2"]

/-- The reader that the constructor returns on `fourLines` with blocks of two lines. -/
def fourLinesReader : TPoolReader :=
  match TPoolReader.create testEnv (some targetNum) 2 fourLines "" 1 ',' false [] 2 with
  | .ok r => r
  | .error _ => ⟨"", 1, 0, ',', false, [], 2, [], [], {}, [], [], []⟩

/-- A new builder started with the meta information of `fourLinesReader`. -/
def fourLinesBuilder : TPoolBuilder := (InitBuilder {}).Start fourLinesReader.PoolMetaInfo

/-- A pool file with a header line and one data line whose numeric token does not parse. -/
def headerAndBadLine : List String := ["t,n", "1,x"]

/-- The reader that the constructor returns on `headerAndBadLine`. -/
def badLineReader : TPoolReader :=
  match TPoolReader.create testEnv (some targetNum) 2 headerAndBadLine "" 1 ',' true [] 10000 with
  | .ok r => r
  | .error _ => ⟨"", 1, 0, ',', false, [], 2, [], [], {}, [], [], []⟩

/-- Two documents `A B`. -/
def twoDocs : TPool := { Docs := [docNamed "A", docNamed "B"] }

/-- A pool left by an earlier load: one document, one pair, one feature id and
one entry of the hash from categorical hashes to strings. -/
def loadedPool : TPool :=
  { Docs := [docNamed "A"], CatFeatures := [0], FeatureId := ["colour"],
    CatFeaturesHashToString := [(3, "red")], Pairs := [⟨0, 0⟩] }

/-- `3.0f`. -/
def f3 : TFloat := ⟨0x40400000⟩

/-- Scenario C of the specification: one numeric feature with the values
`1.0, NaN, 2.0, 3.0`. -/
def scenarioC : List TDocInfo :=
  [docOf [f1], docOf [TFloat.quietNaN], docOf [f2], docOf [f3]]

/-- The context of scenario C: no categorical feature, `BorderCount = 2`, the
given NaN mode and room for one feature computation on four documents. -/
def ctxScenarioC (nanMode : ENanMode) : TLearnContext :=
  ⟨[], ⟨2, 0, nanMode, 2097408⟩⟩

/-- A context in which factor `1` is categorical, with `BorderCount = 1`,
`NanMode = Min` and the given memory limit; on a one-document pool one feature
computation is estimated at `2097208` bytes. -/
def ctxOneCateg (usedRAMLimit : Nat) : TLearnContext :=
  ⟨[1], ⟨1, 0, .Min, usedRAMLimit⟩⟩

/-- A column description with a target and two numeric features. -/
def targetNumNum : List TColumn := [⟨.Target, ""⟩, ⟨.Num, ""⟩, ⟨.Num, ""⟩]

/-- Scenario F of the specification: five lines for three columns, the fifth
with two tokens. -/
def scenarioFLines : List String := ["1,1,1", "0,1,2", "1,2,1", "0,2,2", "1,2"]

/-- The reader on `scenarioFLines` after its first `ReadBlock`, with blocks of
ten lines: the five lines are in the parse buffer. -/
def scenarioFReader : TPoolReader :=
  match TPoolReader.create testEnv (some targetNumNum) 3 scenarioFLines "" 1 ',' false [] 10 with
  | .ok r => r.ReadBlock.1
  | .error _ => ⟨"", 1, 0, ',', false, [], 10, [], [], {}, [], [], []⟩

/-! ## Proofs -/

/-! ## The cycle loop of `ApplyPermutation` -/

theorem swapIdx_swapIdx (i j k : Nat) : swapIdx i j (swapIdx i j k) = k := by
  unfold swapIdx
  by_cases h1 : k = j <;> by_cases h2 : k = i <;> by_cases h3 : i = j <;> simp_all

theorem swapIdx_lt {n i j k : Nat} (hi : i < n) (hj : j < n) (hk : k < n) :
    swapIdx i j k < n := by
  unfold swapIdx
  split_ifs <;> assumption

theorem DoSwap_spec {α : Type} (v : List α) {i j : Nat} (hi : i < v.length)
    (hj : j < v.length) :
    ∃ v', DoSwap v i j = some v' ∧ v'.length = v.length ∧
      ∀ k, v'[k]? = v[swapIdx i j k]? := by
  refine ⟨(v.set i v[j]).set j v[i], ?_, by simp, ?_⟩
  · simp [DoSwap, List.getElem?_eq_getElem hi, List.getElem?_eq_getElem hj]
  · intro k
    unfold swapIdx
    by_cases h1 : k = j
    · subst h1
      simp [List.getElem?_set, hi, List.getElem?_eq_getElem hi, hj]
    · by_cases h2 : k = i
      · subst h2
        have : ¬ j = k := fun h => h1 h.symm
        simp [List.getElem?_set, this, h1, hi, List.getElem?_eq_getElem hj]
      · have h3 : ¬ j = k := fun h => h1 h.symm
        have h4 : ¬ i = k := fun h => h2 h.symm
        simp [List.getElem?_set, h1, h2, h3, h4]

theorem CycleInv.init {perm : List Nat} {docs : List TDocInfo} (hp : IsPermutation perm)
    (hlen : perm.length = docs.length) :
    CycleInv perm.length docs perm 0 docs perm where
  docsLen := hlen.symm
  toLen := rfl
  bound := by
    intro j v h
    exact hp.2 v (List.mem_iff_getElem?.2 ⟨j, h⟩)
  inj := by
    intro a b ha hb h
    rw [List.getElem?_eq_getElem ha, List.getElem?_eq_getElem hb] at h
    exact (hp.1.getElem_inj_iff).1 (Option.some.inj h)
  settled := by intro j hj; omega
  source := fun k hk => ⟨k, hk, rfl, rfl⟩

theorem CycleInv.next {n i : Nat} {old docs : List TDocInfo} {perm toIndices : List Nat}
    (h : CycleInv n old perm i docs toIndices) (hi : toIndices[i]? = some i) :
    CycleInv n old perm (i + 1) docs toIndices :=
  { h with
    settled := by
      intro j hj
      rcases Nat.lt_succ_iff_lt_or_eq.1 hj with hlt | heq
      · exact h.settled j hlt
      · rw [heq]; exact hi }

theorem CycleInv.swap {n i d : Nat} {old docs docs' : List TDocInfo}
    {perm toIndices toIndices' : List Nat}
    (h : CycleInv n old perm i docs toIndices) (hi : i < n) (hd : toIndices[i]? = some d)
    (hne : d ≠ i)
    (hdocs : docs'.length = docs.length ∧ ∀ k, docs'[k]? = docs[swapIdx i d k]?)
    (hto : toIndices'.length = toIndices.length ∧
      ∀ k, toIndices'[k]? = toIndices[swapIdx i d k]?) :
    CycleInv n old perm i docs' toIndices' where
  docsLen := hdocs.1.trans h.docsLen
  toLen := hto.1.trans h.toLen
  bound := by
    intro j v hj
    rw [hto.2] at hj
    exact h.bound _ v hj
  inj := by
    intro a b ha hb hab
    have hdn : d < n := h.bound i d hd
    rw [hto.2, hto.2] at hab
    have := h.inj _ _ (swapIdx_lt hi hdn ha) (swapIdx_lt hi hdn hb) hab
    have h2 := congrArg (swapIdx i d) this
    rwa [swapIdx_swapIdx, swapIdx_swapIdx] at h2
  settled := by
    intro j hj
    have hjn : j < n := by omega
    have hdn : d < n := h.bound i d hd
    have hjd : j ≠ d := by
      intro hjd
      have h1 := h.settled j hj
      rw [hjd] at h1
      have := h.inj d i hdn hi (by rw [h1, hd])
      exact hne this
    have hji : j ≠ i := by omega
    rw [hto.2]
    simp only [swapIdx, hjd, hji, if_false]
    exact h.settled j hj
  source := by
    intro k hk
    have hdn : d < n := h.bound i d hd
    obtain ⟨j, hjn, hj1, hj2⟩ := h.source k hk
    refine ⟨swapIdx i d j, swapIdx_lt hi hdn hjn, ?_, ?_⟩
    · rw [hdocs.2, swapIdx_swapIdx]; exact hj1
    · rw [hto.2, swapIdx_swapIdx]; exact hj2

theorem nonFixed_swap_lt {n i d : Nat} {old docs : List TDocInfo}
    {perm toIndices toIndices' : List Nat}
    (h : CycleInv n old perm i docs toIndices) (hi : i < n) (hd : toIndices[i]? = some d)
    (hne : d ≠ i)
    (hto : toIndices'.length = toIndices.length ∧
      ∀ k, toIndices'[k]? = toIndices[swapIdx i d k]?) :
    (nonFixed toIndices').card + 1 ≤ (nonFixed toIndices).card ∧
      2 ≤ (nonFixed toIndices).card := by
  have hdn : d < n := h.bound i d hd
  have hlen := h.toLen
  have hdd : toIndices[d]? ≠ some d := by
    intro hdd
    exact hne (h.inj d i hdn hi (by rw [hdd, hd]))
  have hdmem : d ∈ nonFixed toIndices :=
    Finset.mem_filter.2 ⟨Finset.mem_range.2 (by omega), hdd⟩
  have himem : i ∈ nonFixed toIndices :=
    Finset.mem_filter.2 ⟨Finset.mem_range.2 (by omega), by rw [hd]; simpa using hne⟩
  have hsub : nonFixed toIndices' ⊆ (nonFixed toIndices).erase d := by
    intro k hk
    simp only [nonFixed, Finset.mem_filter, Finset.mem_range, hto.1, hlen] at hk
    obtain ⟨hkn, hk2⟩ := hk
    rw [hto.2] at hk2
    have hkd : k ≠ d := by
      intro hkd
      apply hk2
      simp [swapIdx, hkd, hd]
    refine Finset.mem_erase.2 ⟨hkd, ?_⟩
    simp only [nonFixed, Finset.mem_filter, Finset.mem_range, hlen]
    refine ⟨hkn, ?_⟩
    by_cases hki : k = i
    · rw [hki, hd]; simpa using hne
    · simpa [swapIdx, hkd, hki] using hk2
  have hcard := Finset.card_le_card hsub
  rw [Finset.card_erase_of_mem hdmem] at hcard
  have hpos : 0 < (nonFixed toIndices).card := Finset.card_pos.2 ⟨d, hdmem⟩
  have htwo : 2 ≤ (nonFixed toIndices).card := by
    have : ({i, d} : Finset Nat) ⊆ nonFixed toIndices := by
      intro x hx
      rcases Finset.mem_insert.1 hx with hx | hx
      · rw [hx]; exact himem
      · rw [Finset.mem_singleton.1 hx]; exact hdmem
    have h2 := Finset.card_le_card this
    rwa [Finset.card_pair (Ne.symm hne)] at h2
  exact ⟨by omega, htwo⟩

/-- With enough fuel the cycle loop of a permutation is left, in a state that
satisfies the invariant at `i = n`, after fewer swaps than there were
positions out of place. -/
theorem cycleLoop_ok (n : Nat) (old : List TDocInfo) (perm : List Nat) :
    ∀ (fuel i : Nat) (docs : List TDocInfo) (toIndices : List Nat) (swaps : Nat),
      CycleInv n old perm i docs toIndices → i ≤ n →
      (n - i) + (nonFixed toIndices).card + 1 ≤ fuel →
      ∃ docs' toIndices' swaps',
        cycleLoop n fuel i docs toIndices swaps = .ok (docs', toIndices', swaps') ∧
        CycleInv n old perm n docs' toIndices' ∧
        swaps' + 1 ≤ swaps + max 1 (nonFixed toIndices).card := by
  intro fuel
  induction fuel with
  | zero => intro i docs toIndices swaps _ _ hf; omega
  | succ fuel ih =>
    intro i docs toIndices swaps hinv hin hf
    unfold cycleLoop
    by_cases hlt : i < n
    · have hti : i < toIndices.length := by rw [hinv.toLen]; exact hlt
      simp only [hlt, if_true, List.getElem?_eq_getElem hti]
      by_cases hfix : toIndices[i] = i
      · simp only [hfix, ne_eq, not_true_eq_false, if_false]
        have hinv' := hinv.next (by rw [List.getElem?_eq_getElem hti, hfix])
        obtain ⟨docs', to', swaps', h1, h2, h3⟩ :=
          ih (i + 1) docs toIndices swaps hinv' (by omega) (by omega)
        exact ⟨docs', to', swaps', h1, h2, h3⟩
      · simp only [ne_eq, hfix, not_false_eq_true, if_true]
        have hd : toIndices[i]? = some toIndices[i] := List.getElem?_eq_getElem hti
        have hdn : toIndices[i] < n := hinv.bound i _ hd
        obtain ⟨docs1, hdocs1, hdocs2⟩ :=
          DoSwap_spec docs (i := i) (j := toIndices[i]) (by rw [hinv.docsLen]; exact hlt)
            (by rw [hinv.docsLen]; exact hdn)
        obtain ⟨to1, hto1, hto2⟩ :=
          DoSwap_spec toIndices (i := i) (j := toIndices[i]) hti (by rw [hinv.toLen]; exact hdn)
        simp only [hdocs1, hto1]
        have hinv' := hinv.swap hlt hd hfix hdocs2 hto2
        have hm := nonFixed_swap_lt hinv hlt hd hfix hto2
        obtain ⟨docs', to', swaps', h1, h2, h3⟩ :=
          ih i docs1 to1 (swaps + 1) hinv' hin (by omega)
        refine ⟨docs', to', swaps', h1, h2, ?_⟩
        omega
    · simp only [hlt, if_false]
      exact ⟨docs, toIndices, swaps, rfl,
        { hinv with settled := fun j hj => hinv.settled j (by omega) }, by omega⟩

theorem nonFixed_card_le (toIndices : List Nat) : (nonFixed toIndices).card ≤ toIndices.length := by
  unfold nonFixed
  calc ((Finset.range toIndices.length).filter _).card
      ≤ (Finset.range toIndices.length).card := Finset.card_filter_le _ _
    _ = toIndices.length := Finset.card_range _

/-- At the end of the loop the document that was at `k` is at `perm[k]`. -/
theorem CycleInv.final {n : Nat} {old docs : List TDocInfo} {perm toIndices : List Nat}
    (h : CycleInv n old perm n docs toIndices) (k : Nat) (hk : k < n) :
    ∃ p, perm[k]? = some p ∧ p < n ∧ docs[p]? = old[k]? := by
  obtain ⟨j, hjn, hj1, hj2⟩ := h.source k hk
  rw [h.settled j hjn] at hj2
  exact ⟨j, hj2.symm, hjn, hj1⟩

theorem CycleInv.toIndices_eq {n : Nat} {old docs : List TDocInfo} {perm toIndices : List Nat}
    (h : CycleInv n old perm n docs toIndices) : toIndices = List.range n := by
  apply List.ext_getElem?
  intro j
  by_cases hj : j < n
  · rw [h.settled j hj, List.getElem?_range hj]
  · rw [List.getElem?_eq_none (by rw [h.toLen]; omega),
      List.getElem?_eq_none (by rw [List.length_range]; omega)]

/-! ## `ApplyPermutation` -/

/-- The pair loop on valid pairs: every id is replaced by its entry in the permutation. -/
theorem rewritePairs_ok (permutation : List Nat) :
    ∀ pairs : List TPair, PairsValid permutation.length pairs →
      rewritePairs permutation pairs =
        .ok (pairs.map fun pair =>
          ⟨permutation.getD pair.WinnerId 0, permutation.getD pair.LoserId 0⟩) := by
  intro pairs
  induction pairs with
  | nil => intro _; rfl
  | cons pair rest ih =>
    intro hv
    have h1 := hv pair (List.mem_cons_self _ _)
    have h2 : PairsValid permutation.length rest :=
      fun q hq => hv q (List.mem_cons_of_mem _ hq)
    simp only [rewritePairs, List.getElem?_eq_getElem h1.1, List.getElem?_eq_getElem h1.2,
      ih h2, List.map_cons, List.getD_eq_getElem?_getD, Option.getD_some]

/-- For a permutation, matching sizes and valid pairs, `2n+1` loop tests are
enough: the call returns, the document that was at `k` is at `permutation[k]`
and the pairs are rewritten through the permutation. -/
theorem ApplyPermutation_ok (fuel : Nat) (permutation : List Nat) (pool : TPool)
    (hperm : IsPermutation permutation) (hlen : permutation.length = pool.Docs.length)
    (hpairs : PairsValid pool.Docs.length pool.Pairs)
    (hfuel : 2 * pool.Docs.length + 1 ≤ fuel) :
    ∃ docs, ApplyPermutation fuel permutation pool =
        .ok { pool with
              Docs := docs
              Pairs := pool.Pairs.map fun pair =>
                ⟨permutation.getD pair.WinnerId 0, permutation.getD pair.LoserId 0⟩ } ∧
      docs.length = pool.Docs.length ∧
      ∀ k, k < pool.Docs.length →
        ∃ p, permutation[k]? = some p ∧ p < pool.Docs.length ∧ docs[p]? = pool.Docs[k]? := by
  have hinv := CycleInv.init hperm hlen
  have hcard := nonFixed_card_le permutation
  obtain ⟨docs, to', swaps', h1, h2, _⟩ :=
    cycleLoop_ok permutation.length pool.Docs permutation fuel 0 pool.Docs permutation 0 hinv
      (Nat.zero_le _) (by omega)
  refine ⟨docs, ?_, by rw [h2.docsLen, hlen], ?_⟩
  · unfold ApplyPermutation
    rw [← hlen] at hpairs
    simp only [hlen, ne_eq, not_true_eq_false, if_false]
    rw [← hlen, h1, rewritePairs_ok permutation pool.Pairs hpairs]
  · intro k hk
    rw [← hlen] at hk ⊢
    exact h2.final k hk

/-! ## `InvertPermutation` -/

/-- A permutation of `0 .. n-1` holds every index below `n`. -/
theorem IsPermutation.mem_of_lt {p : List Nat} (hp : IsPermutation p) {x : Nat}
    (hx : x < p.length) : x ∈ p := by
  have hsub : p ⊆ List.range p.length := fun y hy => List.mem_range.2 (hp.2 y hy)
  have hperm : p.Perm (List.range p.length) :=
    (List.subperm_of_subset hp.1 hsub).perm_of_length_le (by simp)
  exact hperm.mem_iff.2 (List.mem_range.2 hx)

theorem invertLoop_ok :
    ∀ (rest : List Nat) (i : Nat) (result : List Nat),
      (∀ x ∈ rest, x < result.length) → rest.Nodup →
      ∃ r, invertLoop rest i result = .ok r ∧ r.length = result.length ∧
        (∀ (j : Nat), j < rest.length → ∃ p, rest[j]? = some p ∧ r[p]? = some (i + j)) ∧
        (∀ (x : Nat), x ∉ rest → r[x]? = result[x]?) := by
  intro rest
  induction rest with
  | nil =>
    intro i result _ _
    exact ⟨result, rfl, rfl, by intro j hj; simp at hj, fun _ _ => rfl⟩
  | cons p rest ih =>
    intro i result hb hnd
    have hp : p < result.length := hb p (List.mem_cons_self _ _)
    have hnd' := List.nodup_cons.1 hnd
    obtain ⟨r, h1, h2, h3, h4⟩ := ih (i + 1) (result.set p i)
      (by intro x hx; rw [List.length_set]; exact hb x (List.mem_cons_of_mem _ hx)) hnd'.2
    refine ⟨r, by simp only [invertLoop, hp, if_true, h1], by rw [h2, List.length_set], ?_, ?_⟩
    · intro j hj
      cases j with
      | zero =>
        refine ⟨p, by simp, ?_⟩
        rw [h4 p hnd'.1, List.getElem?_set]
        simp [hp]
      | succ j =>
        obtain ⟨q, hq1, hq2⟩ := h3 j (by simpa using hj)
        refine ⟨q, by simpa using hq1, ?_⟩
        rw [hq2]; congr 1; omega
    · intro x hx
      have hx1 : x ≠ p := fun h => hx (h ▸ List.mem_cons_self _ _)
      have hx2 : x ∉ rest := fun h => hx (List.mem_cons_of_mem _ h)
      rw [h4 x hx2, List.getElem?_set]
      simp [Ne.symm hx1]

/-- `InvertPermutation` of a permutation returns a permutation of the same
length that sends `permutation[j]` back to `j`. -/
theorem InvertPermutation_ok (permutation : List Nat) (hperm : IsPermutation permutation) :
    ∃ inv, InvertPermutation permutation = .ok inv ∧ inv.length = permutation.length ∧
      IsPermutation inv ∧
      (∀ (j : Nat), j < permutation.length →
        ∃ p, permutation[j]? = some p ∧ inv[p]? = some j) := by
  obtain ⟨inv, h1, h2, h3, _⟩ := invertLoop_ok permutation 0
    (List.replicate permutation.length 0)
    (by intro x hx; rw [List.length_replicate]; exact hperm.2 x hx) hperm.1
  rw [List.length_replicate] at h2
  have hback : ∀ (j : Nat), j < permutation.length →
      ∃ p, permutation[j]? = some p ∧ inv[p]? = some j := by
    intro j hj
    obtain ⟨p, hp1, hp2⟩ := h3 j hj
    exact ⟨p, hp1, by simpa using hp2⟩
  have hsrc : ∀ (a : Nat), a < inv.length →
      ∃ j, j < permutation.length ∧ permutation[j]? = some a ∧ inv[a]? = some j := by
    intro a ha
    rw [h2] at ha
    obtain ⟨j, hj⟩ := List.mem_iff_getElem?.1 (hperm.mem_of_lt ha)
    have hjl : j < permutation.length := by
      obtain ⟨h, _⟩ := List.getElem?_eq_some.1 hj
      exact h
    obtain ⟨p, hp1, hp2⟩ := hback j hjl
    rw [hj] at hp1
    cases hp1
    exact ⟨j, hjl, hj, hp2⟩
  refine ⟨inv, h1, h2, ⟨?_, ?_⟩, hback⟩
  · rw [List.nodup_iff_getElem?_ne_getElem?]
    intro a b hab hb heq
    obtain ⟨j, _, hj1, hj2⟩ := hsrc a (by omega)
    obtain ⟨j', _, hj1', hj2'⟩ := hsrc b hb
    rw [hj2, hj2'] at heq
    cases heq
    rw [hj1] at hj1'
    cases hj1'
    omega
  · intro x hx
    obtain ⟨a, ha⟩ := List.mem_iff_getElem?.1 hx
    obtain ⟨hal, _⟩ := List.getElem?_eq_some.1 ha
    obtain ⟨j, hjl, _, hj2⟩ := hsrc a hal
    rw [ha] at hj2
    cases hj2
    rw [h2]; exact hjl

/-! ## Claims on `ApplyPermutation` -/

/-- C1 (as stated) fails: on documents `A B C D` with `π = [2,0,3,1]` the call
returns `B D A C`, whose document at position 0 is not the one that was at
position `π[0] = 2`. -/
theorem C1_gather_counterexample :
    ApplyPermutation 9 [2, 0, 3, 1] scenarioE =
        .ok { Docs := [docNamed "B", docNamed "D", docNamed "A", docNamed "C"],
              Pairs := [⟨2, 1⟩] } ∧
      [docNamed "B", docNamed "D", docNamed "A", docNamed "C"][0]? ≠ scenarioE.Docs[[2, 0, 3, 1][0]]? := by
  decide

/-- C1 (amended): for every pool with valid pairs and every permutation `π` of
`0 .. n-1`, `n = |Docs|`, `ApplyPermutation(π, pool)` returns and the document at
position `π[i]` is the document that was at position `i` before the call. -/
theorem C1_ApplyPermutation_scatters (fuel : Nat) (permutation : List Nat) (pool : TPool)
    (hperm : IsPermutation permutation) (hlen : permutation.length = pool.Docs.length)
    (hpairs : PairsValid pool.Docs.length pool.Pairs)
    (hfuel : 2 * pool.Docs.length + 1 ≤ fuel) :
    ∃ pool', ApplyPermutation fuel permutation pool = .ok pool' ∧
      pool'.Docs.length = pool.Docs.length ∧
      ∀ (i : Nat) (hi : i < permutation.length),
        pool'.Docs[permutation[i]]? = pool.Docs[i]? := by
  obtain ⟨docs, h1, h2, h3⟩ := ApplyPermutation_ok fuel permutation pool hperm hlen hpairs hfuel
  refine ⟨_, h1, h2, ?_⟩
  intro i hi
  obtain ⟨p, hp1, _, hp2⟩ := h3 i (hlen ▸ hi)
  rw [List.getElem?_eq_getElem hi] at hp1
  cases hp1
  exact hp2

/-- C1 (amended) at scenario E. -/
theorem C1_ApplyPermutation_scatters_witness :
    ∃ pool', ApplyPermutation 9 [2, 0, 3, 1] scenarioE = .ok pool' ∧
      pool'.Docs.length = scenarioE.Docs.length ∧
      ∀ (i : Nat) (hi : i < [2, 0, 3, 1].length),
        pool'.Docs[[2, 0, 3, 1][i]]? = scenarioE.Docs[i]? :=
  C1_ApplyPermutation_scatters 9 [2, 0, 3, 1] scenarioE (by decide) (by decide) (by decide)
    (by decide)

/-- C6: for every pool with valid pairs and every permutation `π` of
`0 .. |Docs|-1`, `InvertPermutation(π)` returns, and `ApplyPermutation(π)`
followed by `ApplyPermutation(InvertPermutation(π))` returns the original pool:
same documents at every position, same pairs, everything else untouched. -/
theorem C6_apply_then_inverse_restores (fuel : Nat) (permutation : List Nat) (pool : TPool)
    (hperm : IsPermutation permutation) (hlen : permutation.length = pool.Docs.length)
    (hpairs : PairsValid pool.Docs.length pool.Pairs)
    (hfuel : 2 * pool.Docs.length + 1 ≤ fuel) :
    ∃ inv pool1, InvertPermutation permutation = .ok inv ∧
      ApplyPermutation fuel permutation pool = .ok pool1 ∧
      ApplyPermutation fuel inv pool1 = .ok pool := by
  obtain ⟨docs1, h1, h2, h3⟩ := ApplyPermutation_ok fuel permutation pool hperm hlen hpairs hfuel
  obtain ⟨inv, i1, i2, i3, i4⟩ := InvertPermutation_ok permutation hperm
  refine ⟨inv, _, i1, h1, ?_⟩
  have hget : ∀ (w : Nat), w < pool.Docs.length →
      permutation.getD w 0 < pool.Docs.length ∧
        inv.getD (permutation.getD w 0) 0 = w := by
    intro w hw
    obtain ⟨p, hp1, hp2⟩ := i4 w (hlen ▸ hw)
    obtain ⟨q, hq1, hq2, _⟩ := h3 w hw
    rw [hp1] at hq1
    cases hq1
    simp only [List.getD_eq_getElem?_getD, hp1, hp2, Option.getD_some]
    exact ⟨hq2, trivial⟩
  obtain ⟨docs2, k1, k2, k3⟩ := ApplyPermutation_ok fuel inv
    { pool with
      Docs := docs1
      Pairs := pool.Pairs.map fun pair =>
        ⟨permutation.getD pair.WinnerId 0, permutation.getD pair.LoserId 0⟩ }
    i3 (by simp only [i2, hlen, h2])
    (by
      intro pair hpair
      obtain ⟨q, hq, rfl⟩ := List.mem_map.1 hpair
      simp only [h2]
      exact ⟨(hget _ (hpairs q hq).1).1, (hget _ (hpairs q hq).2).1⟩)
    (by simp only [h2]; exact hfuel)
  rw [k1]
  have hdocs : docs2 = pool.Docs := by
    apply List.ext_getElem?
    intro k
    by_cases hk : k < pool.Docs.length
    · obtain ⟨p, hp1, hp2, hp3⟩ := h3 k hk
      obtain ⟨q, hq1, _, hq3⟩ := k3 p (by simp only [h2]; exact hp2)
      obtain ⟨p', hp1', hp2'⟩ := i4 k (hlen ▸ hk)
      rw [hp1] at hp1'
      cases hp1'
      rw [hp2'] at hq1
      cases hq1
      rw [hq3]; exact hp3
    · simp only [h2] at k2
      rw [List.getElem?_eq_none (by omega), List.getElem?_eq_none (by omega)]
  have hpairs' : (pool.Pairs.map fun pair : TPair =>
      (⟨permutation.getD pair.WinnerId 0, permutation.getD pair.LoserId 0⟩ : TPair)).map
        (fun pair => (⟨inv.getD pair.WinnerId 0, inv.getD pair.LoserId 0⟩ : TPair)) =
      pool.Pairs := by
    rw [List.map_map]
    conv_rhs => rw [← List.map_id pool.Pairs]
    apply List.map_congr_left
    intro pair hpair
    simp only [Function.comp, (hget _ (hpairs pair hpair).1).2,
      (hget _ (hpairs pair hpair).2).2, id]
  simp only [hdocs, hpairs']

/-- C6 at scenario E. -/
theorem C6_apply_then_inverse_restores_witness :
    ∃ inv pool1, InvertPermutation [2, 0, 3, 1] = .ok inv ∧
      ApplyPermutation 9 [2, 0, 3, 1] scenarioE = .ok pool1 ∧
      ApplyPermutation 9 inv pool1 = .ok scenarioE :=
  C6_apply_then_inverse_restores 9 [2, 0, 3, 1] scenarioE (by decide) (by decide) (by decide)
    (by decide)

/-! ## `ApplyPermutation` on a list that is not a permutation -/

theorem DoSwap_eq_some {α : Type} {v v' : List α} {i j : Nat} (h : DoSwap v i j = some v') :
    i < v.length ∧ j < v.length ∧ v'.length = v.length ∧
      ∀ k, v'[k]? = v[swapIdx i j k]? := by
  have hi : i < v.length := by
    by_contra hc
    simp [DoSwap, List.getElem?_eq_none (Nat.le_of_not_lt hc)] at h
  have hj : j < v.length := by
    by_contra hc
    simp [DoSwap, List.getElem?_eq_none (Nat.le_of_not_lt hc)] at h
  obtain ⟨w, hw1, hw2, hw3⟩ := DoSwap_spec v hi hj
  rw [hw1] at h
  cases h
  exact ⟨hi, hj, hw2, hw3⟩

/-- The cycle loop raises no checked error: it returns, leaves the vector, or
is still running when the fuel is used up. -/
theorem cycleLoop_error (n : Nat) :
    ∀ (fuel i : Nat) (docs : List TDocInfo) (toIndices : List Nat) (swaps : Nat) (e : Fault),
      cycleLoop n fuel i docs toIndices swaps = .error e →
      e = .outOfRange ∨ e = .outOfFuel := by
  intro fuel
  induction fuel with
  | zero =>
    intro i docs toIndices swaps e h
    simp only [cycleLoop] at h
    cases h
    exact Or.inr rfl
  | succ fuel ih =>
    intro i docs toIndices swaps e h
    unfold cycleLoop at h
    split at h
    · split at h
      · cases h; exact Or.inl rfl
      · split at h
        · split at h
          · exact ih _ _ _ _ _ h
          · cases h; exact Or.inl rfl
        · exact ih _ _ _ _ _ h
    · cases h

/-- When the cycle loop returns, the list it started from was a permutation. -/
theorem cycleLoop_ok_isPermutation (perm : List Nat) :
    ∀ (fuel i : Nat) (docs : List TDocInfo) (toIndices : List Nat) (swaps : Nat)
      (r : List TDocInfo × List Nat × Nat),
      toIndices.length = perm.length →
      (∃ sigma tau, Rearr perm.length sigma tau ∧
        ∀ k, k < perm.length → toIndices[k]? = perm[sigma k]?) →
      (∀ (j : Nat), j < i → j < perm.length → toIndices[j]? = some j) →
      cycleLoop perm.length fuel i docs toIndices swaps = .ok r →
      IsPermutation perm := by
  intro fuel
  induction fuel with
  | zero =>
    intro i docs toIndices swaps r _ _ _ h
    simp [cycleLoop] at h
  | succ fuel ih =>
    intro i docs toIndices swaps r hlen hre hset h
    unfold cycleLoop at h
    split at h
    · rename_i hin
      split at h
      · cases h
      · rename_i d hd
        split at h
        · rename_i hne
          split at h
          · rename_i docs' to' hs1 hs2
            obtain ⟨_, hdn, hlen', hto⟩ := DoSwap_eq_some hs2
            obtain ⟨sigma, tau, hst, hrel⟩ := hre
            have hdl : d < perm.length := hlen ▸ hdn
            apply ih i docs' to' (swaps + 1) r (hlen' ▸ hlen) _ _ h
            · refine ⟨fun k => sigma (swapIdx i d k), fun k => swapIdx i d (tau k), ?_, ?_⟩
              · intro k hk
                have hs := swapIdx_lt hin hdl hk
                refine ⟨(hst _ hs).1, swapIdx_lt hin hdl (hst k hk).2.1, ?_, ?_⟩
                · simp only [swapIdx_swapIdx]; exact (hst k hk).2.2.1
                · simp only []
                  rw [(hst _ hs).2.2.2, swapIdx_swapIdx]
              · intro k hk
                rw [hto k]
                exact hrel _ (swapIdx_lt hin hdl hk)
            · intro j hj hjn
              rw [hto j]
              by_cases hjd : j = d
              · simp only [swapIdx, hjd, if_true]
                exact hd
              · have hji : j ≠ i := by omega
                simp only [swapIdx, hjd, hji, if_false]
                exact hset j hj hjn
          · cases h
        · rename_i heq
          have heq' : d = i := by
            by_contra hc
            exact heq hc
          subst heq'
          apply ih (d + 1) docs toIndices swaps r hlen hre _ h
          intro j hj hjn
          rcases Nat.lt_succ_iff_lt_or_eq.1 hj with hlt | hjeq
          · exact hset j hlt hjn
          · rw [hjeq]; exact hd
    · rename_i hin
      obtain ⟨sigma, tau, hst, hrel⟩ := hre
      have hfix : ∀ (k : Nat), k < perm.length → perm[sigma k]? = some k := by
        intro k hk
        rw [← hrel k hk]
        exact hset k (by omega) hk
      have hval : ∀ (a : Nat), a < perm.length → perm[a]? = some (tau a) := by
        intro a ha
        have := hfix (tau a) (hst a ha).2.1
        rwa [(hst a ha).2.2.1] at this
      constructor
      · rw [List.nodup_iff_getElem?_ne_getElem?]
        intro a b hab hb heq
        rw [hval a (by omega), hval b hb] at heq
        have h1 := (hst a (by omega)).2.2.1
        have h2 := (hst b hb).2.2.1
        rw [Option.some.inj heq] at h1
        omega
      · intro x hx
        obtain ⟨a, ha⟩ := List.mem_iff_getElem?.1 hx
        obtain ⟨hal, _⟩ := List.getElem?_eq_some.1 ha
        rw [hval a hal] at ha
        cases ha
        exact (hst a hal).2.1

/-- `ApplyPermutation` on a vector of the right length that is not a
permutation never returns and never raises a checked error. -/
theorem ApplyPermutation_not_permutation (fuel : Nat) (permutation : List Nat) (pool : TPool)
    (hlen : permutation.length = pool.Docs.length) (hnp : ¬ IsPermutation permutation) :
    ApplyPermutation fuel permutation pool = .error .outOfRange ∨
      ApplyPermutation fuel permutation pool = .error .outOfFuel := by
  unfold ApplyPermutation
  simp only [hlen, ne_eq, not_true_eq_false, if_false]
  rw [← hlen]
  cases hc : cycleLoop permutation.length fuel 0 pool.Docs permutation 0 with
  | error e =>
    rcases cycleLoop_error _ _ _ _ _ _ _ hc with h | h <;> simp [h]
  | ok r =>
    exfalso
    apply hnp
    apply cycleLoop_ok_isPermutation permutation fuel 0 pool.Docs permutation 0 r rfl _ _ hc
    · exact ⟨id, id, fun k hk => ⟨hk, hk, rfl, rfl⟩, fun k _ => rfl⟩
    · intro j hj; omega

/-- The loop on `[1, 1]` swaps the two documents for ever. -/
theorem cycleLoop_one_one :
    ∀ (fuel : Nat) (docs : List TDocInfo) (swaps : Nat), docs.length = 2 →
      cycleLoop 2 fuel 0 docs [1, 1] swaps = .error .outOfFuel := by
  intro fuel
  induction fuel with
  | zero => intro docs swaps _; rfl
  | succ fuel ih =>
    intro docs swaps hd
    obtain ⟨docs', h1, h2, _⟩ := DoSwap_spec docs (i := 0) (j := 1) (by omega) (by omega)
    have h3 : DoSwap [1, 1] 0 1 = some [1, 1] := by decide
    unfold cycleLoop
    simp only [Nat.lt_succ_self, Nat.zero_lt_succ, if_true, List.getElem?_cons_zero, ne_eq,
      one_ne_zero, not_false_eq_true, h1, h3]
    exact ih docs' (swaps + 1) (h2.trans hd)

/-- C5 (as stated) fails: on `π = [1, 1]` and two documents no amount of loop
tests ends the call in anything but "still running": no error is raised and
the loop is never left. -/
theorem C5_no_error_counterexample :
    ¬ ∃ fuel, ApplyPermutation fuel [1, 1] twoDocs ≠ .error .outOfFuel := by
  rintro ⟨fuel, h⟩
  apply h
  unfold ApplyPermutation
  have := cycleLoop_one_one fuel twoDocs.Docs 0 rfl
  simp only [twoDocs, List.length_cons, List.length_nil] at this ⊢
  simp [this]

/-- C5 (amended): `ApplyPermutation(π, pool)` fails with the `Y_VERIFY` error
whenever `|π| ≠ |Docs|`, before any loop runs; when `|π| = |Docs|` and `π` is not a
permutation of `0 .. |Docs|-1` no error is raised and the call does not return:
it indexes out of range or is still in the cycle loop after any number of loop
tests. -/
theorem C5_ApplyPermutation_bad_input (fuel : Nat) (permutation : List Nat) (pool : TPool)
    (hbad : ¬ (permutation.length = pool.Docs.length ∧ IsPermutation permutation)) :
    if permutation.length ≠ pool.Docs.length then
      ApplyPermutation fuel permutation pool = .error .verifyFailed
    else
      ApplyPermutation fuel permutation pool = .error .outOfRange ∨
        ApplyPermutation fuel permutation pool = .error .outOfFuel := by
  by_cases hlen : permutation.length = pool.Docs.length
  · simp only [hlen, ne_eq, not_true_eq_false, if_false]
    exact ApplyPermutation_not_permutation fuel permutation pool hlen
      (fun hp => hbad ⟨hlen, hp⟩)
  · simp only [ne_eq, hlen, not_false_eq_true, if_true, ApplyPermutation]

/-- C5 (amended) at `π = [0]` on two documents: the sizes differ. -/
theorem C5_ApplyPermutation_bad_input_witness :
    ¬ ([0].length = twoDocs.Docs.length ∧ IsPermutation [0]) ∧
      ApplyPermutation 5 [0] twoDocs = .error .verifyFailed :=
  ⟨by decide, by
    have h := C5_ApplyPermutation_bad_input 5 [0] twoDocs (by decide)
    simpa [twoDocs] using h⟩

/-! ## `GenerateBorders`: what the loops leave in the output vectors -/

theorem calcOneFeatureBorder_ok
    {BestSplit : List TFloat → Int → EBorderSelectionType → List TFloat}
    {docInfos : List TDocInfo} {params : TFitParams} {floatIndexes : List Nat}
    {idx : Nat} {st st' : TBordersState}
    (h : calcOneFeatureBorder BestSplit docInfos params floatIndexes idx st = .ok st') :
    ∃ floatFeatureIdx vals hasNan,
      floatIndexes[idx]? = some floatFeatureIdx ∧
      collectVals floatFeatureIdx docInfos [] false = .ok (vals, hasNan) ∧
      idx < st.hasNans.length ∧ idx < st.borders.length ∧
      st' = { st with
              hasNans := st.hasNans.set idx hasNan
              borders := st.borders.set idx (bordersBlock BestSplit params vals hasNan).1
              taskFailedBecauseOfNans :=
                st.taskFailedBecauseOfNans || (bordersBlock BestSplit params vals hasNan).2
              calls := st.calls ++ [idx] } := by
  unfold calcOneFeatureBorder at h
  split at h
  · cases h
  · rename_i f hf
    split at h
    · rename_i hidx
      split at h
      · cases h
      · rename_i vals hasNan hc
        simp only [Except.ok.injEq] at h
        exact ⟨f, vals, hasNan, hf, hc, hidx.1, hidx.2, h.symm⟩
    · cases h

theorem forRange_done
    {BestSplit : List TFloat → Int → EBorderSelectionType → List TFloat}
    {docInfos : List TDocInfo} {params : TFitParams} {floatIndexes : List Nat} :
    ∀ (count first : Nat) (st st' : TBordersState),
      forRange (calcOneFeatureBorder BestSplit docInfos params floatIndexes) count first st
        = .ok st' →
      (∀ idx, idx < first → FeatureDone BestSplit docInfos params floatIndexes st idx) →
      (∀ idx, idx < first + count →
          FeatureDone BestSplit docInfos params floatIndexes st' idx) ∧
        st'.borders.length = st.borders.length ∧ st'.hasNans.length = st.hasNans.length ∧
        st'.execRanges = st.execRanges := by
  intro count
  induction count with
  | zero =>
    intro first st st' h hd
    simp only [forRange, Except.ok.injEq] at h
    subst h
    exact ⟨hd, rfl, rfl, rfl⟩
  | succ count ih =>
    intro first st st' h hd
    unfold forRange at h
    split at h
    · cases h
    · rename_i st1 h1
      obtain ⟨f, vals, hasNan, hf, hc, hi1, hi2, hst1⟩ := calcOneFeatureBorder_ok h1
      have hd1 : ∀ idx, idx < first + 1 →
          FeatureDone BestSplit docInfos params floatIndexes st1 idx := by
        intro idx hidx
        by_cases he : idx = first
        · subst he
          refine ⟨f, vals, hasNan, hf, hc, ?_, ?_⟩
          · rw [hst1]; simp [List.getElem?_set, hi2]
          · rw [hst1]; simp [List.getElem?_set, hi1]
        · obtain ⟨f', vals', hasNan', hf', hc', hb', hn'⟩ := hd idx (by omega)
          refine ⟨f', vals', hasNan', hf', hc', ?_, ?_⟩
          · rw [hst1]; simp only [List.getElem?_set, Ne.symm he, if_false]; exact hb'
          · rw [hst1]; simp only [List.getElem?_set, Ne.symm he, if_false]; exact hn'
      obtain ⟨r1, r2, r3, r4⟩ := ih (first + 1) st1 st' h hd1
      refine ⟨fun idx hidx => r1 idx (by omega), ?_, ?_, ?_⟩
      · rw [r2, hst1]; simp
      · rw [r3, hst1]; simp
      · rw [r4, hst1]

theorem batchLoop_done
    {BestSplit : List TFloat → Int → EBorderSelectionType → List TFloat}
    {docInfos : List TDocInfo} {params : TFitParams} {floatIndexes : List Nat}
    (threadCount reasonCount : Nat) :
    ∀ (fuel nReason : Nat) (st st' : TBordersState) (n' : Nat),
      batchLoop (calcOneFeatureBorder BestSplit docInfos params floatIndexes)
        threadCount reasonCount fuel nReason st = .ok (n', st') →
      nReason ≤ reasonCount →
      (∀ idx, idx < nReason → FeatureDone BestSplit docInfos params floatIndexes st idx) →
      (∀ b ∈ st.execRanges, b.2 = b.1 + threadCount) →
      (∀ idx, idx < n' → FeatureDone BestSplit docInfos params floatIndexes st' idx) ∧
        n' ≤ reasonCount ∧
        st'.borders.length = st.borders.length ∧ st'.hasNans.length = st.hasNans.length ∧
        (∀ b ∈ st'.execRanges, b.2 = b.1 + threadCount) := by
  intro fuel
  induction fuel with
  | zero =>
    intro nReason st st' n' h
    simp [batchLoop] at h
  | succ fuel ih =>
    intro nReason st st' n' h hle hd hr
    unfold batchLoop at h
    split at h
    · rename_i hfull
      split at h
      · cases h
      · rename_i st1 h1
        split at h
        · cases h
        · obtain ⟨r1, r2, r3, r4⟩ := forRange_done _ _ _ _ h1 hd
          have hr1 : ∀ b ∈ st1.execRanges, b.2 = b.1 + threadCount := by
            intro b hb
            rw [r4] at hb
            rcases List.mem_append.1 hb with hb | hb
            · exact hr b hb
            · simp only [List.mem_singleton] at hb
              rw [hb]
          obtain ⟨q1, q2, q3, q4, q5⟩ := ih _ st1 st' n' h hfull r1 hr1
          exact ⟨q1, q2, q3.trans r2, q4.trans r3, q5⟩
    · simp only [Except.ok.injEq, Prod.mk.injEq] at h
      obtain ⟨rfl, rfl⟩ := h
      exact ⟨hd, hle, rfl, rfl, hr⟩

/-- The batch loop raises no fault of its own except the NaN error: it can not
use up `reasonCount - nReason + 1` loop tests when `threadCount > 0`. -/
theorem batchLoop_fuel (calcOne : Nat → TBordersState → Except Fault TBordersState)
    (threadCount reasonCount : Nat) (hpos : 0 < threadCount)
    (hcalc : ∀ idx st, calcOne idx st ≠ .error .outOfFuel) :
    ∀ (fuel nReason : Nat) (st : TBordersState),
      reasonCount - nReason + 1 ≤ fuel →
      batchLoop calcOne threadCount reasonCount fuel nReason st ≠ .error .outOfFuel := by
  have hfor : ∀ (count first : Nat) (st : TBordersState),
      forRange calcOne count first st ≠ .error .outOfFuel := by
    intro count
    induction count with
    | zero => intro first st h; simp [forRange] at h
    | succ count ih =>
      intro first st h
      unfold forRange at h
      split at h
      · rename_i e he
        simp only [Except.error.injEq] at h
        exact hcalc _ _ (h ▸ he)
      · exact ih _ _ h
  intro fuel
  induction fuel with
  | zero => intro nReason st hf; omega
  | succ fuel ih =>
    intro nReason st hf h
    unfold batchLoop at h
    split at h
    · split at h
      · rename_i e he
        simp only [Except.error.injEq] at h
        exact hfor _ _ _ (h ▸ he)
      · split at h
        · cases h
        · exact ih _ _ (by omega) h
    · cases h

/-! ## Sorting floats -/

theorem TFloat.lt_false_iff {a b : TFloat} (ha : a.IsNan = false) (hb : b.IsNan = false) :
    TFloat.lt b a = false ↔ a.key ≤ b.key := by
  simp [TFloat.lt, ha, hb]

theorem TFloat.lt_iff {a b : TFloat} (ha : a.IsNan = false) (hb : b.IsNan = false) :
    TFloat.lt a b = true ↔ a.key < b.key := by
  simp [TFloat.lt, ha, hb]

theorem TFloat.feq_false_iff {a b : TFloat} (ha : a.IsNan = false) (hb : b.IsNan = false) :
    TFloat.feq a b = false ↔ a.key ≠ b.key := by
  simp [TFloat.feq, ha, hb]

theorem orderedInsert_congr {α : Type} (r r' : α → α → Prop) [DecidableRel r] [DecidableRel r']
    (a : α) : ∀ l : List α, (∀ x ∈ l, r a x ↔ r' a x) →
      l.orderedInsert r a = l.orderedInsert r' a := by
  intro l
  induction l with
  | nil => intro _; rfl
  | cons b l ih =>
    intro h
    have hb := h b (List.mem_cons_self _ _)
    have hl := ih (fun x hx => h x (List.mem_cons_of_mem _ hx))
    by_cases hr : r a b
    · simp [List.orderedInsert, hr, hb.1 hr]
    · have hr' : ¬ r' a b := fun h' => hr (hb.2 h')
      simp [List.orderedInsert, hr, hr', hl]

theorem insertionSort_congr {α : Type} (r r' : α → α → Prop) [DecidableRel r] [DecidableRel r'] :
    ∀ l : List α, (∀ x ∈ l, ∀ y ∈ l, r x y ↔ r' x y) →
      l.insertionSort r = l.insertionSort r' := by
  intro l
  induction l with
  | nil => intro _; rfl
  | cons b l ih =>
    intro h
    have hl := ih (fun x hx y hy => h x (List.mem_cons_of_mem _ hx) y (List.mem_cons_of_mem _ hy))
    simp only [List.insertionSort, hl]
    apply orderedInsert_congr
    intro x hx
    rw [List.mem_insertionSort] at hx
    exact h b (List.mem_cons_self _ _) x (List.mem_cons_of_mem _ hx)

/-- Sorting a vector of pairwise different floats without NaN gives a
rearrangement of it in which every element is below all later ones. -/
theorem SortAsc_pairwise (v : List TFloat) (hnan : ∀ x ∈ v, x.IsNan = false)
    (hset : v.Pairwise fun a b => TFloat.feq a b = false) :
    (SortAsc v).Perm v ∧ (SortAsc v).Pairwise fun a b => TFloat.lt a b = true := by
  have heq : SortAsc v = v.insertionSort (fun a b => a.key ≤ b.key) := by
    unfold SortAsc
    apply insertionSort_congr
    intro x hx y hy
    exact TFloat.lt_false_iff (hnan x hx) (hnan y hy)
  have hperm : (SortAsc v).Perm v := by
    rw [heq]; exact List.perm_insertionSort _ _
  refine ⟨hperm, ?_⟩
  have hsorted : (SortAsc v).Pairwise (fun a b => a.key ≤ b.key) := by
    rw [heq]; exact List.sorted_insertionSort _ _
  have hne : (SortAsc v).Pairwise (fun a b => a.key ≠ b.key) := by
    have h1 : v.Pairwise (fun a b => a.key ≠ b.key) :=
      hset.imp_of_mem (fun ha hb h => (TFloat.feq_false_iff (hnan _ ha) (hnan _ hb)).1 h)
    exact (hperm.pairwise_iff (fun h => Ne.symm h)).2 h1
  refine (hsorted.and hne).imp_of_mem ?_
  intro a b ha hb h
  exact (TFloat.lt_iff (hnan a (hperm.mem_iff.1 ha)) (hnan b (hperm.mem_iff.1 hb))).2
    (lt_of_le_of_ne h.1 h.2)

theorem StrictlyIncreasing_of_pairwise {v : List TFloat}
    (h : v.Pairwise fun a b => TFloat.lt a b = true) : StrictlyIncreasing v := by
  intro i hi
  exact List.pairwise_iff_getElem.1 h i (i + 1) (by omega) hi (by omega)

/-- The block of one feature is strictly increasing when the set of
`BestSplit` holds no NaN and lies strictly inside the sentinel that is added. -/
theorem bordersBlock_strictlyIncreasing
    (BestSplit : List TFloat → Int → EBorderSelectionType → List TFloat)
    (params : TFitParams) (vals : List TFloat) (hasNan : Bool)
    (hnan : ∀ x ∈ BestSplit (SortAsc vals) params.BorderCount params.FeatureBorderType,
      x.IsNan = false)
    (hset : (BestSplit (SortAsc vals) params.BorderCount params.FeatureBorderType).Pairwise
      fun a b => TFloat.feq a b = false)
    (hmin : params.NanMode = .Min →
      ∀ x ∈ BestSplit (SortAsc vals) params.BorderCount params.FeatureBorderType,
        TFloat.lt TFloat.lowest x = true)
    (hmax : params.NanMode = .Max →
      ∀ x ∈ BestSplit (SortAsc vals) params.BorderCount params.FeatureBorderType,
        TFloat.lt x TFloat.max = true) :
    StrictlyIncreasing (bordersBlock BestSplit params vals hasNan).1 := by
  obtain ⟨hperm, hpw⟩ := SortAsc_pairwise _ hnan hset
  apply StrictlyIncreasing_of_pairwise
  unfold bordersBlock
  cases hasNan with
  | false => simpa using hpw
  | true =>
    cases hm : params.NanMode with
    | Min =>
      simp only [if_true]
      exact List.pairwise_cons.2 ⟨fun x hx => hmin hm x (hperm.mem_iff.1 hx), hpw⟩
    | Max =>
      simp only [if_true]
      refine List.pairwise_append.2 ⟨hpw, List.pairwise_singleton _ _, ?_⟩
      intro a ha b hb
      rw [List.mem_singleton.1 hb]
      exact hmax hm a (hperm.mem_iff.1 ha)
    | Forbidden => simpa using hpw

/-! ## `GenerateBorders`: the result -/

theorem length_resize {α : Type} (v : List α) (n : Nat) (d : α) : (resize v n d).length = n := by
  simp only [resize, List.length_append, List.length_take, List.length_replicate]
  omega

theorem collectVals_ne_outOfFuel (f : Nat) :
    ∀ (docs : List TDocInfo) (vals : List TFloat) (hasNan : Bool),
      collectVals f docs vals hasNan ≠ .error .outOfFuel := by
  intro docs
  induction docs with
  | nil => intro vals hasNan h; simp [collectVals] at h
  | cons doc rest ih =>
    intro vals hasNan h
    unfold collectVals at h
    split at h
    · cases h
    · split at h
      · exact ih _ _ h
      · exact ih _ _ h

theorem calcOneFeatureBorder_ne_outOfFuel
    (BestSplit : List TFloat → Int → EBorderSelectionType → List TFloat)
    (docInfos : List TDocInfo) (params : TFitParams) (floatIndexes : List Nat)
    (idx : Nat) (st : TBordersState) :
    calcOneFeatureBorder BestSplit docInfos params floatIndexes idx st ≠ .error .outOfFuel := by
  intro h
  unfold calcOneFeatureBorder at h
  split at h
  · cases h
  · split at h
    · split at h
      · rename_i e he
        simp only [Except.error.injEq] at h
        exact collectVals_ne_outOfFuel _ _ _ _ (h ▸ he)
      · cases h
    · cases h

/-- What a normal return of `GenerateBorders` leaves: one entry per
`reasonCount`, each computed by `calcOneFeatureBorder`, and full batches of
`threadCount` features. -/
theorem GenerateBorders_ok
    {BestSplit : List TFloat → Int → EBorderSelectionType → List TFloat}
    {bytesUsed : Nat} {doc0 : TDocInfo} {rest : List TDocInfo} {ctx : TLearnContext}
    {borders0 : List (List TFloat)} {hasNans0 : List Bool} {r : TBordersState}
    (h : GenerateBorders BestSplit bytesUsed (doc0 :: rest) ctx borders0 hasNans0 = .ok r) :
    r.borders.length = reasonCountOf doc0.Factors.length ctx.CatFeatures.length ∧
    r.hasNans.length = reasonCountOf doc0.Factors.length ctx.CatFeatures.length ∧
    (∀ idx, idx < reasonCountOf doc0.Factors.length ctx.CatFeatures.length →
      FeatureDone BestSplit (doc0 :: rest) ctx.Params
        (floatIndexesOf ctx.CatFeatures doc0.Factors.length) r idx) ∧
    (∀ b ∈ r.execRanges, b.2 = b.1 +
      threadCountOf (reasonCountOf doc0.Factors.length ctx.CatFeatures.length)
        ctx.Params.UsedRAMLimit bytesUsed
        (bytesRequiredPerThread ctx.Params.BorderCount (doc0 :: rest).length)) := by
  unfold GenerateBorders at h
  simp only [] at h
  split at h
  · rename_i hz
    simp only [Except.ok.injEq] at h
    subst h
    simp only [length_resize, hz]
    refine ⟨trivial, trivial, fun idx hidx => absurd hidx (Nat.not_lt_zero _), ?_⟩
    intro b hb
    simp at hb
  · split at h
    · cases h
    · split at h
      · cases h
      · split at h
        · cases h
        · rename_i n' st hb
          obtain ⟨q1, q2, q3, q4, q5⟩ := batchLoop_done _ _ _ _ _ _ _ hb (Nat.zero_le _)
            (fun idx hidx => absurd hidx (Nat.not_lt_zero _))
            (by intro b hb; simp at hb)
          obtain ⟨r1, r2, r3, r4⟩ := forRange_done _ _ _ _ h q1
          simp only [length_resize] at q3 q4
          refine ⟨r2.trans q3, r3.trans q4, ?_, ?_⟩
          · intro idx hidx
            exact r1 idx (by omega)
          · rw [r4]; exact q5

/-- `GenerateBorders` does not run out of the loop tests it gives its batch loop. -/
theorem GenerateBorders_ne_outOfFuel
    (BestSplit : List TFloat → Int → EBorderSelectionType → List TFloat)
    (bytesUsed : Nat) (docInfos : List TDocInfo) (ctx : TLearnContext)
    (borders0 : List (List TFloat)) (hasNans0 : List Bool) :
    GenerateBorders BestSplit bytesUsed docInfos ctx borders0 hasNans0 ≠ .error .outOfFuel := by
  intro h
  cases docInfos with
  | nil => simp [GenerateBorders] at h
  | cons doc0 rest =>
    unfold GenerateBorders at h
    simp only [] at h
    split at h
    · cases h
    · split at h
      · cases h
      · split at h
        · cases h
        · rename_i hmem
          have hpos : 0 < threadCountOf
              (reasonCountOf doc0.Factors.length ctx.CatFeatures.length)
              ctx.Params.UsedRAMLimit bytesUsed
              (bytesRequiredPerThread ctx.Params.BorderCount (doc0 :: rest).length) :=
            (not_not.1 hmem).2
          have hfor : ∀ (count first : Nat) (st : TBordersState),
              forRange (calcOneFeatureBorder BestSplit (doc0 :: rest) ctx.Params
                (floatIndexesOf ctx.CatFeatures doc0.Factors.length)) count first st
                ≠ .error .outOfFuel := by
            intro count
            induction count with
            | zero => intro first st h; simp [forRange] at h
            | succ count ih =>
              intro first st h
              unfold forRange at h
              split at h
              · rename_i e he
                simp only [Except.error.injEq] at h
                exact calcOneFeatureBorder_ne_outOfFuel _ _ _ _ _ _ (h ▸ he)
              · exact ih _ _ h
          split at h
          · rename_i e he
            simp only [Except.error.injEq] at h
            subst h
            exact batchLoop_fuel _ _ _ hpos
              (fun idx st => calcOneFeatureBorder_ne_outOfFuel _ _ _ _ idx st) _ _ _ (by omega) he
          · exact hfor _ _ _ h

/-! ## `GenerateBorders`: the faults of the loops -/

theorem collectVals_error (f : Nat) :
    ∀ (docs : List TDocInfo) (vals : List TFloat) (hasNan : Bool) (e : Fault),
      collectVals f docs vals hasNan = .error e → e = .outOfRange := by
  intro docs
  induction docs with
  | nil => intro vals hasNan e h; simp [collectVals] at h
  | cons doc rest ih =>
    intro vals hasNan e h
    unfold collectVals at h
    split at h
    · cases h; rfl
    · split at h
      · exact ih _ _ _ h
      · exact ih _ _ _ h

theorem calcOneFeatureBorder_error
    {BestSplit : List TFloat → Int → EBorderSelectionType → List TFloat}
    {docInfos : List TDocInfo} {params : TFitParams} {floatIndexes : List Nat}
    {idx : Nat} {st : TBordersState} {e : Fault}
    (h : calcOneFeatureBorder BestSplit docInfos params floatIndexes idx st = .error e) :
    e = .outOfRange := by
  unfold calcOneFeatureBorder at h
  split at h
  · cases h; rfl
  · split at h
    · split at h
      · rename_i e' he
        simp only [Except.error.injEq] at h
        subst h
        exact collectVals_error _ _ _ _ _ he
      · cases h
    · cases h; rfl

theorem forRange_error {σ : Type} (f : Nat → σ → Except Fault σ) (P : Fault → Prop)
    (hf : ∀ idx st e, f idx st = .error e → P e) :
    ∀ (count first : Nat) (st : σ) (e : Fault),
      forRange f count first st = .error e → P e := by
  intro count
  induction count with
  | zero => intro first st e h; simp [forRange] at h
  | succ count ih =>
    intro first st e h
    unfold forRange at h
    split at h
    · rename_i e' he
      simp only [Except.error.injEq] at h
      subst h
      exact hf _ _ _ he
    · exact ih _ _ _ h

theorem batchLoop_error (calcOne : Nat → TBordersState → Except Fault TBordersState)
    (threadCount reasonCount : Nat) (P : Fault → Prop)
    (hf : ∀ idx st e, calcOne idx st = .error e → P e) :
    ∀ (fuel nReason : Nat) (st : TBordersState) (e : Fault),
      batchLoop calcOne threadCount reasonCount fuel nReason st = .error e →
      P e ∨ e = .nanError ∨ e = .outOfFuel := by
  intro fuel
  induction fuel with
  | zero =>
    intro nReason st e h
    simp only [batchLoop, Except.error.injEq] at h
    exact Or.inr (Or.inr h.symm)
  | succ fuel ih =>
    intro nReason st e h
    unfold batchLoop at h
    split at h
    · split at h
      · rename_i e' he
        simp only [Except.error.injEq] at h
        subst h
        exact Or.inl (forRange_error calcOne P hf _ _ _ _ he)
      · split at h
        · simp only [Except.error.injEq] at h
          exact Or.inr (Or.inl h.symm)
        · exact ih _ _ _ h
    · cases h

/-! ## `GenerateBorders`: the memory estimate -/

/-- With valid categorical features `reasonCount` is the number of numeric features. -/
theorem reasonCountOf_eq_numericFeatureCount (doc0 : TDocInfo) (categFeatures : List Int)
    (hcat : CatFeaturesValid doc0 categFeatures) :
    reasonCountOf doc0.Factors.length categFeatures.length =
      numericFeatureCount doc0 categFeatures := by
  obtain ⟨hnd, hrange, hsize⟩ := hcat
  have hperm : ((List.range doc0.Factors.length).filter
      fun (i : Nat) => decide ((i : Int) ∈ categFeatures)).Perm (categFeatures.map Int.toNat) := by
    rw [List.perm_ext_iff_of_nodup ((List.nodup_range _).filter _)]
    · intro a
      simp only [List.mem_filter, List.mem_range, decide_eq_true_eq, List.mem_map]
      constructor
      · rintro ⟨_, ha⟩
        exact ⟨(a : Int), ha, by simp⟩
      · rintro ⟨c, hc, rfl⟩
        have := hrange c hc
        refine ⟨by omega, ?_⟩
        rw [Int.toNat_of_nonneg this.1]
        exact hc
    · apply List.Nodup.map_on _ hnd
      intro x hx y hy hxy
      have h1 := hrange x hx
      have h2 := hrange y hy
      omega
  have hlen := hperm.length_eq
  rw [List.length_map] at hlen
  have hsplit := List.length_eq_length_filter_add (l := List.range doc0.Factors.length)
    (fun (i : Nat) => decide ((i : Int) ∈ categFeatures))
  rw [List.length_range] at hsplit
  have hnum : numericFeatureCount doc0 categFeatures =
      ((List.range doc0.Factors.length).filter
        fun (i : Nat) => !decide ((i : Int) ∈ categFeatures)).length := by
    unfold numericFeatureCount
    congr 1
    apply List.filter_congr
    intro x _
    simp
  unfold reasonCountOf
  rw [hnum]
  have hc : categFeatures.length ≤ doc0.Factors.length := by omega
  have hc2 : categFeatures.length % 2 ^ 64 = categFeatures.length :=
    Nat.mod_eq_of_lt (by omega)
  rw [hc2]
  have : doc0.Factors.length + 2 ^ 64 - categFeatures.length =
      (doc0.Factors.length - categFeatures.length) + 2 ^ 64 := by omega
  rw [this, Nat.add_mod_right, Nat.mod_eq_of_lt (by omega)]
  omega

/-- The estimate of the code is the estimate of the specification. -/
theorem bytesRequiredPerThread_eq_spec (borderCount : Int) (docCount : Nat) :
    bytesRequiredPerThread borderCount docCount = specPerThread docCount borderCount := by
  unfold bytesRequiredPerThread specPerThread
  simp only []
  rw [Nat.add_mod, Nat.add_mod (2 * (1024 * 1024)), Nat.mod_mod, Nat.mod_mod]
  rw [← Nat.add_mod (2 * (1024 * 1024)), ← Nat.add_mod]
  congr 1
  ring

/-- C8 (as stated) fails: a pool whose only factor is categorical has no
numeric feature, so `p = min(0, ..) = 0`, and `GenerateBorders` returns normally
(line 18) instead of failing with the memory error. -/
theorem C8_no_numeric_feature_counterexample :
    GenerateBorders noBorders 0 [docOf [f1]] ⟨[0], ⟨1, 0, .Min, 2 ^ 30⟩⟩ [] [] =
        .ok { borders := [], hasNans := [] } ∧
      specParallelism (numericFeatureCount (docOf [f1]) [0]) (2 ^ 30) 0 (specPerThread 1 1) = 0 := by
  decide

/-- C8 (amended): for every non-empty pool with at least one numeric feature
(valid categorical features) and a per-thread estimate that is not `0` modulo
`2^64`, with `perThread` and `p` as the specification writes them,
`GenerateBorders` fails with the memory error if and only if `B ≤ U` or `p = 0`;
otherwise every `ExecRange` batch it runs has exactly `p` features. The batch
loop does not run out of loop tests. -/
theorem C8_memory_budget
    (BestSplit : List TFloat → Int → EBorderSelectionType → List TFloat)
    (bytesUsed : Nat) (doc0 : TDocInfo) (rest : List TDocInfo) (ctx : TLearnContext)
    (borders0 : List (List TFloat)) (hasNans0 : List Bool)
    (hcat : CatFeaturesValid doc0 ctx.CatFeatures)
    (hnum : numericFeatureCount doc0 ctx.CatFeatures ≠ 0)
    (hper : specPerThread (doc0 :: rest).length ctx.Params.BorderCount ≠ 0) :
    ((∃ needMb, GenerateBorders BestSplit bytesUsed (doc0 :: rest) ctx borders0 hasNans0 =
        .error (.memoryError needMb)) ↔
      (ctx.Params.UsedRAMLimit ≤ bytesUsed ∨
        specParallelism (numericFeatureCount doc0 ctx.CatFeatures) ctx.Params.UsedRAMLimit
          bytesUsed (specPerThread (doc0 :: rest).length ctx.Params.BorderCount) = 0)) ∧
    (∀ r, GenerateBorders BestSplit bytesUsed (doc0 :: rest) ctx borders0 hasNans0 = .ok r →
      ∀ b ∈ r.execRanges, b.2 = b.1 +
        specParallelism (numericFeatureCount doc0 ctx.CatFeatures) ctx.Params.UsedRAMLimit
          bytesUsed (specPerThread (doc0 :: rest).length ctx.Params.BorderCount)) ∧
    GenerateBorders BestSplit bytesUsed (doc0 :: rest) ctx borders0 hasNans0 ≠
      .error .outOfFuel := by
  have hR := reasonCountOf_eq_numericFeatureCount doc0 ctx.CatFeatures hcat
  have hP := bytesRequiredPerThread_eq_spec ctx.Params.BorderCount (doc0 :: rest).length
  have hT : threadCountOf (reasonCountOf doc0.Factors.length ctx.CatFeatures.length)
      ctx.Params.UsedRAMLimit bytesUsed
      (bytesRequiredPerThread ctx.Params.BorderCount (doc0 :: rest).length) =
      specParallelism (numericFeatureCount doc0 ctx.CatFeatures) ctx.Params.UsedRAMLimit
        bytesUsed (specPerThread (doc0 :: rest).length ctx.Params.BorderCount) := by
    rw [hR, hP]; rfl
  refine ⟨?_, ?_, GenerateBorders_ne_outOfFuel _ _ _ _ _ _⟩
  · have hzero : ctx.Params.UsedRAMLimit = bytesUsed →
        specParallelism (numericFeatureCount doc0 ctx.CatFeatures) ctx.Params.UsedRAMLimit
          bytesUsed (specPerThread (doc0 :: rest).length ctx.Params.BorderCount) = 0 := by
      intro he
      unfold specParallelism
      rw [he]
      have : (bytesUsed + 2 ^ 64 - bytesUsed) % 2 ^ 64 = 0 := by
        rw [Nat.add_sub_cancel_left]; exact Nat.mod_self _
      rw [this, Nat.zero_div]
      exact Nat.min_eq_right (Nat.zero_le _)
    unfold GenerateBorders
    simp only [hR, hnum, hP, hper, if_false]
    rw [hR, hP] at hT
    rw [hT]
    by_cases hmem : ctx.Params.UsedRAMLimit ≥ bytesUsed ∧
        specParallelism (numericFeatureCount doc0 ctx.CatFeatures) ctx.Params.UsedRAMLimit
          bytesUsed (specPerThread (doc0 :: rest).length ctx.Params.BorderCount) > 0
    · simp only [hmem, and_self, not_true_eq_false, if_false]
      constructor
      · rintro ⟨mb, hmb⟩
        exfalso
        split at hmb
        · rename_i e he
          simp only [Except.error.injEq] at hmb
          subst hmb
          rcases batchLoop_error _ _ _ (fun e => e = Fault.outOfRange)
            (fun idx st e he => calcOneFeatureBorder_error he) _ _ _ _ he with h1 | h1 | h1 <;>
            cases h1
        · have := forRange_error _ (fun e => e = Fault.outOfRange)
            (fun idx st e he => calcOneFeatureBorder_error he) _ _ _ _ hmb
          cases this
      · rintro (h1 | h1)
        · have : ctx.Params.UsedRAMLimit = bytesUsed := by omega
          have := hzero this
          omega
        · omega
    · simp only [hmem, not_false_eq_true, if_true]
      constructor
      · intro _
        by_cases hle : ctx.Params.UsedRAMLimit ≤ bytesUsed
        · exact Or.inl hle
        · right
          by_contra hc
          exact hmem ⟨by omega, Nat.pos_of_ne_zero hc⟩
      · intro _
        exact ⟨_, rfl⟩
  · intro r hr b hb
    rw [← hT]
    exact (GenerateBorders_ok hr).2.2.2 b hb

/-- C8 (amended) on a one-document pool with three numeric features and room
for two feature computations. -/
theorem C8_memory_budget_witness :
    ((∃ needMb, GenerateBorders noBorders 0 (docOf [f1, f2, TFloat.quietNaN] :: [])
        (ctxTwoThreads .Min) [] [] = .error (.memoryError needMb)) ↔
      ((ctxTwoThreads .Min).Params.UsedRAMLimit ≤ 0 ∨
        specParallelism (numericFeatureCount (docOf [f1, f2, TFloat.quietNaN])
          (ctxTwoThreads .Min).CatFeatures) (ctxTwoThreads .Min).Params.UsedRAMLimit 0
          (specPerThread (docOf [f1, f2, TFloat.quietNaN] :: []).length
            (ctxTwoThreads .Min).Params.BorderCount) = 0)) ∧
    (∀ r, GenerateBorders noBorders 0 (docOf [f1, f2, TFloat.quietNaN] :: [])
        (ctxTwoThreads .Min) [] [] = .ok r →
      ∀ b ∈ r.execRanges, b.2 = b.1 +
        specParallelism (numericFeatureCount (docOf [f1, f2, TFloat.quietNaN])
          (ctxTwoThreads .Min).CatFeatures) (ctxTwoThreads .Min).Params.UsedRAMLimit 0
          (specPerThread (docOf [f1, f2, TFloat.quietNaN] :: []).length
            (ctxTwoThreads .Min).Params.BorderCount)) ∧
    GenerateBorders noBorders 0 (docOf [f1, f2, TFloat.quietNaN] :: [])
      (ctxTwoThreads .Min) [] [] ≠ .error .outOfFuel :=
  C8_memory_budget noBorders 0 (docOf [f1, f2, TFloat.quietNaN]) [] (ctxTwoThreads .Min) [] []
    (by decide) (by decide) (by decide)

/-! ## `GenerateBorders`: NaN policy and thresholds -/

/-- C2: the code at the failing input. One document, three numeric features,
the NaN in the third, `NanMode = Forbidden` and room for two feature
computations: the full batch `[0, 2)` is clean, the trailing loop sets the
flag on feature 2 and nothing tests it, so the call returns normally. -/
theorem C2_trailing_nan_returns_normally :
    GenerateBorders noBorders 0 [docOf [f1, f2, TFloat.quietNaN]]
        (ctxTwoThreads .Forbidden) [] [] =
      .ok { borders := [[], [], []], hasNans := [false, false, true],
            taskFailedBecauseOfNans := true, execRanges := [(0, 2)], calls := [0, 1, 2] } ∧
      TFloat.quietNaN.IsNan = true ∧
      threadCountOf 3 (ctxTwoThreads .Forbidden).Params.UsedRAMLimit 0
        (bytesRequiredPerThread 1 1) = 2 := by
  decide

/-- C7 (as stated) fails: a feature whose only value is NaN, `NanMode = Min`
and a `BestSplit` that returns the set `{lowest()}` give the thresholds
`lowest(), lowest()`, which are not strictly increasing. -/
theorem C7_sentinel_counterexample :
    GenerateBorders lowestBorder 0 [docOf [TFloat.quietNaN]] (ctxTwoThreads .Min) [] [] =
        .ok { borders := [[TFloat.lowest, TFloat.lowest]], hasNans := [true],
              execRanges := [(0, 1)], calls := [0] } ∧
      ¬ StrictlyIncreasing [TFloat.lowest, TFloat.lowest] := by
  decide

/-- C7 (amended): for every pool and every NanMode, when every set that
`BestSplit` returns holds no NaN and, under `NanMode = Min` (`Max`), only values
strictly above `lowest()` (strictly below `max()`), each threshold vector that
`GenerateBorders` outputs is strictly increasing, the sentinel included. -/
theorem C7_thresholds_strictly_increasing
    (BestSplit : List TFloat → Int → EBorderSelectionType → List TFloat)
    (bytesUsed : Nat) (docInfos : List TDocInfo) (ctx : TLearnContext)
    (borders0 : List (List TFloat)) (hasNans0 : List Bool) (r : TBordersState)
    (hnan : ∀ vals, ∀ x ∈ BestSplit vals ctx.Params.BorderCount ctx.Params.FeatureBorderType,
      x.IsNan = false)
    (hset : ∀ vals, (BestSplit vals ctx.Params.BorderCount ctx.Params.FeatureBorderType).Pairwise
      fun a b => TFloat.feq a b = false)
    (hmin : ctx.Params.NanMode = .Min →
      ∀ vals, ∀ x ∈ BestSplit vals ctx.Params.BorderCount ctx.Params.FeatureBorderType,
        TFloat.lt TFloat.lowest x = true)
    (hmax : ctx.Params.NanMode = .Max →
      ∀ vals, ∀ x ∈ BestSplit vals ctx.Params.BorderCount ctx.Params.FeatureBorderType,
        TFloat.lt x TFloat.max = true)
    (hr : GenerateBorders BestSplit bytesUsed docInfos ctx borders0 hasNans0 = .ok r) :
    ∀ thresholds ∈ r.borders, StrictlyIncreasing thresholds := by
  cases docInfos with
  | nil => simp [GenerateBorders] at hr
  | cons doc0 rest =>
    obtain ⟨h1, _, h3, _⟩ := GenerateBorders_ok hr
    intro thresholds hmem
    obtain ⟨idx, hidx⟩ := List.mem_iff_getElem?.1 hmem
    obtain ⟨hlt, _⟩ := List.getElem?_eq_some.1 hidx
    obtain ⟨f, vals, hasNan, _, _, hb, _⟩ := h3 idx (h1 ▸ hlt)
    rw [hidx] at hb
    cases hb
    exact bordersBlock_strictlyIncreasing BestSplit ctx.Params vals hasNan
      (hnan _) (hset _) (fun hm => hmin hm _) (fun hm => hmax hm _)

/-- C7 (amended) on a feature with values `1.0, NaN` under `NanMode = Min`
and the borders `{2.0, 1.0}`: the thresholds are `lowest(), 1.0, 2.0`. -/
theorem C7_thresholds_strictly_increasing_witness :
    GenerateBorders twoBorders 0 [docOf [f1], docOf [TFloat.quietNaN]]
        ⟨[], ⟨1, 0, .Min, 2 ^ 30⟩⟩ [] [] =
      .ok { borders := [[TFloat.lowest, f1, f2]], hasNans := [true],
            execRanges := [(0, 1)], calls := [0] } ∧
    ∀ thresholds ∈ [[TFloat.lowest, f1, f2]], StrictlyIncreasing thresholds :=
  ⟨by decide,
   C7_thresholds_strictly_increasing twoBorders 0 [docOf [f1], docOf [TFloat.quietNaN]]
    ⟨[], ⟨1, 0, .Min, 2 ^ 30⟩⟩ [] []
    { borders := [[TFloat.lowest, f1, f2]], hasNans := [true],
      execRanges := [(0, 1)], calls := [0] }
    (by intro vals; show ∀ x ∈ [f2, f1], x.IsNan = false; decide)
    (by intro vals; show [f2, f1].Pairwise (fun a b => TFloat.feq a b = false); decide)
    (by intro _ vals; show ∀ x ∈ [f2, f1], TFloat.lt TFloat.lowest x = true; decide)
    (by intro h; cases h)
    (by decide)⟩

/-! ## The builder: what a call leaves unchanged -/

theorem modifyLine_ok {localIdx : Nat} {f : TDocInfo → Except Fault TDocInfo}
    {b b' : TPoolBuilder} (h : b.modifyLine localIdx f = .ok b') :
    ∃ doc doc', b.Pool.Docs[b.GetLine localIdx]? = some doc ∧ f doc = .ok doc' ∧
      b' = { b with Pool := { b.Pool with Docs := b.Pool.Docs.set (b.GetLine localIdx) doc' } } := by
  unfold TPoolBuilder.modifyLine at h
  split at h
  · cases h
  · rename_i doc hdoc
    split at h
    · cases h
    · rename_i doc' hdoc'
      simp only [Except.ok.injEq] at h
      exact ⟨doc, doc', hdoc, hdoc', h.symm⟩

theorem modifyLine_error {localIdx : Nat} {f : TDocInfo → Except Fault TDocInfo}
    {b : TPoolBuilder} {e : Fault} (hf : ∀ doc e', f doc = .error e' → e' = .outOfRange)
    (h : b.modifyLine localIdx f = .error e) : e = .outOfRange := by
  unfold TPoolBuilder.modifyLine at h
  split at h
  · cases h; rfl
  · split at h
    · rename_i e' he
      simp only [Except.error.injEq] at h
      subst h
      exact hf _ _ he
    · cases h


/-! ## The hash from categorical hashes to strings -/

theorem hashFind_nil (k : Int) : hashFind [] k = none := rfl

theorem hashFind_cons (e : Int × String) (m : List (Int × String)) (k : Int) :
    hashFind (e :: m) k = (if e.1 = k then some e.2 else none).or (hashFind m k) := by
  unfold hashFind
  by_cases h : e.1 = k
  · simp [List.find?_cons, h]
  · simp [List.find?_cons, h]

theorem hashFind_append (m : List (Int × String)) (e : Int × String) (k : Int) :
    hashFind (m ++ [e]) k = (hashFind m k).or (if e.1 = k then some e.2 else none) := by
  unfold hashFind
  rw [List.find?_append]
  cases h : List.find? (fun e => decide (e.1 = k)) m with
  | some x => simp
  | none =>
    by_cases h2 : e.1 = k
    · simp [List.find?_cons, h2]
    · simp [List.find?_cons, h2]

theorem hashHas_iff (m : List (Int × String)) (k : Int) :
    hashHas m k = true ↔ ∃ t, hashFind m k = some t := by
  unfold hashHas hashFind
  rw [List.any_eq_true]
  constructor
  · rintro ⟨x, hx, hk⟩
    have : (List.find? (fun e => decide (e.1 = k)) m).isSome = true :=
      List.find?_isSome.2 ⟨x, hx, hk⟩
    obtain ⟨y, hy⟩ := Option.isSome_iff_exists.1 this
    exact ⟨y.2, by rw [hy]; rfl⟩
  · rintro ⟨t, ht⟩
    cases hf : List.find? (fun e => decide (e.1 = k)) m with
    | none => rw [hf] at ht; cases ht
    | some y =>
      have h2 := List.find?_some hf
      exact ⟨y, List.mem_of_find?_eq_some hf, h2⟩

theorem hashFind_hashInsert (m : List (Int × String)) (e : Int × String) (k : Int) :
    hashFind (hashInsert m e) k = (hashFind m k).or (if e.1 = k then some e.2 else none) := by
  unfold hashInsert
  by_cases hh : hashHas m e.1 = true
  · simp only [hh, if_true]
    by_cases hk : e.1 = k
    · obtain ⟨t, ht⟩ := (hashHas_iff m e.1).1 hh
      rw [hk] at ht
      simp [ht]
    · simp [hk]
  · simp only [hh, Bool.false_eq_true, if_false]
    exact hashFind_append m e k

theorem hashFind_hashInsertRange (es : List (Int × String)) :
    ∀ (m : List (Int × String)) (k : Int),
      hashFind (hashInsertRange m es) k = (hashFind m k).or (hashFind es k) := by
  induction es with
  | nil => intro m k; simp [hashInsertRange, hashFind_nil]
  | cons e es ih =>
    intro m k
    have := ih (hashInsert m e) k
    unfold hashInsertRange at this ⊢
    rw [List.foldl_cons, this, hashFind_hashInsert, hashFind_cons, Option.or_assoc]

theorem hashFind_foldl_parts (parts : List (List (Int × String))) :
    ∀ (m : List (Int × String)) (k : Int),
      hashFind (parts.foldl hashInsertRange m) k =
        (hashFind m k).or (parts.findSome? fun part => hashFind part k) := by
  induction parts with
  | nil => intro m k; simp
  | cons part parts ih =>
    intro m k
    rw [List.foldl_cons, ih, hashFind_hashInsertRange, Option.or_assoc, List.findSome?_cons]
    cases hashFind part k <;> simp

theorem findSome?_only {α β : Type} (f : α → Option β) :
    ∀ (l : List α) (p : Nat),
      (∀ (q : Nat) (x : α), l[q]? = some x → q ≠ p → f x = none) →
      l.findSome? f = (l[p]?).bind f := by
  intro l
  induction l with
  | nil => intro p _; simp
  | cons a l ih =>
    intro p h
    cases p with
    | zero =>
      rw [List.findSome?_cons]
      cases hfa : f a with
      | some b => simp [hfa]
      | none =>
        have hl : l.findSome? f = none := by
          rw [List.findSome?_eq_none_iff]
          intro x hx
          obtain ⟨q, hq⟩ := List.mem_iff_getElem?.1 hx
          exact h (q + 1) x (by simpa using hq) (by omega)
        simp [hl, hfa]
    | succ p =>
      rw [List.findSome?_cons]
      have hfa : f a = none := h 0 a (by simp) (by omega)
      rw [hfa]
      simp only [List.getElem?_cons_succ]
      exact ih p (fun q x hq hne => h (q + 1) x (by simpa using hq) (by omega))

/-- In a sharded hash the merge of the parts finds a key where its part has it. -/
theorem hashFind_merge (parts : List (List (Int × String))) (hs : PartsSharded parts)
    (k : Int) :
    hashFind (parts.foldl hashInsertRange []) k = partsFind parts k := by
  rw [hashFind_foldl_parts, hashFind_nil, Option.none_or]
  rw [findSome?_only (fun part => hashFind part k) parts (k % 256).toNat]
  · unfold partsFind
    rw [List.getD_eq_getElem?_getD]
    cases parts[(k % 256).toNat]? <;> simp [hashFind_nil]
  · intro q part hq hne
    cases hf : hashFind part k with
    | none => rfl
    | some t =>
      exfalso
      unfold hashFind at hf
      cases hx : List.find? (fun e => decide (e.1 = k)) part with
      | none => rw [hx] at hf; cases hf
      | some x =>
        have h1 := hs.2 q part hq x (List.mem_of_find?_eq_some hx)
        have h2 := List.find?_some hx
        simp only [decide_eq_true_eq] at h2
        rw [h2] at h1
        exact hne h1.symm

/-! ## The builder: the sharded hash along a sequence of calls -/

theorem AddFloatFeature_ok {localIdx featureId : Nat} {feature : TFloat} {b b' : TPoolBuilder}
    (h : b.AddFloatFeature localIdx featureId feature = .ok b') :
    ∃ doc, b.Pool.Docs[b.GetLine localIdx]? = some doc ∧ featureId < doc.Factors.length ∧
      b' = setLine b (b.GetLine localIdx) (setFactor doc featureId feature) := by
  obtain ⟨doc, doc', h1, h2, h3⟩ := modifyLine_ok h
  by_cases hf : featureId < doc.Factors.length
  · simp only [hf, if_true, Except.ok.injEq] at h2
    subst h2
    exact ⟨doc, h1, hf, h3⟩
  · simp [hf] at h2

theorem AddCatFeature_ok {env : TEnv} {localIdx featureId : Nat} {feature : String}
    {b b' : TPoolBuilder} (h : b.AddCatFeature env localIdx featureId feature = .ok b') :
    ∃ curPart doc,
      b.LockedHashMapParts[(env.CalcCatFeatureHash feature % 256).toNat]? = some curPart ∧
      b.Pool.Docs[b.GetLine localIdx]? = some doc ∧ featureId < doc.Factors.length ∧
      b' = setLine
        (setPart b (env.CalcCatFeatureHash feature % 256).toNat
          (hashInsert curPart (env.CalcCatFeatureHash feature, feature)))
        (b.GetLine localIdx)
        (setFactor doc featureId (ConvertCatFeatureHashToFloat (env.CalcCatFeatureHash feature))) := by
  unfold TPoolBuilder.AddCatFeature at h
  simp only [] at h
  split at h
  · cases h
  · rename_i curPart hcur
    obtain ⟨doc, h1, h2, h3⟩ := AddFloatFeature_ok h
    refine ⟨curPart, doc, hcur, h1, h2, ?_⟩
    rw [h3]
    have : (if (!hashHas curPart (env.CalcCatFeatureHash feature)) = true then
        curPart ++ [(env.CalcCatFeatureHash feature, feature)] else curPart) =
        hashInsert curPart (env.CalcCatFeatureHash feature, feature) := by
      unfold hashInsert
      cases hashHas curPart (env.CalcCatFeatureHash feature) <;> simp
    simp only [this, TPoolBuilder.GetLine, setPart]

/-- A call other than `AddCatFeature` leaves the sharded hash and the pool's hash as they are. -/
theorem TBuilderCall.run_parts {env : TEnv} {c : TBuilderCall} {b b' : TPoolBuilder}
    (hc : c.catString = none) (h : c.run env b = .ok b') :
    b'.LockedHashMapParts = b.LockedHashMapParts ∧
      b'.Pool.CatFeaturesHashToString = b.Pool.CatFeaturesHashToString := by
  cases c with
  | StartNextBlock n =>
    simp only [TBuilderCall.run, TPoolBuilder.StartNextBlock] at h
    split at h
    · simp only [Except.ok.injEq] at h
      subst h
      exact ⟨rfl, rfl⟩
    · cases h
  | AddCatFeature l f s => simp [TBuilderCall.catString] at hc
  | AddFloatFeature l f v =>
    simp only [TBuilderCall.run, TPoolBuilder.AddFloatFeature] at h
    obtain ⟨_, _, _, _, h3⟩ := modifyLine_ok h
    subst h3; exact ⟨rfl, rfl⟩
  | AddTarget l v =>
    simp only [TBuilderCall.run, TPoolBuilder.AddTarget] at h
    obtain ⟨_, _, _, _, h3⟩ := modifyLine_ok h
    subst h3; exact ⟨rfl, rfl⟩
  | AddWeight l v =>
    simp only [TBuilderCall.run, TPoolBuilder.AddWeight] at h
    obtain ⟨_, _, _, _, h3⟩ := modifyLine_ok h
    subst h3; exact ⟨rfl, rfl⟩
  | AddQueryId l q =>
    simp only [TBuilderCall.run, TPoolBuilder.AddQueryId, Except.ok.injEq] at h
    subst h; exact ⟨rfl, rfl⟩
  | AddBaseline l o v =>
    simp only [TBuilderCall.run, TPoolBuilder.AddBaseline] at h
    obtain ⟨_, _, _, _, h3⟩ := modifyLine_ok h
    subst h3; exact ⟨rfl, rfl⟩
  | AddDocId l v =>
    simp only [TBuilderCall.run, TPoolBuilder.AddDocId] at h
    obtain ⟨_, _, _, _, h3⟩ := modifyLine_ok h
    subst h3; exact ⟨rfl, rfl⟩
  | SetFeatureIds ids =>
    simp only [TBuilderCall.run, TPoolBuilder.SetFeatureIds] at h
    split at h
    · simp only [Except.ok.injEq] at h
      subst h; exact ⟨rfl, rfl⟩
    · cases h
  | SetPairs pairs =>
    simp only [TBuilderCall.run, Except.ok.injEq] at h
    subst h; exact ⟨rfl, rfl⟩

theorem firstCat_append (env : TEnv) (pre : List TBuilderCall) (c : TBuilderCall) (k : Int) :
    firstCat env (pre ++ [c]) k =
      (firstCat env pre k).or
        (match c.catString with
         | some s => if env.CalcCatFeatureHash s = k then some s else none
         | none => none) := by
  unfold firstCat
  rw [List.filterMap_append, List.find?_append]
  congr 1
  cases hc : c.catString with
  | none => simp [List.filterMap_cons, hc]
  | some s =>
    by_cases hk : env.CalcCatFeatureHash s = k
    · simp [List.filterMap_cons, hc, hk]
    · simp [List.filterMap_cons, hc, hk]

/-- One call keeps the sharded hash sharded and adds to it the string of an
`AddCatFeature` call unless its hash is already there. -/
theorem TBuilderCall.run_sharded {env : TEnv} {c : TBuilderCall} {b b' : TPoolBuilder}
    (hs : PartsSharded b.LockedHashMapParts) (h : c.run env b = .ok b') :
    PartsSharded b'.LockedHashMapParts ∧
      b'.Pool.CatFeaturesHashToString = b.Pool.CatFeaturesHashToString ∧
      ∀ k, partsFind b'.LockedHashMapParts k =
        (partsFind b.LockedHashMapParts k).or
          (match c.catString with
           | some s => if env.CalcCatFeatureHash s = k then some s else none
           | none => none) := by
  cases hc : c.catString with
  | none =>
    obtain ⟨h1, h2⟩ := TBuilderCall.run_parts hc h
    rw [h1]
    exact ⟨hs, h2, fun k => by simp⟩
  | some s =>
    cases c with
    | AddCatFeature l f s' =>
      simp only [TBuilderCall.catString, Option.some.injEq] at hc
      subst hc
      obtain ⟨curPart, doc, h1, _, _, h4⟩ := AddCatFeature_ok h
      obtain ⟨hp, _⟩ := List.getElem?_eq_some.1 h1
      subst h4
      simp only [setLine, setPart]
      refine ⟨⟨by simp only [List.length_set]; exact hs.1, ?_⟩, trivial, ?_⟩
      · intro p part hpart e he
        simp only [List.getElem?_set] at hpart
        split at hpart
        · rename_i hpe
          simp only [hp, if_true, Option.some.injEq] at hpart
          subst hpart
          unfold hashInsert at he
          split at he
          · exact hs.2 p _ (hpe ▸ h1) e he
          · rcases List.mem_append.1 he with he | he
            · exact hs.2 p _ (hpe ▸ h1) e he
            · simp only [List.mem_singleton] at he
              subst he
              exact hpe
        · exact hs.2 p part hpart e he
      · intro k
        unfold partsFind
        simp only [List.getD_eq_getElem?_getD, List.getElem?_set]
        by_cases hk : (env.CalcCatFeatureHash s' % 256).toNat = (k % 256).toNat
        · simp only [hk, if_true]
          rw [← hk]
          simp only [hp, if_true, h1, Option.getD_some]
          exact hashFind_hashInsert _ _ _
        · have hne : ¬ env.CalcCatFeatureHash s' = k := fun he => hk (by rw [he])
          simp [hk, hne]
    | StartNextBlock n => simp [TBuilderCall.catString] at hc
    | AddFloatFeature l f v => simp [TBuilderCall.catString] at hc
    | AddTarget l v => simp [TBuilderCall.catString] at hc
    | AddWeight l v => simp [TBuilderCall.catString] at hc
    | AddQueryId l q => simp [TBuilderCall.catString] at hc
    | AddBaseline l o v => simp [TBuilderCall.catString] at hc
    | AddDocId l v => simp [TBuilderCall.catString] at hc
    | SetFeatureIds ids => simp [TBuilderCall.catString] at hc
    | SetPairs pairs => simp [TBuilderCall.catString] at hc

theorem runCalls_sharded (env : TEnv) :
    ∀ (calls pre : List TBuilderCall) (b b' : TPoolBuilder),
      PartsSharded b.LockedHashMapParts →
      (∀ k, partsFind b.LockedHashMapParts k = firstCat env pre k) →
      runCalls env calls b = .ok b' →
      PartsSharded b'.LockedHashMapParts ∧
        (∀ k, partsFind b'.LockedHashMapParts k = firstCat env (pre ++ calls) k) ∧
        b'.Pool.CatFeaturesHashToString = b.Pool.CatFeaturesHashToString := by
  intro calls
  induction calls with
  | nil =>
    intro pre b b' hs hf h
    simp only [runCalls, Except.ok.injEq] at h
    subst h
    exact ⟨hs, by simpa using hf, rfl⟩
  | cons c calls ih =>
    intro pre b b' hs hf h
    unfold runCalls at h
    split at h
    · cases h
    · rename_i b1 h1
      obtain ⟨s1, m1, f1⟩ := TBuilderCall.run_sharded hs h1
      obtain ⟨s2, f2, m2⟩ := ih (pre ++ [c]) b1 b' s1
        (by intro k; rw [f1 k, hf k, firstCat_append]) h
      refine ⟨s2, ?_, m2.trans m1⟩
      intro k
      rw [f2 k, List.append_assoc, List.singleton_append]

/-- C10: for every sequence of builder calls after `Start` on a new builder
whose pool has an empty `CatFeaturesHashToString` that runs without fault and
ends with at least one document: for every `AddCatFeature(localIdx, featureId, s)`
of the sequence, `CatFeaturesHashToString` after `Finish` has an entry with key
`CalcCatFeatureHash(s)` whose string `t` has that hash and is the string of the
first `AddCatFeature` call with that hash; and the float that `AddCatFeature`
stores in the factor slot is the reinterpretation of `CalcCatFeatureHash(s)`. -/
theorem C10_hash_to_string_entries (env : TEnv) (pool : TPool) (poolMetaInfo : TPoolColumnsMetaInfo)
    (calls : List TBuilderCall) (b1 : TPoolBuilder)
    (hempty : pool.CatFeaturesHashToString = [])
    (hrun : runCalls env calls ((InitBuilder pool).Start poolMetaInfo) = .ok b1)
    (hdocs : b1.Pool.Docs ≠ []) :
    (∀ localIdx featureId s, TBuilderCall.AddCatFeature localIdx featureId s ∈ calls →
      ∃ t, hashFind b1.Finish.Pool.CatFeaturesHashToString (env.CalcCatFeatureHash s) = some t ∧
        env.CalcCatFeatureHash t = env.CalcCatFeatureHash s ∧
        firstCat env calls (env.CalcCatFeatureHash s) = some t) ∧
    (∀ (b b' : TPoolBuilder) localIdx featureId s,
      b.AddCatFeature env localIdx featureId s = .ok b' →
      ∃ doc, b'.Pool.Docs[b.GetLine localIdx]? = some doc ∧
        doc.Factors[featureId]? = some (ConvertCatFeatureHashToFloat (env.CalcCatFeatureHash s))) := by
  constructor
  · intro localIdx featureId s hmem
    have hs0 : PartsSharded ((InitBuilder pool).Start poolMetaInfo).LockedHashMapParts := by
      refine ⟨by simp only [InitBuilder, TPoolBuilder.Start, List.length_replicate], ?_⟩
      intro p part hp e he
      simp only [InitBuilder, TPoolBuilder.Start, List.getElem?_replicate] at hp
      split at hp
      · cases hp; cases he
      · cases hp
    have hf0 : ∀ k, partsFind ((InitBuilder pool).Start poolMetaInfo).LockedHashMapParts k =
        firstCat env [] k := by
      intro k
      simp only [partsFind, InitBuilder, TPoolBuilder.Start, List.getD_eq_getElem?_getD,
        List.getElem?_replicate, firstCat, List.filterMap_nil, List.find?_nil]
      split <;> rfl
    obtain ⟨hs, hf, hm⟩ := runCalls_sharded env calls [] _ b1 hs0 hf0 hrun
    simp only [List.nil_append] at hf
    have hmap : b1.Pool.CatFeaturesHashToString = [] := by
      rw [hm]; exact hempty
    have hfin : b1.Finish.Pool.CatFeaturesHashToString =
        b1.LockedHashMapParts.foldl hashInsertRange [] := by
      simp only [TPoolBuilder.Finish, hdocs, ne_eq, not_false_eq_true, if_true, hmap]
    rw [hfin, hashFind_merge _ hs, hf]
    have hsome : (firstCat env calls (env.CalcCatFeatureHash s)).isSome = true := by
      unfold firstCat
      rw [List.find?_isSome]
      exact ⟨s, List.mem_filterMap.2 ⟨_, hmem, rfl⟩, by simp⟩
    obtain ⟨t, ht⟩ := Option.isSome_iff_exists.1 hsome
    refine ⟨t, ht, ?_, ht⟩
    unfold firstCat at ht
    simpa using List.find?_some ht
  · intro b b' localIdx featureId s h
    obtain ⟨curPart, doc, _, h2, h3, h4⟩ := AddCatFeature_ok h
    obtain ⟨hl, _⟩ := List.getElem?_eq_some.1 h2
    subst h4
    refine ⟨setFactor doc featureId (ConvertCatFeatureHashToFloat (env.CalcCatFeatureHash s)), ?_, ?_⟩
    · simp only [setLine, setPart, List.getElem?_set, hl, if_true]
    · simp only [setFactor, List.getElem?_set, h3, if_true]

set_option maxRecDepth 100000 in
/-- C10 on a block of two documents with the categorical values `red` and
`sun`, which have the same hash: the entry is `red`. -/
theorem C10_hash_to_string_entries_witness :
    (∀ localIdx featureId s, TBuilderCall.AddCatFeature localIdx featureId s ∈ exampleCalls →
      ∃ t, hashFind exampleBuilder.Finish.Pool.CatFeaturesHashToString
          (testEnv.CalcCatFeatureHash s) = some t ∧
        testEnv.CalcCatFeatureHash t = testEnv.CalcCatFeatureHash s ∧
        firstCat testEnv exampleCalls (testEnv.CalcCatFeatureHash s) = some t) ∧
    (∀ (b b' : TPoolBuilder) localIdx featureId s,
      b.AddCatFeature testEnv localIdx featureId s = .ok b' →
      ∃ doc, b'.Pool.Docs[b.GetLine localIdx]? = some doc ∧
        doc.Factors[featureId]? =
          some (ConvertCatFeatureHashToFloat (testEnv.CalcCatFeatureHash s))) :=
  C10_hash_to_string_entries testEnv {} { FactorCount := 1 } exampleCalls exampleBuilder rfl
    (by decide) (by decide)


/-! ## The reader: blocks -/

theorem readLineBuffer_eq (blockSize : Nat) :
    ∀ (lines readBuffer : List String),
      readLineBuffer blockSize lines readBuffer =
        (readBuffer ++ lines.take (blockSize - readBuffer.length),
          lines.drop (blockSize - readBuffer.length)) := by
  intro lines
  induction lines with
  | nil => intro readBuffer; simp [readLineBuffer]
  | cons line rest ih =>
    intro readBuffer
    unfold readLineBuffer
    by_cases h : readBuffer.length < blockSize
    · simp only [h, if_true, ih, List.length_append, List.length_singleton]
      have : blockSize - readBuffer.length = (blockSize - (readBuffer.length + 1)) + 1 := by omega
      rw [this, List.take_succ_cons, List.drop_succ_cons]
      simp
    · simp only [h, if_false]
      have : blockSize - readBuffer.length = 0 := by omega
      simp [this]

theorem ReadBlockAsync_eq (r : TPoolReader) :
    r.ReadBlockAsync =
      { r with ReadBuffer := r.Reader.take (toSizeT r.BlockSize)
               Reader := r.Reader.drop (toSizeT r.BlockSize) } := by
  unfold TPoolReader.ReadBlockAsync
  rw [readLineBuffer_eq]
  simp

/-- `ReadBlock` on a ready reader: the block is the first `BlockSize` of the
lines to deliver, `true` is returned exactly when there is a line, and the
reader is ready for the other lines. -/
theorem ReadBlock_ready {r : TPoolReader} {rest : List String} (hr : ReaderReady r rest)
    (hpos : 0 < toSizeT r.BlockSize) :
    (rest = [] → r.ReadBlock.2 = false) ∧
    (rest ≠ [] → r.ReadBlock.2 = true ∧
      r.ReadBlock.1.ParseBuffer = rest.take (toSizeT r.BlockSize) ∧
      r.ReadBlock.1.ParseBuffer ≠ [] ∧
      ReaderReady r.ReadBlock.1 (rest.drop (toSizeT r.BlockSize)) ∧
      r.ReadBlock.1.LinesRead = r.LinesRead ∧
      r.ReadBlock.1.BlockSize = r.BlockSize ∧
      r.ReadBlock.1.ColumnsDescription = r.ColumnsDescription ∧
      r.ReadBlock.1.FieldDelimiter = r.FieldDelimiter) := by
  obtain ⟨h1, h2⟩ := hr
  constructor
  · intro he
    subst he
    simp [TPoolReader.ReadBlock, h1]
  · intro hne
    have htake : rest.take (toSizeT r.BlockSize) ≠ [] := by
      cases rest with
      | nil => exact absurd rfl hne
      | cons a l =>
        obtain ⟨n, hn⟩ := Nat.exists_eq_succ_of_ne_zero (Nat.pos_iff_ne_zero.1 hpos)
        rw [hn]; simp
    simp only [TPoolReader.ReadBlock, h1, ne_eq, htake, not_false_eq_true, if_true,
      ReadBlockAsync_eq, h2, ReaderReady, and_self, and_true, true_and]

/-! ## The builder: `StartNextBlock` -/

theorem StartNextBlock_ok (b : TPoolBuilder) (n : Nat) (h : b.Pool.Docs.length + n < 2 ^ 32) :
    ∃ b1, b.StartNextBlock n = .ok b1 ∧ b1.Cursor = b.Pool.Docs.length ∧
      b1.Pool.Docs = b.Pool.Docs ++
        List.replicate n (TPoolBuilder.initDoc b.FactorCount b.BaselineCount ({} : TDocInfo)) ∧
      b1.FactorCount = b.FactorCount ∧ b1.BaselineCount = b.BaselineCount ∧
      b1.LockedHashMapParts = b.LockedHashMapParts ∧
      b1.Pool.CatFeaturesHashToString = b.Pool.CatFeaturesHashToString := by
  have hres : resize b.Pool.Docs (b.Pool.Docs.length + n) ({} : TDocInfo) =
      b.Pool.Docs ++ List.replicate n ({} : TDocInfo) := by
    unfold resize
    rw [List.take_of_length_le (by omega)]
    congr 2
    omega
  have hmod : b.Pool.Docs.length % 2 ^ 32 = b.Pool.Docs.length := Nat.mod_eq_of_lt (by omega)
  have hdef : b.StartNextBlock n = .ok
      { b with
        Cursor := b.Pool.Docs.length % 2 ^ 32
        Pool := { b.Pool with
                  Docs := (resize b.Pool.Docs (b.Pool.Docs.length + n) ({} : TDocInfo)).take
                      (b.Pool.Docs.length % 2 ^ 32) ++
                    ((resize b.Pool.Docs (b.Pool.Docs.length + n) ({} : TDocInfo)).drop
                      (b.Pool.Docs.length % 2 ^ 32)).map
                      (TPoolBuilder.initDoc b.FactorCount b.BaselineCount) } } := by
    unfold TPoolBuilder.StartNextBlock
    simp only [length_resize, h, if_true]
  refine ⟨_, hdef, hmod, ?_, rfl, rfl, rfl, rfl⟩
  simp only [hres, hmod, List.take_left', List.drop_left', List.map_replicate]

theorem StartNextBlock_eq_ok {b b1 : TPoolBuilder} {n : Nat} (h : b.StartNextBlock n = .ok b1) :
    b.Pool.Docs.length + n < 2 ^ 32 := by
  unfold TPoolBuilder.StartNextBlock at h
  simp only [length_resize] at h
  split at h
  · assumption
  · cases h

/-! ## The builder: the frame of the `Add*` calls -/

theorem SameFrame.refl (b : TPoolBuilder) : SameFrame b b := ⟨rfl, rfl, rfl, rfl, rfl⟩

theorem SameFrame.trans {b1 b2 b3 : TPoolBuilder} (h1 : SameFrame b1 b2) (h2 : SameFrame b2 b3) :
    SameFrame b1 b3 :=
  ⟨h2.1.trans h1.1, h2.2.1.trans h1.2.1, h2.2.2.1.trans h1.2.2.1,
    h2.2.2.2.1.trans h1.2.2.2.1, h2.2.2.2.2.trans h1.2.2.2.2⟩

theorem modifyLine_frame {localIdx : Nat} {f : TDocInfo → Except Fault TDocInfo}
    {b b' : TPoolBuilder} (h : b.modifyLine localIdx f = .ok b') : SameFrame b b' := by
  obtain ⟨_, _, _, _, h3⟩ := modifyLine_ok h
  subst h3
  exact ⟨by simp, rfl, rfl, rfl, rfl⟩

theorem AddFloatFeature_frame {localIdx featureId : Nat} {feature : TFloat} {b b' : TPoolBuilder}
    (h : b.AddFloatFeature localIdx featureId feature = .ok b') : SameFrame b b' :=
  modifyLine_frame h

theorem AddCatFeature_frame {env : TEnv} {localIdx featureId : Nat} {feature : String}
    {b b' : TPoolBuilder} (h : b.AddCatFeature env localIdx featureId feature = .ok b') :
    SameFrame b b' := by
  obtain ⟨_, _, _, _, _, h4⟩ := AddCatFeature_ok h
  subst h4
  exact ⟨by simp [setLine, setPart], rfl, rfl, rfl, rfl⟩

theorem AddTarget_frame {localIdx : Nat} {value : TFloat} {b b' : TPoolBuilder}
    (h : b.AddTarget localIdx value = .ok b') : SameFrame b b' :=
  modifyLine_frame h

theorem AddWeight_frame {localIdx : Nat} {value : TFloat} {b b' : TPoolBuilder}
    (h : b.AddWeight localIdx value = .ok b') : SameFrame b b' :=
  modifyLine_frame h

theorem AddBaseline_frame {localIdx offset : Nat} {value : TDouble} {b b' : TPoolBuilder}
    (h : b.AddBaseline localIdx offset value = .ok b') : SameFrame b b' :=
  modifyLine_frame h

theorem AddDocId_frame {localIdx : Nat} {value : String} {b b' : TPoolBuilder}
    (h : b.AddDocId localIdx value = .ok b') : SameFrame b b' :=
  modifyLine_frame h

theorem AddQueryId_frame {localIdx : Nat} {queryId : String} {b b' : TPoolBuilder}
    (h : b.AddQueryId localIdx queryId = .ok b') : SameFrame b b' := by
  simp only [TPoolBuilder.AddQueryId, Except.ok.injEq] at h
  subst h
  exact SameFrame.refl _

/-- The parse of a line changes neither the number of documents nor the cursor. -/
theorem parseWords_frame (env : TEnv) (r : TPoolReader) (lineIdx : Nat) :
    ∀ (words : List String) (columns : List TColumn) (i featureId baselineIdx : Nat)
      (b b' : TPoolBuilder),
      TPoolReader.parseWords env r lineIdx words columns i featureId baselineIdx b = .ok b' →
      SameFrame b b' := by
  intro words
  induction words with
  | nil =>
    intro columns i featureId baselineIdx b b' h
    simp only [TPoolReader.parseWords, Except.ok.injEq] at h
    subst h
    exact SameFrame.refl _
  | cons word words ih =>
    intro columns i featureId baselineIdx b b' h
    cases columns with
    | nil => simp [TPoolReader.parseWords] at h
    | cons column columns =>
      unfold TPoolReader.parseWords at h
      repeat' split at h
      all_goals first
        | cases h
        | exact (AddCatFeature_frame ‹_›).trans (ih _ _ _ _ _ _ h)
        | exact (AddFloatFeature_frame ‹_›).trans (ih _ _ _ _ _ _ h)
        | exact (AddTarget_frame ‹_›).trans (ih _ _ _ _ _ _ h)
        | exact (AddWeight_frame ‹_›).trans (ih _ _ _ _ _ _ h)
        | exact (AddBaseline_frame ‹_›).trans (ih _ _ _ _ _ _ h)
        | exact (AddDocId_frame ‹_›).trans (ih _ _ _ _ _ _ h)
        | exact (AddQueryId_frame ‹_›).trans (ih _ _ _ _ _ _ h)
        | exact ih _ _ _ _ _ _ h

theorem forRange_frame {f : Nat → TPoolBuilder → Except Fault TPoolBuilder}
    (hf : ∀ idx b b', f idx b = .ok b' → SameFrame b b') :
    ∀ (count first : Nat) (b b' : TPoolBuilder),
      forRange f count first b = .ok b' → SameFrame b b' := by
  intro count
  induction count with
  | zero =>
    intro first b b' h
    simp only [forRange, Except.ok.injEq] at h
    subst h
    exact SameFrame.refl _
  | succ count ih =>
    intro first b b' h
    unfold forRange at h
    split at h
    · cases h
    · rename_i b1 h1
      exact (hf _ _ _ h1).trans (ih _ _ _ h)

theorem parseFeaturesInBlock_frame {env : TEnv} {r : TPoolReader} {lineIdx : Nat}
    {b b' : TPoolBuilder} (h : r.parseFeaturesInBlock env lineIdx b = .ok b') :
    SameFrame b b' := by
  unfold TPoolReader.parseFeaturesInBlock at h
  split at h
  · cases h
  · simp only [] at h
    split at h
    · exact parseWords_frame _ _ _ _ _ _ _ _ _ _ h
    · cases h

/-- `ProcessBlock` appends one document for each line of the block and adds
the size of the block to `LinesRead`. -/
theorem ProcessBlock_ok {env : TEnv} {r r' : TPoolReader} {b b' : TPoolBuilder}
    (h : r.ProcessBlock env b = .ok (r', b')) :
    r' = { r with LinesRead := r.LinesRead + r.ParseBuffer.length } ∧
      ∃ b1, b.StartNextBlock (r.ParseBuffer.length % 2 ^ 32) = .ok b1 ∧ SameFrame b1 b' := by
  unfold TPoolReader.ProcessBlock at h
  split at h
  · cases h
  · rename_i b1 h1
    split at h
    · cases h
    · rename_i b2 h2
      simp only [Except.ok.injEq, Prod.mk.injEq] at h
      refine ⟨h.1.symm, b1, h1, ?_⟩
      rw [← h.2]
      exact forRange_frame (fun idx b b' hh => parseFeaturesInBlock_frame hh) _ _ _ _ h2

/-! ## The constructor of the reader -/

theorem readHeader_ok {env : TEnv} {r r' : TPoolReader} (h : r.readHeader env = .ok r') :
    r'.Reader = dataLines r.HasHeader r.Reader ∧ r'.ReadBuffer = r.ReadBuffer ∧
      r'.ParseBuffer = r.ParseBuffer ∧ r'.LinesRead = r.LinesRead ∧
      r'.BlockSize = r.BlockSize ∧ r'.FieldDelimiter = r.FieldDelimiter ∧
      r'.HasHeader = r.HasHeader ∧ r'.ColumnsDescription = r.ColumnsDescription ∧
      r'.PoolMetaInfo = r.PoolMetaInfo ∧ r'.ClassNames = r.ClassNames := by
  unfold TPoolReader.readHeader at h
  split at h
  · rename_i hh
    simp only [] at h
    split at h
    · simp only [Except.ok.injEq] at h
      subst h
      simp [dataLines, hh]
    · cases h
  · rename_i hh
    simp only [Except.ok.injEq] at h
    subst h
    simp [dataLines, hh]

/-- What a successful constructor leaves: the column description passed the
checks, the header line is consumed and the first block is read. -/
theorem create_ok {env : TEnv} {cd : Option (List TColumn)} {columnsCount : Nat}
    {poolLines : List String} {pairsFile : String} {threadCount : Int} {fieldDelimiter : Char}
    {hasHeader : Bool} {classNames : List String} {blockSize : Int} {r : TPoolReader}
    (h : TPoolReader.create env cd columnsCount poolLines pairsFile threadCount fieldDelimiter
      hasHeader classNames blockSize = .ok r) :
    ReaderReady r (dataLines hasHeader poolLines) ∧ r.ParseBuffer = [] ∧ r.LinesRead = 0 ∧
      r.BlockSize = blockSize ∧ r.FieldDelimiter = fieldDelimiter ∧
      (match cd with
       | some columns => r.ColumnsDescription = columns
       | none => 0 < columnsCount ∧ r.ColumnsDescription =
           (List.replicate columnsCount (⟨.Num, ""⟩ : TColumn)).set 0 ⟨.Target, ""⟩) ∧
      toInt32 (countType r.ColumnsDescription .Weight) ≤ 1 ∧
      toInt32 (countType r.ColumnsDescription .Target) ≤ 1 ∧
      toInt32 (countType r.ColumnsDescription .DocId) ≤ 1 ∧
      toInt32 (countType r.ColumnsDescription .QueryId) ≤ 1 ∧
      0 < (r.ColumnsDescription.countP fun x => IsFactorColumn x.ColType) % 2 ^ 32 ∧
      r.PoolMetaInfo.FactorCount =
        (r.ColumnsDescription.countP fun x => IsFactorColumn x.ColType) % 2 ^ 32 ∧
      r.PoolMetaInfo.BaselineCount = countType r.ColumnsDescription .Baseline % 2 ^ 32 ∧
      r.PoolMetaInfo.CatFeatureIds = GetCategFeatures r.ColumnsDescription := by
  unfold TPoolReader.create at h
  split at h
  · cases h
  · simp only [] at h
    split at h
    · cases h
    · rename_i columns hcols
      split at h
      · cases h
      · rename_i hw
        split at h
        · cases h
        · rename_i ht
          split at h
          · cases h
          · rename_i hd
            split at h
            · cases h
            · rename_i hq
              split at h
              · cases h
              · rename_i hfc
                split at h
                · cases h
                · rename_i r1 hr1
                  simp only [Except.ok.injEq] at h
                  obtain ⟨e1, e2, e3, e4, e5, e6, e7, e8, e9, e10⟩ := readHeader_ok hr1
                  subst h
                  have hcd : r1.ReadBlockAsync.ColumnsDescription = columns := by
                    rw [ReadBlockAsync_eq]; exact e8
                  have hmeta : r1.ReadBlockAsync.PoolMetaInfo = r1.PoolMetaInfo := by
                    rw [ReadBlockAsync_eq]
                  simp only [not_not] at hw ht hd hq hfc
                  rw [hcd, hmeta, e9]
                  refine ⟨⟨?_, ?_⟩, ?_, ?_, ?_, ?_, ?_, hw, ht, hd, hq, hfc, rfl, rfl, rfl⟩
                  · rw [ReadBlockAsync_eq]
                    show r1.Reader.take (toSizeT r1.BlockSize) = _
                    rw [e1, e5]
                  · rw [ReadBlockAsync_eq]
                    show r1.Reader.drop (toSizeT r1.BlockSize) = _
                    rw [e1, e5]
                  · rw [ReadBlockAsync_eq]; exact e3
                  · rw [ReadBlockAsync_eq]; exact e4
                  · rw [ReadBlockAsync_eq]; exact e5
                  · rw [ReadBlockAsync_eq]; exact e6
                  · cases cd with
                    | some cols =>
                      simp only [Except.ok.injEq] at hcols
                      exact hcols.symm
                    | none =>
                      simp only at hcols
                      split at hcols
                      · rename_i hc
                        simp only [Except.ok.injEq] at hcols
                        exact ⟨hc, hcols.symm⟩
                      · cases hcols

/-! ## The blocks of the reader -/

/-- With a call of `ReadBlock` for each line and one more, the blocks
delivered are not empty, at most `BlockSize` long, and their concatenation is
the lines to deliver. -/
theorem deliveredBlocks_ok :
    ∀ (fuel : Nat) (r : TPoolReader) (rest : List String),
      ReaderReady r rest → 0 < toSizeT r.BlockSize → rest.length + 1 ≤ fuel →
      ∃ blocks, deliveredBlocks fuel r = some blocks ∧
        (∀ blk ∈ blocks, blk ≠ [] ∧ blk.length ≤ toSizeT r.BlockSize) ∧
        blocks.flatten = rest := by
  intro fuel
  induction fuel with
  | zero => intro r rest _ _ hf; omega
  | succ fuel ih =>
    intro r rest hr hpos hf
    obtain ⟨hnil, hcons⟩ := ReadBlock_ready hr hpos
    unfold deliveredBlocks
    by_cases hrest : rest = []
    · have h2 := hnil hrest
      refine ⟨[], ?_, by simp, by simp [hrest]⟩
      cases hrb : r.ReadBlock with
      | mk r1 more =>
        rw [hrb] at h2
        simp only at h2
        subst h2
        rfl
    · obtain ⟨h2, hpb, hne, hready, _, hbs, _, _⟩ := hcons hrest
      have hdrop : (rest.drop (toSizeT r.BlockSize)).length + 1 ≤ rest.length := by
        have : 0 < rest.length := List.length_pos.2 hrest
        rw [List.length_drop]; omega
      obtain ⟨blocks, hrec, hblk, hflat⟩ :=
        ih r.ReadBlock.1 (rest.drop (toSizeT r.BlockSize)) hready (by rw [hbs]; exact hpos)
          (by omega)
      refine ⟨r.ReadBlock.1.ParseBuffer :: blocks, ?_, ?_, ?_⟩
      · cases hrb : r.ReadBlock with
        | mk r1 more =>
          rw [hrb] at h2 hrec
          simp only at h2 hrec
          subst h2
          simp only [hrec]
      · intro blk hmem
        rcases List.mem_cons.1 hmem with h | h
        · subst h
          refine ⟨hne, ?_⟩
          rw [hpb, List.length_take]; omega
        · have := hblk blk h
          rwa [hbs] at this
      · rw [List.flatten_cons, hflat, hpb, List.take_append_drop]

theorem toSizeT_of_nonneg {x : Int} (h0 : 0 ≤ x) (h1 : x < 2 ^ 64) : toSizeT x = x.toNat := by
  unfold toSizeT
  rw [Int.emod_eq_of_lt h0 h1]

/-! ## The faults of the parse of a line -/

theorem AddFloatFeature_error {localIdx featureId : Nat} {feature : TFloat} {b : TPoolBuilder}
    {e : Fault} (h : b.AddFloatFeature localIdx featureId feature = .error e) :
    e = .outOfRange := by
  refine modifyLine_error ?_ h
  intro doc e' he
  split at he
  · cases he
  · cases he; rfl

theorem AddCatFeature_error {env : TEnv} {localIdx featureId : Nat} {feature : String}
    {b : TPoolBuilder} {e : Fault}
    (h : b.AddCatFeature env localIdx featureId feature = .error e) : e = .outOfRange := by
  unfold TPoolBuilder.AddCatFeature at h
  simp only [] at h
  split at h
  · cases h; rfl
  · exact AddFloatFeature_error h

theorem AddTarget_error {localIdx : Nat} {value : TFloat} {b : TPoolBuilder} {e : Fault}
    (h : b.AddTarget localIdx value = .error e) : e = .outOfRange :=
  modifyLine_error (fun _ _ he => by cases he) h

theorem AddWeight_error {localIdx : Nat} {value : TFloat} {b : TPoolBuilder} {e : Fault}
    (h : b.AddWeight localIdx value = .error e) : e = .outOfRange :=
  modifyLine_error (fun _ _ he => by cases he) h

theorem AddDocId_error {localIdx : Nat} {value : String} {b : TPoolBuilder} {e : Fault}
    (h : b.AddDocId localIdx value = .error e) : e = .outOfRange :=
  modifyLine_error (fun _ _ he => by cases he) h

theorem AddBaseline_error {localIdx offset : Nat} {value : TDouble} {b : TPoolBuilder}
    {e : Fault} (h : b.AddBaseline localIdx offset value = .error e) : e = .outOfRange := by
  refine modifyLine_error ?_ h
  intro doc e' he
  split at he
  · cases he
  · cases he; rfl

theorem AddQueryId_error {localIdx : Nat} {queryId : String} {b : TPoolBuilder} {e : Fault}
    (h : b.AddQueryId localIdx queryId = .error e) : e = .outOfRange := by
  simp [TPoolBuilder.AddQueryId] at h

theorem TTargetConverter_error {env : TEnv} {classNames : List String} {word : String}
    {e : Fault} (h : TTargetConverter env classNames word = .error e) :
    e = .fromString word ∨ e = .unknownClassName word := by
  unfold TTargetConverter at h
  split at h
  · split at h
    · cases h
    · cases h; exact Or.inl rfl
  · split at h
    · cases h
    · cases h; exact Or.inr rfl

theorem parseNum_error {env : TEnv} {r : TPoolReader} {lineIdx i : Nat} {word : String}
    {e : Fault} (h : TPoolReader.parseNum env r lineIdx i word = .error e) :
    e = .emptyValue "" ∨
      (e = .cannotParseFloat word (i + 1) (r.LinesRead + lineIdx + 1) ∧
        env.TryFromStringFloat word = none ∧ IsNanToken word = false ∧ word ≠ "") := by
  unfold TPoolReader.parseNum at h
  split at h
  · cases h; exact Or.inl rfl
  · rename_i hne
    split at h
    · cases h
    · rename_i hnone
      split at h
      · cases h
      · rename_i hnan
        cases h
        exact Or.inr ⟨rfl, hnone, by simpa using hnan, hne⟩

theorem RejectedNum.shift {env : TEnv} {r : TPoolReader} {lineIdx : Nat} {words : List String}
    {columns : List TColumn} {i : Nat} {tok : String} {col row : Nat} (word : String)
    (column : TColumn) (h : RejectedNum env r lineIdx words columns (i + 1) tok col row) :
    RejectedNum env r lineIdx (word :: words) (column :: columns) i tok col row := by
  obtain ⟨h1, k, h2, h3, h4, h5⟩ := h
  exact ⟨h1, k + 1, by omega, by simpa using h3, by simpa using h4, h5⟩

/-- A line is rejected with `cannotParseFloat` only for a token of a numeric
column, and the row of the fault is `LinesRead + lineIdx + 1`. -/
theorem parseWords_cannotParseFloat (env : TEnv) (r : TPoolReader) (lineIdx : Nat) :
    ∀ (words : List String) (columns : List TColumn) (i featureId baselineIdx : Nat)
      (b : TPoolBuilder) (tok : String) (col row : Nat),
      TPoolReader.parseWords env r lineIdx words columns i featureId baselineIdx b =
        .error (.cannotParseFloat tok col row) →
      RejectedNum env r lineIdx words columns i tok col row := by
  intro words
  induction words with
  | nil =>
    intro columns i featureId baselineIdx b tok col row h
    simp [TPoolReader.parseWords] at h
  | cons word words ih =>
    intro columns i featureId baselineIdx b tok col row h
    cases columns with
    | nil => simp [TPoolReader.parseWords] at h
    | cons column columns =>
      unfold TPoolReader.parseWords at h
      split at h
      · -- Categ
        split at h
        · rename_i e he
          have := AddCatFeature_error he
          subst this
          cases h
        · exact (ih _ _ _ _ _ _ _ _ h).shift word column
      · -- Num
        rename_i hnum
        split at h
        · rename_i e he
          simp only [Except.error.injEq] at h
          subst h
          rcases parseNum_error he with h1 | ⟨h1, h2, h3, h4⟩
          · cases h1
          · simp only [Fault.cannotParseFloat.injEq] at h1
            obtain ⟨rfl, rfl, rfl⟩ := h1
            exact ⟨rfl, 0, rfl, by simp, by simp [hnum], h2, h3, h4⟩
        · split at h
          · rename_i e he
            have := AddFloatFeature_error he
            subst this
            cases h
          · exact (ih _ _ _ _ _ _ _ _ h).shift word column
      · -- Target
        split at h
        · cases h
        · split at h
          · rename_i e he
            rcases TTargetConverter_error he with h1 | h1 <;> subst h1 <;> cases h
          · split at h
            · rename_i e he
              have := AddTarget_error he
              subst this
              cases h
            · exact (ih _ _ _ _ _ _ _ _ h).shift word column
      · -- Weight
        split at h
        · cases h
        · split at h
          · cases h
          · split at h
            · rename_i e he
              have := AddWeight_error he
              subst this
              cases h
            · exact (ih _ _ _ _ _ _ _ _ h).shift word column
      · -- Auxiliary
        exact (ih _ _ _ _ _ _ _ _ h).shift word column
      · -- QueryId
        split at h
        · rename_i e he
          have := AddQueryId_error he
          subst this
          cases h
        · exact (ih _ _ _ _ _ _ _ _ h).shift word column
      · -- Baseline
        split at h
        · cases h
        · split at h
          · cases h
          · split at h
            · rename_i e he
              have := AddBaseline_error he
              subst this
              cases h
            · exact (ih _ _ _ _ _ _ _ _ h).shift word column
      · -- DocId
        split at h
        · cases h
        · split at h
          · rename_i e he
            have := AddDocId_error he
            subst this
            cases h
          · exact (ih _ _ _ _ _ _ _ _ h).shift word column

theorem forRange_error_at {σ : Type} (f : Nat → σ → Except Fault σ) :
    ∀ (count first : Nat) (s : σ) (e : Fault),
      forRange f count first s = .error e →
      ∃ idx s', first ≤ idx ∧ idx < first + count ∧ f idx s' = .error e := by
  intro count
  induction count with
  | zero => intro first s e h; simp [forRange] at h
  | succ count ih =>
    intro first s e h
    unfold forRange at h
    split at h
    · rename_i e' he
      simp only [Except.error.injEq] at h
      subst h
      exact ⟨first, s, Nat.le_refl _, by omega, he⟩
    · obtain ⟨idx, s', h1, h2, h3⟩ := ih _ _ _ h
      exact ⟨idx, s', by omega, by omega, h3⟩

/-- `ProcessBlock` fails with `cannotParseFloat` only on a line of the block,
for a token of a numeric column of that line. -/
theorem ProcessBlock_cannotParseFloat {env : TEnv} {r : TPoolReader} {b : TPoolBuilder}
    {tok : String} {col row : Nat}
    (h : r.ProcessBlock env b = .error (.cannotParseFloat tok col row)) :
    ∃ lineIdx line, r.ParseBuffer[lineIdx]? = some line ∧
      RejectedNum env r lineIdx (env.SplitRangeTo r.FieldDelimiter line)
        r.ColumnsDescription 0 tok col row := by
  unfold TPoolReader.ProcessBlock at h
  split at h
  · rename_i e he
    simp only [Except.error.injEq] at h
    subst h
    unfold TPoolBuilder.StartNextBlock at he
    simp only [] at he
    split at he
    · cases he
    · cases he
  · split at h
    · rename_i e he
      simp only [Except.error.injEq] at h
      subst h
      obtain ⟨lineIdx, b', _, _, hp⟩ := forRange_error_at _ _ _ _ _ he
      unfold TPoolReader.parseFeaturesInBlock at hp
      split at hp
      · cases hp
      · rename_i line hline
        simp only [] at hp
        split at hp
        · exact ⟨lineIdx, line, hline, parseWords_cannotParseFloat _ _ _ _ _ _ _ _ _ _ _ _ hp⟩
        · cases hp
    · cases h

/-- The loop of `ReadPool` fails with `cannotParseFloat tok col row` only for
the token `tok` of column `col` of the line at the 1-based position `row` among
the lines delivered and to deliver. -/
theorem readLoop_cannotParseFloat (env : TEnv) (tok : String) (col row : Nat) :
    ∀ (fuel : Nat) (r : TPoolReader) (b : TPoolBuilder) (delivered rest : List String),
      ReaderReady r rest → r.LinesRead = delivered.length →
      readLoop env fuel r b = .error (.cannotParseFloat tok col row) →
      1 ≤ row ∧ ∃ line, (delivered ++ rest)[row - 1]? = some line ∧
        ∃ k, col = k + 1 ∧ (env.SplitRangeTo r.FieldDelimiter line)[k]? = some tok ∧
          (r.ColumnsDescription[k]?).map TColumn.ColType = some .Num ∧
          env.TryFromStringFloat tok = none ∧ IsNanToken tok = false ∧ tok ≠ "" := by
  intro fuel
  induction fuel with
  | zero => intro r b delivered rest _ _ h; simp [readLoop] at h
  | succ fuel ih =>
    intro r b delivered rest hr hlr h
    by_cases hbuf : r.ReadBuffer = []
    · exfalso
      unfold readLoop at h
      simp [TPoolReader.ReadBlock, hbuf] at h
    · have hpos : 0 < toSizeT r.BlockSize := by
        by_contra hc
        have hz : toSizeT r.BlockSize = 0 := by omega
        apply hbuf
        rw [hr.1, hz, List.take_zero]
      have hrest : rest ≠ [] := by
        intro hc
        apply hbuf
        rw [hr.1, hc, List.take_nil]
      obtain ⟨h2, hpb, _, hready, hlr1, _, hcd, hfd⟩ := (ReadBlock_ready hr hpos).2 hrest
      unfold readLoop at h
      cases hrb : r.ReadBlock with
      | mk r1 more =>
        rw [hrb] at h2 hpb hready hlr1 hcd hfd h
        simp only at h2 hpb hready hlr1 hcd hfd h
        subst h2
        simp only at h
        split at h
        · rename_i e he
          simp only [Except.error.injEq] at h
          subst h
          obtain ⟨lineIdx, line, hline, hrow, k, hk⟩ := ProcessBlock_cannotParseFloat he
          refine ⟨by omega, line, ?_, k, by omega, ?_⟩
          · have hl : lineIdx < r1.ParseBuffer.length := (List.getElem?_eq_some.1 hline).1
            have hidx : row - 1 = delivered.length + lineIdx := by
              rw [hrow, hlr1, hlr]; omega
            rw [hidx, List.getElem?_append_right (by omega), Nat.add_sub_cancel_left]
            rw [hpb, List.getElem?_take] at hline
            split at hline
            · exact hline
            · cases hline
          · rw [← hfd, ← hcd]
            exact hk.2
        · rename_i r2 b2 hp
          obtain ⟨hr2, _⟩ := ProcessBlock_ok hp
          subst hr2
          have := ih _ b2 (delivered ++ r1.ParseBuffer) (rest.drop (toSizeT r.BlockSize))
            (show ReaderReady { r1 with LinesRead := r1.LinesRead + r1.ParseBuffer.length } _
              from hready)
            (by simp only [List.length_append]; rw [hlr1, hlr]) h
          rw [List.append_assoc, hpb, List.take_append_drop] at this
          simpa only [hfd, hcd] using this

/-- C3 (as stated) fails: in a file with a header line whose first data line
has a numeric token that does not parse, the row of the error is 1, and the
line is the second line of the file. -/
theorem C3_header_row_counterexample :
    ReadPool testEnv 5 (some targetNum) 2 headerAndBadLine "" 1 ',' true [] 10000
        (InitBuilder {}) = .error (.cannotParseFloat "x" 2 1) ∧
      headerAndBadLine[2 - 1]? = some "1,x" ∧ headerAndBadLine[1 - 1]? = some "t,n" := by
  decide

/-- The wrong-columns error names `lineIdx + 1`, the position of the line in
its block: with blocks of one line, the second line of the file is reported
as line 1. -/
theorem wrongColumnsNumber_is_block_local :
    ReadPool testEnv 5 (some targetNum) 2 ["1,2", "1"] "" 1 ',' false [] 1 (InitBuilder {}) =
      .error (.wrongColumnsNumber 1 2 1) := by
  decide

/-- C3 (amended): for every input file, header setting and block size,
whenever the ingestion loop rejects a line because a Num token can not be
parsed, the row number in the error is the line's 1-based position among the
data lines (the header line, when there is one, is not counted), counted over
all lines of earlier blocks; the column is the 1-based position of the token
in the line. -/
theorem C3_num_error_names_data_row (env : TEnv) (cd : Option (List TColumn))
    (columnsCount : Nat) (poolLines : List String) (pairsFile : String) (threadCount : Int)
    (fieldDelimiter : Char) (hasHeader : Bool) (classNames : List String) (blockSize : Int)
    (r0 : TPoolReader) (b0 : TPoolBuilder) (fuel : Nat) (tok : String) (col row : Nat)
    (hcreate : TPoolReader.create env cd columnsCount poolLines pairsFile threadCount
      fieldDelimiter hasHeader classNames blockSize = .ok r0)
    (herr : readLoop env fuel r0 b0 = .error (.cannotParseFloat tok col row)) :
    1 ≤ row ∧ ∃ line, (dataLines hasHeader poolLines)[row - 1]? = some line ∧
      ∃ k, col = k + 1 ∧ (env.SplitRangeTo fieldDelimiter line)[k]? = some tok ∧
        (r0.ColumnsDescription[k]?).map TColumn.ColType = some .Num ∧
        env.TryFromStringFloat tok = none ∧ IsNanToken tok = false ∧ tok ≠ "" := by
  obtain ⟨hready, _, hlr, _, hfd, _⟩ := create_ok hcreate
  have := readLoop_cannotParseFloat env tok col row fuel r0 b0 [] _ hready hlr herr
  rw [hfd] at this
  simpa using this

set_option maxRecDepth 100000 in
/-- C3 (amended) on a file with a header line and a bad first data line. -/
theorem C3_num_error_names_data_row_witness :
    1 ≤ 1 ∧ ∃ line, (dataLines true headerAndBadLine)[1 - 1]? = some line ∧
      ∃ k, 2 = k + 1 ∧ (testEnv.SplitRangeTo ',' line)[k]? = some "x" ∧
        (badLineReader.ColumnsDescription[k]?).map TColumn.ColType = some .Num ∧
        testEnv.TryFromStringFloat "x" = none ∧ IsNanToken "x" = false ∧ "x" ≠ "" :=
  C3_num_error_names_data_row testEnv (some targetNum) 2 headerAndBadLine "" 1 ',' true []
    10000 badLineReader ((InitBuilder {}).Start badLineReader.PoolMetaInfo) 5 "x" 2 1
    (by decide) (by decide)

/-! ## The column description that the constructor accepts -/

theorem toInt32_le_one {n : Nat} (hn : n < 2 ^ 31) (h : toInt32 n ≤ 1) : n ≤ 1 := by
  unfold toInt32 at h
  omega

/-- C4 (as stated) fails: the constructor accepts the column description of a
single Num column, which has no Target column. -/
theorem C4_no_target_counterexample :
    (TPoolReader.create testEnv (some [⟨.Num, ""⟩]) 1 ["1"] "" 1 ',' false [] 10000).toOption.map
        (fun r => (r.ColumnsDescription, countType r.ColumnsDescription .Target)) =
      some ([⟨.Num, ""⟩], 0) := by
  decide

/-- C4 (amended): every column description of fewer than `2^31` columns that the
`TPoolReader` constructor accepts has at most one Target column (exactly one
when no column description file is given), at most one Weight column, at most
one DocId column, at most one QueryId column, and `FactorCount`, the number of
Num and Categ columns, is at least 1. -/
theorem C4_accepted_column_description (env : TEnv) (cd : Option (List TColumn))
    (columnsCount : Nat) (poolLines : List String) (pairsFile : String) (threadCount : Int)
    (fieldDelimiter : Char) (hasHeader : Bool) (classNames : List String) (blockSize : Int)
    (r : TPoolReader)
    (hcreate : TPoolReader.create env cd columnsCount poolLines pairsFile threadCount
      fieldDelimiter hasHeader classNames blockSize = .ok r)
    (hsize : r.ColumnsDescription.length < 2 ^ 31) :
    countType r.ColumnsDescription .Target ≤ 1 ∧
      (cd = none → countType r.ColumnsDescription .Target = 1) ∧
      countType r.ColumnsDescription .Weight ≤ 1 ∧
      countType r.ColumnsDescription .DocId ≤ 1 ∧
      countType r.ColumnsDescription .QueryId ≤ 1 ∧
      r.PoolMetaInfo.FactorCount =
        (r.ColumnsDescription.countP fun x => IsFactorColumn x.ColType) ∧
      1 ≤ r.PoolMetaInfo.FactorCount := by
  obtain ⟨_, _, _, _, _, hcols, hw, ht, hd, hq, hf, hfc, _⟩ := create_ok hcreate
  have hle : ∀ t, countType r.ColumnsDescription t < 2 ^ 31 := fun t =>
    Nat.lt_of_le_of_lt (List.countP_le_length _) hsize
  have hfle : (r.ColumnsDescription.countP fun x => IsFactorColumn x.ColType) < 2 ^ 32 :=
    Nat.lt_of_le_of_lt (List.countP_le_length _) (by omega)
  rw [Nat.mod_eq_of_lt hfle] at hf hfc
  refine ⟨toInt32_le_one (hle _) ht, ?_, toInt32_le_one (hle _) hw, toInt32_le_one (hle _) hd,
    toInt32_le_one (hle _) hq, hfc, by omega⟩
  intro hnone
  subst hnone
  simp only at hcols
  obtain ⟨hpos, hc⟩ := hcols
  obtain ⟨m, hm⟩ := Nat.exists_eq_succ_of_ne_zero (Nat.pos_iff_ne_zero.1 hpos)
  rw [hc, hm, List.replicate_succ, List.set_cons_zero]
  simp [countType, List.countP_cons, List.countP_replicate]

/-- C4 (amended) on the column description `Target, Num`. -/
theorem C4_accepted_column_description_witness :
    countType fourLinesReader.ColumnsDescription .Target ≤ 1 ∧
      ((some targetNum : Option (List TColumn)) = none →
        countType fourLinesReader.ColumnsDescription .Target = 1) ∧
      countType fourLinesReader.ColumnsDescription .Weight ≤ 1 ∧
      countType fourLinesReader.ColumnsDescription .DocId ≤ 1 ∧
      countType fourLinesReader.ColumnsDescription .QueryId ≤ 1 ∧
      fourLinesReader.PoolMetaInfo.FactorCount =
        (fourLinesReader.ColumnsDescription.countP fun x => IsFactorColumn x.ColType) ∧
      1 ≤ fourLinesReader.PoolMetaInfo.FactorCount :=
  C4_accepted_column_description testEnv (some targetNum) 2 fourLines "" 1 ',' false [] 2
    fourLinesReader (by decide) (by decide)

/-! ## More on `ApplyPermutation` and `InvertPermutation` -/

theorem rewritePairs_eq_ok (permutation : List Nat) :
    ∀ (pairs pairs' : List TPair), rewritePairs permutation pairs = .ok pairs' →
      pairs'.map (fun pair => (some pair.WinnerId, some pair.LoserId)) =
        pairs.map (fun pair => (permutation[pair.WinnerId]?, permutation[pair.LoserId]?)) := by
  intro pairs
  induction pairs with
  | nil =>
    intro pairs' h
    simp only [rewritePairs, Except.ok.injEq] at h
    subst h
    rfl
  | cons pair rest ih =>
    intro pairs' h
    unfold rewritePairs at h
    split at h
    · rename_i w l hw hl
      split at h
      · rename_i rest' hrest
        simp only [Except.ok.injEq] at h
        subst h
        simp only [List.map_cons, ih rest' hrest, hw, hl]
      · cases h
    · cases h

theorem ApplyPermutation_pairs {fuel : Nat} {permutation : List Nat} {pool pool' : TPool}
    (h : ApplyPermutation fuel permutation pool = .ok pool') :
    pool'.Pairs.map (fun pair => (some pair.WinnerId, some pair.LoserId)) =
      pool.Pairs.map (fun pair => (permutation[pair.WinnerId]?, permutation[pair.LoserId]?)) := by
  unfold ApplyPermutation at h
  split at h
  · cases h
  · split at h
    · cases h
    · split at h
      · cases h
      · rename_i pairs hp
        simp only [Except.ok.injEq] at h
        subst h
        exact rewritePairs_eq_ok _ _ _ hp

/-- C12: for every pool whose pairs hold indices below `|π|` and every `π`,
whenever `ApplyPermutation(π)` returns, the pairs are as many as before, in
the same order, and each pair `(w, l)` has become `(π[w], π[l])`; the call does
return when `π` is a permutation of `0 .. |Docs|-1`. -/
theorem C12_pairs_rewritten (permutation : List Nat) (pool : TPool)
    (hpairs : PairsValid permutation.length pool.Pairs) :
    (∀ fuel pool', ApplyPermutation fuel permutation pool = .ok pool' →
      pool'.Pairs.length = pool.Pairs.length ∧
      pool'.Pairs.map (fun pair => (some pair.WinnerId, some pair.LoserId)) =
        pool.Pairs.map (fun pair => (permutation[pair.WinnerId]?, permutation[pair.LoserId]?))) ∧
    (IsPermutation permutation → permutation.length = pool.Docs.length →
      ∀ fuel, 2 * pool.Docs.length + 1 ≤ fuel →
        ∃ pool', ApplyPermutation fuel permutation pool = .ok pool') := by
  constructor
  · intro fuel pool' h
    have := ApplyPermutation_pairs h
    exact ⟨by simpa using congrArg List.length this, this⟩
  · intro hperm hlen fuel hfuel
    obtain ⟨docs, h, _⟩ := ApplyPermutation_ok fuel permutation pool hperm hlen
      (hlen ▸ hpairs) hfuel
    exact ⟨_, h⟩

/-- C12 at scenario E: the pair `(0, 3)` becomes `(2, 1)`. -/
theorem C12_pairs_rewritten_witness :
    ((∀ fuel pool', ApplyPermutation fuel [2, 0, 3, 1] scenarioE = .ok pool' →
      pool'.Pairs.length = scenarioE.Pairs.length ∧
      pool'.Pairs.map (fun pair => (some pair.WinnerId, some pair.LoserId)) =
        scenarioE.Pairs.map (fun pair =>
          ([2, 0, 3, 1][pair.WinnerId]?, [2, 0, 3, 1][pair.LoserId]?))) ∧
    (IsPermutation [2, 0, 3, 1] → [2, 0, 3, 1].length = scenarioE.Docs.length →
      ∀ fuel, 2 * scenarioE.Docs.length + 1 ≤ fuel →
        ∃ pool', ApplyPermutation fuel [2, 0, 3, 1] scenarioE = .ok pool')) ∧
    (ApplyPermutation 9 [2, 0, 3, 1] scenarioE).toOption.map TPool.Pairs = some [⟨2, 1⟩] :=
  ⟨C12_pairs_rewritten [2, 0, 3, 1] scenarioE (by decide), by decide⟩

/-- C13: for every permutation `π` of `0 .. n-1`, `InvertPermutation(π)` returns
the inverse permutation: `InvertPermutation(π)[π[i]] = i` for every `i < n`, and
`InvertPermutation(InvertPermutation(π)) = π`. -/
theorem C13_InvertPermutation_inverse (permutation : List Nat)
    (hperm : IsPermutation permutation) :
    ∃ inv, InvertPermutation permutation = .ok inv ∧ inv.length = permutation.length ∧
      (∀ (i : Nat) (hi : i < permutation.length), inv[permutation[i]]? = some i) ∧
      InvertPermutation inv = .ok permutation := by
  obtain ⟨inv, h1, h2, h3, h4⟩ := InvertPermutation_ok permutation hperm
  obtain ⟨inv2, k1, k2, _, k4⟩ := InvertPermutation_ok inv h3
  refine ⟨inv, h1, h2, ?_, ?_⟩
  · intro i hi
    obtain ⟨p, hp1, hp2⟩ := h4 i hi
    rw [List.getElem?_eq_getElem hi] at hp1
    cases hp1
    exact hp2
  · rw [k1]
    congr 1
    apply List.ext_getElem?
    intro j
    by_cases hj : j < permutation.length
    · obtain ⟨p, hp1, hp2⟩ := h4 j hj
      have hpl : p < inv.length := (List.getElem?_eq_some.1 hp2).1
      obtain ⟨q, hq1, hq2⟩ := k4 p hpl
      rw [hp2] at hq1
      cases hq1
      rw [hq2, hp1]
    · rw [List.getElem?_eq_none (by omega), List.getElem?_eq_none (by omega)]

/-- C13 at `π = [2, 0, 3, 1]`, whose inverse is `[1, 3, 0, 2]`. -/
theorem C13_InvertPermutation_inverse_witness :
    (∃ inv, InvertPermutation [2, 0, 3, 1] = .ok inv ∧ inv.length = [2, 0, 3, 1].length ∧
      (∀ (i : Nat) (hi : i < [2, 0, 3, 1].length), inv[[2, 0, 3, 1][i]]? = some i) ∧
      InvertPermutation inv = .ok [2, 0, 3, 1]) ∧
    InvertPermutation [2, 0, 3, 1] = .ok [1, 3, 0, 2] :=
  ⟨C13_InvertPermutation_inverse [2, 0, 3, 1] (by decide), by decide⟩

/-! ## `TTargetConverter` -/

theorem findClass_eq (word : String) :
    ∀ (classNames : List String) (classIndex : Nat),
      findClass word classNames classIndex =
        if word ∈ classNames then some (classIndex + classNames.indexOf word) else none := by
  intro classNames
  induction classNames with
  | nil => intro classIndex; simp [findClass]
  | cons name rest ih =>
    intro classIndex
    unfold findClass
    by_cases h : name = word
    · subst h
      simp
    · have h' : ¬ word = name := fun e => h e.symm
      simp only [h, if_false, ih, List.mem_cons, h', false_or, List.indexOf_cons_ne _ h]
      split
      · simp only [Option.some.injEq]; omega
      · rfl

/-- C18: for every non-empty `classNames` and every word, `TTargetConverter`
returns the first position of the word in `classNames` (as the float of this
`int`) when the word is an element, and fails, with the unknown-class error,
exactly when it is not; with an empty `classNames` it returns the float parse of
the word, and fails where the parse fails. -/
theorem C18_TTargetConverter_class_index (env : TEnv) (classNames : List String) (word : String) :
    (classNames ≠ [] →
      (word ∈ classNames →
        classNames.indexOf word < classNames.length ∧
        classNames[classNames.indexOf word]? = some word ∧
        (∀ j, j < classNames.indexOf word → classNames[j]? ≠ some word) ∧
        TTargetConverter env classNames word =
          .ok (env.IntToFloat (classNames.indexOf word : Nat))) ∧
      (word ∉ classNames →
        TTargetConverter env classNames word = .error (.unknownClassName word)) ∧
      ((∃ e, TTargetConverter env classNames word = .error e) ↔ word ∉ classNames)) ∧
    (classNames = [] →
      TTargetConverter env classNames word =
        match env.TryFromStringFloat word with
        | some v => .ok v
        | none => .error (.fromString word)) := by
  constructor
  · intro hne
    have hdef : TTargetConverter env classNames word =
        if word ∈ classNames then .ok (env.IntToFloat (classNames.indexOf word : Nat))
        else .error (.unknownClassName word) := by
      unfold TTargetConverter
      rw [if_neg hne, findClass_eq]
      by_cases hmem : word ∈ classNames
      · simp only [hmem, if_true, Nat.zero_add]
      · simp only [hmem, if_false]
    refine ⟨?_, ?_, ?_⟩
    · intro hmem
      have hlt : classNames.indexOf word < classNames.length := List.indexOf_lt_length.2 hmem
      refine ⟨hlt, ?_, ?_, ?_⟩
      · rw [List.getElem?_eq_getElem hlt]
        simp
      · intro j hj hjw
        have hjl : j < classNames.length := by omega
        rw [List.getElem?_eq_getElem hjl] at hjw
        simp only [Option.some.injEq] at hjw
        have hnot := List.not_of_lt_findIdx (p := fun x => x == word) hj
        simp only [hjw, beq_self_eq_true, not_true_eq_false] at hnot
        cases hnot
      · rw [hdef, if_pos hmem]
    · intro hmem
      rw [hdef, if_neg hmem]
    · rw [hdef]
      by_cases hmem : word ∈ classNames
      · simp [hmem]
      · simp [hmem]
  · intro hnil
    subst hnil
    simp [TTargetConverter]

/-- C18 on the class names `a b a`: `a` is class `0`, `b` is class `1`, `c` is
unknown; without class names `2` parses to `2.0f`. -/
theorem C18_TTargetConverter_class_index_witness :
    TTargetConverter testEnv ["a", "b", "a"] "a" = .ok ⟨0⟩ ∧
    TTargetConverter testEnv ["a", "b", "a"] "b" = .ok f1 ∧
    TTargetConverter testEnv ["a", "b", "a"] "c" = .error (.unknownClassName "c") ∧
    TTargetConverter testEnv [] "2" = .ok f2 ∧
    TTargetConverter testEnv [] "c" = .error (.fromString "c") ∧
    ((∃ e, TTargetConverter testEnv ["a", "b", "a"] "c" = .error e) ↔ "c" ∉ ["a", "b", "a"]) :=
  ⟨by decide, by decide, by decide, by decide, by decide,
    ((C18_TTargetConverter_class_index testEnv ["a", "b", "a"] "c").1 (by decide)).2.2⟩

/-! ## `Start` and the sizes of the documents -/

set_option maxRecDepth 100000 in
/-- C19 as stated fails: on a pool that holds a pair, a feature id and a
hash-to-string entry, `Start` leaves all three in place, and a load of four
lines without a pairs file hands them back with the four new documents. -/
theorem C19_pool_not_cleared_counterexample :
    ((InitBuilder loadedPool).Start {}).Pool.Pairs = [⟨0, 0⟩] ∧
    ((InitBuilder loadedPool).Start {}).Pool.FeatureId = ["colour"] ∧
    ((InitBuilder loadedPool).Start {}).Pool.CatFeaturesHashToString = [(3, "red")] ∧
    (ReadPool testEnv 5 (some targetNum) 2 fourLines "" 1 ',' false [] 2
        (InitBuilder loadedPool)).toOption.map
        (fun b => (b.Pool.Docs.length, b.Pool.Pairs, b.Pool.FeatureId,
          b.Pool.CatFeaturesHashToString)) =
      some (4, [⟨0, 0⟩], ["colour"], [(3, "red")]) := by
  decide

/-- C19, amended: for every builder state, `Start(meta)` empties `Docs`, sets
`CatFeatures` to `meta.CatFeatureIds` and stores `FactorCount` and
`BaselineCount`; `Pairs`, `FeatureId` and `CatFeaturesHashToString` of the pool,
and the builder's own hash parts, are left as they were. -/
theorem C19_Start_clears_documents_only (poolMetaInfo : TPoolColumnsMetaInfo) (b : TPoolBuilder) :
    (b.Start poolMetaInfo).Pool.Docs = [] ∧
    (b.Start poolMetaInfo).Pool.CatFeatures = poolMetaInfo.CatFeatureIds ∧
    (b.Start poolMetaInfo).FactorCount = poolMetaInfo.FactorCount ∧
    (b.Start poolMetaInfo).BaselineCount = poolMetaInfo.BaselineCount ∧
    (b.Start poolMetaInfo).Pool.Pairs = b.Pool.Pairs ∧
    (b.Start poolMetaInfo).Pool.FeatureId = b.Pool.FeatureId ∧
    (b.Start poolMetaInfo).Pool.CatFeaturesHashToString = b.Pool.CatFeaturesHashToString ∧
    (b.Start poolMetaInfo).LockedHashMapParts = b.LockedHashMapParts ∧
    (b.Start poolMetaInfo).Cursor = b.Cursor :=
  ⟨rfl, rfl, rfl, rfl, rfl, rfl, rfl, rfl, rfl⟩

theorem modifyLine_sized {F B localIdx : Nat} {f : TDocInfo → Except Fault TDocInfo}
    {b b' : TPoolBuilder}
    (hf : ∀ doc doc', f doc = .ok doc' →
      doc'.Factors.length = doc.Factors.length ∧ doc'.Baseline.length = doc.Baseline.length)
    (hb : DocsSized F B b) (h : b.modifyLine localIdx f = .ok b') : DocsSized F B b' := by
  obtain ⟨doc, doc', h1, h2, h3⟩ := modifyLine_ok h
  subst h3
  refine ⟨hb.1, hb.2.1, ?_⟩
  intro d hd
  rcases List.mem_or_eq_of_mem_set hd with hd | hd
  · exact hb.2.2 d hd
  · subst hd
    have hmem : doc ∈ b.Pool.Docs := List.mem_iff_getElem?.2 ⟨_, h1⟩
    obtain ⟨e1, e2⟩ := hf doc d h2
    rw [e1, e2]
    exact hb.2.2 doc hmem

theorem StartNextBlock_sized {F B n : Nat} {b b' : TPoolBuilder}
    (hb : DocsSized F B b) (h : b.StartNextBlock n = .ok b') : DocsSized F B b' := by
  obtain ⟨b1, h1, _, h3, h4, h5, _, _⟩ := StartNextBlock_ok b n (StartNextBlock_eq_ok h)
  rw [h] at h1
  cases h1
  refine ⟨h4.trans hb.1, h5.trans hb.2.1, ?_⟩
  intro d hd
  rw [h3, List.mem_append] at hd
  rcases hd with hd | hd
  · exact hb.2.2 d hd
  · rw [List.eq_of_mem_replicate hd]
    simp only [TPoolBuilder.initDoc, length_resize]
    exact ⟨hb.1, hb.2.1⟩

theorem TBuilderCall.run_sized {env : TEnv} {F B : Nat} {b b' : TPoolBuilder}
    (c : TBuilderCall) (hb : DocsSized F B b) (h : c.run env b = .ok b') : DocsSized F B b' := by
  cases c with
  | StartNextBlock n => exact StartNextBlock_sized hb h
  | AddCatFeature l f s =>
    obtain ⟨curPart, doc, _, h2, h3, h4⟩ := AddCatFeature_ok h
    subst h4
    refine ⟨hb.1, hb.2.1, ?_⟩
    intro d hd
    rcases List.mem_or_eq_of_mem_set hd with hd | hd
    · exact hb.2.2 d hd
    · subst hd
      have hmem : doc ∈ b.Pool.Docs := List.mem_iff_getElem?.2 ⟨_, h2⟩
      simpa [setFactor] using hb.2.2 doc hmem
  | AddFloatFeature l f v =>
    refine modifyLine_sized ?_ hb h
    intro doc doc' hd
    split at hd
    · cases hd; simp
    · cases hd
  | AddTarget l v =>
    have h' : b.AddTarget l v = .ok b' := h
    unfold TPoolBuilder.AddTarget at h'
    refine modifyLine_sized ?_ hb h'
    intro doc doc' hd
    cases hd; simp
  | AddWeight l v =>
    have h' : b.AddWeight l v = .ok b' := h
    unfold TPoolBuilder.AddWeight at h'
    refine modifyLine_sized ?_ hb h'
    intro doc doc' hd
    cases hd; simp
  | AddQueryId l q =>
    simp only [TBuilderCall.run, TPoolBuilder.AddQueryId, Except.ok.injEq] at h
    subst h
    exact hb
  | AddBaseline l o v =>
    refine modifyLine_sized ?_ hb h
    intro doc doc' hd
    split at hd
    · cases hd; simp
    · cases hd
  | AddDocId l v =>
    have h' : b.AddDocId l v = .ok b' := h
    unfold TPoolBuilder.AddDocId at h'
    refine modifyLine_sized ?_ hb h'
    intro doc doc' hd
    cases hd; simp
  | SetFeatureIds ids =>
    simp only [TBuilderCall.run, TPoolBuilder.SetFeatureIds] at h
    split at h
    · simp only [Except.ok.injEq] at h
      subst h
      exact hb
    · cases h
  | SetPairs pairs =>
    simp only [TBuilderCall.run, Except.ok.injEq] at h
    subst h
    exact hb

theorem runCalls_sized {env : TEnv} {F B : Nat} :
    ∀ (calls : List TBuilderCall) (b b' : TPoolBuilder),
      DocsSized F B b → runCalls env calls b = .ok b' → DocsSized F B b' := by
  intro calls
  induction calls with
  | nil =>
    intro b b' hb h
    simp only [runCalls, Except.ok.injEq] at h
    subst h
    exact hb
  | cons c cs ih =>
    intro b b' hb h
    unfold runCalls at h
    split at h
    · cases h
    · rename_i b1 h1
      exact ih b1 b' (c.run_sized hb h1) h

/-- C20: in every state reached from `Start(meta)` by calls of `StartNextBlock`
and of the `Add*` methods that all returned, every document has
`meta.FactorCount` factors and `meta.BaselineCount` baseline entries; a call
`StartNextBlock(n)` that returns has appended exactly `n` documents, left the
earlier ones unchanged and set `Cursor` to the previous document count, and it
returns as long as the new document count is below `2^32`. -/
theorem C20_documents_sized (env : TEnv) (poolMetaInfo : TPoolColumnsMetaInfo)
    (b0 : TPoolBuilder) (calls : List TBuilderCall) (b : TPoolBuilder)
    (h : runCalls env calls (b0.Start poolMetaInfo) = .ok b) :
    (∀ d ∈ b.Pool.Docs, d.Factors.length = poolMetaInfo.FactorCount ∧
      d.Baseline.length = poolMetaInfo.BaselineCount) ∧
    (∀ n b', b.StartNextBlock n = .ok b' →
      b'.Pool.Docs.length = b.Pool.Docs.length + n ∧
      b'.Pool.Docs.take b.Pool.Docs.length = b.Pool.Docs ∧
      b'.Cursor = b.Pool.Docs.length ∧
      (∀ d ∈ b'.Pool.Docs, d.Factors.length = poolMetaInfo.FactorCount ∧
        d.Baseline.length = poolMetaInfo.BaselineCount)) ∧
    (∀ n, b.Pool.Docs.length + n < 2 ^ 32 → ∃ b', b.StartNextBlock n = .ok b') := by
  have h0 : DocsSized poolMetaInfo.FactorCount poolMetaInfo.BaselineCount
      (b0.Start poolMetaInfo) := ⟨rfl, rfl, fun d hd => by cases hd⟩
  have hb := runCalls_sized calls _ _ h0 h
  refine ⟨hb.2.2, ?_, ?_⟩
  · intro n b' hn
    have hb' := StartNextBlock_sized hb hn
    obtain ⟨b1, h1, h2, h3, _⟩ := StartNextBlock_ok b n (StartNextBlock_eq_ok hn)
    rw [hn] at h1
    cases h1
    refine ⟨?_, ?_, h2, hb'.2.2⟩
    · rw [h3, List.length_append, List.length_replicate]
    · rw [h3, List.take_left]
  · intro n hn
    obtain ⟨b1, h1, _⟩ := StartNextBlock_ok b n hn
    exact ⟨b1, h1⟩

set_option maxRecDepth 100000 in
/-- C20 after a block of two documents and two categorical values, on a builder
started with one factor: both documents have one factor and no baseline, and
the next block of three starts at cursor `2`. -/
theorem C20_documents_sized_witness :
    ((∀ d ∈ exampleBuilder.Pool.Docs, d.Factors.length = 1 ∧ d.Baseline.length = 0) ∧
    (∀ n b', exampleBuilder.StartNextBlock n = .ok b' →
      b'.Pool.Docs.length = exampleBuilder.Pool.Docs.length + n ∧
      b'.Pool.Docs.take exampleBuilder.Pool.Docs.length = exampleBuilder.Pool.Docs ∧
      b'.Cursor = exampleBuilder.Pool.Docs.length ∧
      (∀ d ∈ b'.Pool.Docs, d.Factors.length = 1 ∧ d.Baseline.length = 0)) ∧
    (∀ n, exampleBuilder.Pool.Docs.length + n < 2 ^ 32 →
      ∃ b', exampleBuilder.StartNextBlock n = .ok b')) ∧
    (exampleBuilder.StartNextBlock 3).toOption.map
        (fun b' => (b'.Cursor, b'.Pool.Docs.map fun d => (d.Factors.length, d.Baseline.length))) =
      some (2, [(1, 0), (1, 0), (1, 0), (1, 0), (1, 0)]) :=
  ⟨C20_documents_sized testEnv { FactorCount := 1 } (InitBuilder {}) exampleCalls exampleBuilder
    (by decide), by decide⟩

/-! ## `GenerateBorders`: the values of a feature and its entry -/

theorem collectVals_eq_ok (f : Nat) :
    ∀ (docs : List TDocInfo) (vals : List TFloat) (hasNan : Bool) (vals' : List TFloat)
      (hasNan' : Bool), collectVals f docs vals hasNan = .ok (vals', hasNan') →
      ∃ column : List TFloat, docs.map (fun d => d.Factors[f]?) = column.map some ∧
        vals' = vals ++ column.filter (fun v => !v.IsNan) ∧
        hasNan' = (hasNan || column.any TFloat.IsNan) := by
  intro docs
  induction docs with
  | nil =>
    intro vals hasNan vals' hasNan' h
    simp only [collectVals, Except.ok.injEq, Prod.mk.injEq] at h
    exact ⟨[], rfl, by simp [h.1], by simp [h.2]⟩
  | cons doc rest ih =>
    intro vals hasNan vals' hasNan' h
    unfold collectVals at h
    split at h
    · cases h
    · rename_i v hv
      by_cases hn : v.IsNan = true
      · simp only [hn, Bool.not_true, Bool.false_eq_true, if_false] at h
        obtain ⟨column, h1, h2, h3⟩ := ih _ _ _ _ h
        refine ⟨v :: column, ?_, ?_, ?_⟩
        · simp only [List.map_cons, hv, h1]
        · simp only [List.filter_cons, hn, Bool.not_true, Bool.false_eq_true, if_false, h2]
        · simp only [List.any_cons, hn, Bool.true_or, Bool.or_true, h3]
      · have hn' : v.IsNan = false := by simpa using hn
        simp only [hn', Bool.not_false, if_true] at h
        obtain ⟨column, h1, h2, h3⟩ := ih _ _ _ _ h
        refine ⟨v :: column, ?_, ?_, ?_⟩
        · simp only [List.map_cons, hv, h1]
        · simp only [List.filter_cons, hn', Bool.not_false, if_true, h2,
            List.append_assoc, List.singleton_append]
        · simp only [List.any_cons, hn', Bool.false_or, h3]

theorem FeatureDone.column
    {BestSplit : List TFloat → Int → EBorderSelectionType → List TFloat}
    {docInfos : List TDocInfo} {params : TFitParams} {floatIndexes : List Nat}
    {st : TBordersState} {idx : Nat}
    (h : FeatureDone BestSplit docInfos params floatIndexes st idx) :
    ∃ (floatFeatureIdx : Nat) (column : List TFloat),
      floatIndexes[idx]? = some floatFeatureIdx ∧
      docInfos.map (fun d => d.Factors[floatFeatureIdx]?) = column.map some ∧
      st.hasNans[idx]? = some (column.any TFloat.IsNan) ∧
      st.borders[idx]? = some
        (bordersBlock BestSplit params (column.filter fun v => !v.IsNan)
          (column.any TFloat.IsNan)).1 := by
  obtain ⟨f, vals, hasNan, h1, h2, h3, h4⟩ := h
  obtain ⟨column, c1, c2, c3⟩ := collectVals_eq_ok f _ _ _ _ _ h2
  simp only [List.nil_append, Bool.false_or] at c2 c3
  subst c2 c3
  exact ⟨f, column, h1, c1, h4, h3⟩

/-- C14: for every pool on which `GenerateBorders` returns normally and every
numeric feature (entry `idx` of the outputs, for factor `floatIndexes[idx]`):
every document holds a value in the feature, `hasNans[idx]` is true exactly
when one of these values is NaN; when it is true and `NanMode = Min` the
thresholds are `lowest()` followed by the ascending-sorted `BestSplit` output on
the sorted non-NaN values, with `NanMode = Max` they are that sorted output
followed by `max()`, and when it is false they are the sorted output alone.
With categorical features that are factor indices the outputs have one entry
for each numeric feature. -/
theorem C14_nan_flag_and_sentinel
    (BestSplit : List TFloat → Int → EBorderSelectionType → List TFloat)
    (bytesUsed : Nat) (doc0 : TDocInfo) (rest : List TDocInfo) (ctx : TLearnContext)
    (borders0 : List (List TFloat)) (hasNans0 : List Bool) (r : TBordersState)
    (h : GenerateBorders BestSplit bytesUsed (doc0 :: rest) ctx borders0 hasNans0 = .ok r) :
    r.borders.length = r.hasNans.length ∧
    (CatFeaturesValid doc0 ctx.CatFeatures →
      r.hasNans.length = (floatIndexesOf ctx.CatFeatures doc0.Factors.length).length) ∧
    ∀ idx, idx < r.hasNans.length →
      ∃ (floatFeatureIdx : Nat) (column : List TFloat),
        (floatIndexesOf ctx.CatFeatures doc0.Factors.length)[idx]? = some floatFeatureIdx ∧
        (doc0 :: rest).map (fun d => d.Factors[floatFeatureIdx]?) = column.map some ∧
        r.hasNans[idx]? = some (column.any TFloat.IsNan) ∧
        (column.any TFloat.IsNan = true → ctx.Params.NanMode = .Min →
          r.borders[idx]? = some (TFloat.lowest :: sortedSplit BestSplit ctx.Params column)) ∧
        (column.any TFloat.IsNan = true → ctx.Params.NanMode = .Max →
          r.borders[idx]? = some (sortedSplit BestSplit ctx.Params column ++ [TFloat.max])) ∧
        (column.any TFloat.IsNan = false →
          r.borders[idx]? = some (sortedSplit BestSplit ctx.Params column)) := by
  obtain ⟨g1, g2, g3, _⟩ := GenerateBorders_ok h
  refine ⟨g1.trans g2.symm, ?_, ?_⟩
  · intro hcat
    rw [g2, reasonCountOf_eq_numericFeatureCount doc0 ctx.CatFeatures hcat]
    rfl
  · intro idx hidx
    obtain ⟨f, column, c1, c2, c3, c4⟩ := (g3 idx (g2 ▸ hidx)).column
    refine ⟨f, column, c1, c2, c3, ?_, ?_, ?_⟩
    · intro hn hm
      rw [c4]
      simp only [bordersBlock, hn, if_true, hm, sortedSplit]
    · intro hn hm
      rw [c4]
      simp only [bordersBlock, hn, if_true, hm, sortedSplit]
    · intro hn
      rw [c4]
      simp only [bordersBlock, hn, Bool.false_eq_true, if_false, sortedSplit]

/-- C14 at scenario C (values `1.0, NaN, 2.0, 3.0`, `NanMode = Min`) with a
border selection that returns `2.0, 1.0`: the flag is set and the thresholds
are `lowest(), 1.0, 2.0`. -/
theorem C14_nan_flag_and_sentinel_witness :
    GenerateBorders twoBorders 0 scenarioC (ctxScenarioC .Min) [] [] =
      .ok { borders := [[TFloat.lowest, f1, f2]], hasNans := [true],
            execRanges := [(0, 1)], calls := [0] } ∧
    ∀ idx, idx < [true].length →
      ∃ (floatFeatureIdx : Nat) (column : List TFloat),
        (floatIndexesOf [] 1)[idx]? = some floatFeatureIdx ∧
        scenarioC.map (fun d => d.Factors[floatFeatureIdx]?) = column.map some ∧
        [true][idx]? = some (column.any TFloat.IsNan) ∧
        (column.any TFloat.IsNan = true → ENanMode.Min = .Min →
          [[TFloat.lowest, f1, f2]][idx]? =
            some (TFloat.lowest :: sortedSplit twoBorders (ctxScenarioC .Min).Params column)) ∧
        (column.any TFloat.IsNan = true → ENanMode.Min = .Max →
          [[TFloat.lowest, f1, f2]][idx]? =
            some (sortedSplit twoBorders (ctxScenarioC .Min).Params column ++ [TFloat.max])) ∧
        (column.any TFloat.IsNan = false →
          [[TFloat.lowest, f1, f2]][idx]? =
            some (sortedSplit twoBorders (ctxScenarioC .Min).Params column)) :=
  ⟨by decide,
    (C14_nan_flag_and_sentinel twoBorders 0 (docOf [f1])
      [docOf [TFloat.quietNaN], docOf [f2], docOf [f3]] (ctxScenarioC .Min) [] []
      { borders := [[TFloat.lowest, f1, f2]], hasNans := [true],
        execRanges := [(0, 1)], calls := [0] } (by decide)).2.2⟩

/-! ## `GenerateBorders`: the order in which the features are processed -/

theorem forRange_calls
    {BestSplit : List TFloat → Int → EBorderSelectionType → List TFloat}
    {docInfos : List TDocInfo} {params : TFitParams} {floatIndexes : List Nat} :
    ∀ (count first : Nat) (st st' : TBordersState),
      forRange (calcOneFeatureBorder BestSplit docInfos params floatIndexes) count first st
        = .ok st' →
      st'.calls = st.calls ++ List.range' first count ∧ st'.execRanges = st.execRanges := by
  intro count
  induction count with
  | zero =>
    intro first st st' h
    simp only [forRange, Except.ok.injEq] at h
    subst h
    simp
  | succ count ih =>
    intro first st st' h
    unfold forRange at h
    split at h
    · cases h
    · rename_i st1 h1
      obtain ⟨_, _, _, _, _, _, _, hst1⟩ := calcOneFeatureBorder_ok h1
      obtain ⟨i1, i2⟩ := ih _ _ _ h
      rw [i1, i2, hst1]
      simp [List.range'_succ]

theorem batchLoop_trace
    {BestSplit : List TFloat → Int → EBorderSelectionType → List TFloat}
    {docInfos : List TDocInfo} {params : TFitParams} {floatIndexes : List Nat}
    (threadCount reasonCount : Nat) :
    ∀ (fuel nReason : Nat) (st st' : TBordersState) (n' : Nat),
      batchLoop (calcOneFeatureBorder BestSplit docInfos params floatIndexes)
        threadCount reasonCount fuel nReason st = .ok (n', st') →
      ∃ m, n' = nReason + m * threadCount ∧ reasonCount < n' + threadCount ∧
        st'.calls = st.calls ++ List.range' nReason (m * threadCount) ∧
        st'.execRanges = st.execRanges ++
          (List.range m).map (fun k =>
            (nReason + k * threadCount, nReason + k * threadCount + threadCount)) := by
  intro fuel
  induction fuel with
  | zero =>
    intro nReason st st' n' h
    simp [batchLoop] at h
  | succ fuel ih =>
    intro nReason st st' n' h
    unfold batchLoop at h
    split at h
    · split at h
      · cases h
      · rename_i st1 h1
        split at h
        · cases h
        · obtain ⟨hc, he⟩ := forRange_calls _ _ _ _ h1
          obtain ⟨m, q1, q2, q3, q4⟩ := ih _ _ _ _ h
          refine ⟨m + 1, ?_, q2, ?_, ?_⟩
          · rw [q1, Nat.add_mul]; omega
          · rw [q3, hc, List.append_assoc]
            congr 1
            rw [Nat.add_mul, Nat.one_mul]
            exact (List.range'_append_1 nReason threadCount (m * threadCount))
          · rw [q4, he, List.append_assoc]
            congr 1
            rw [List.range_succ_eq_map, List.map_cons, List.map_map]
            simp only [Nat.zero_mul, Nat.add_zero, List.singleton_append, List.cons.injEq,
              true_and]
            apply List.map_congr_left
            intro k _
            simp only [Function.comp, Nat.succ_eq_add_one, Nat.add_mul, Nat.one_mul]
            refine Prod.ext ?_ ?_ <;> simp only <;> omega
    · simp only [Except.ok.injEq, Prod.mk.injEq] at h
      obtain ⟨rfl, rfl⟩ := h
      exact ⟨0, by simp, by omega, by simp, by simp⟩

/-- On a normal return `calcOneFeatureBorder` has been run on `0, 1, ..,
reasonCount - 1`, in this order, and the `ExecRange` calls are the
`reasonCount / threadCount` full batches. -/
theorem GenerateBorders_trace
    {BestSplit : List TFloat → Int → EBorderSelectionType → List TFloat}
    {bytesUsed : Nat} {doc0 : TDocInfo} {rest : List TDocInfo} {ctx : TLearnContext}
    {borders0 : List (List TFloat)} {hasNans0 : List Bool} {r : TBordersState}
    (h : GenerateBorders BestSplit bytesUsed (doc0 :: rest) ctx borders0 hasNans0 = .ok r) :
    r.calls = List.range (reasonCountOf doc0.Factors.length ctx.CatFeatures.length) ∧
    r.execRanges =
      (List.range (reasonCountOf doc0.Factors.length ctx.CatFeatures.length /
          threadCountOf (reasonCountOf doc0.Factors.length ctx.CatFeatures.length)
            ctx.Params.UsedRAMLimit bytesUsed
            (bytesRequiredPerThread ctx.Params.BorderCount (doc0 :: rest).length))).map
        (fun k =>
          (k * threadCountOf (reasonCountOf doc0.Factors.length ctx.CatFeatures.length)
            ctx.Params.UsedRAMLimit bytesUsed
            (bytesRequiredPerThread ctx.Params.BorderCount (doc0 :: rest).length),
           k * threadCountOf (reasonCountOf doc0.Factors.length ctx.CatFeatures.length)
            ctx.Params.UsedRAMLimit bytesUsed
            (bytesRequiredPerThread ctx.Params.BorderCount (doc0 :: rest).length) +
           threadCountOf (reasonCountOf doc0.Factors.length ctx.CatFeatures.length)
            ctx.Params.UsedRAMLimit bytesUsed
            (bytesRequiredPerThread ctx.Params.BorderCount (doc0 :: rest).length))) := by
  unfold GenerateBorders at h
  simp only [] at h
  generalize threadCountOf (reasonCountOf doc0.Factors.length ctx.CatFeatures.length)
    ctx.Params.UsedRAMLimit bytesUsed
    (bytesRequiredPerThread ctx.Params.BorderCount (doc0 :: rest).length) = p at h ⊢
  generalize reasonCountOf doc0.Factors.length ctx.CatFeatures.length = R at h ⊢
  split at h
  · rename_i hz
    simp only [Except.ok.injEq] at h
    subst h
    subst hz
    simp
  · split at h
    · cases h
    · split at h
      · cases h
      · rename_i hmem
        have hpos : 0 < p := (not_not.1 hmem).2
        split at h
        · cases h
        · rename_i nReason st hb
          obtain ⟨m, q1, q2, q3, q4⟩ := batchLoop_trace _ _ _ _ _ _ _ hb
          obtain ⟨_, hle, _⟩ := batchLoop_done _ _ _ _ _ _ _ hb (Nat.zero_le _)
            (fun idx hidx => absurd hidx (Nat.not_lt_zero _))
            (fun b hb => by simp at hb)
          obtain ⟨r1, r2⟩ := forRange_calls _ _ _ _ h
          simp only [Nat.zero_add, List.nil_append] at q1 q3 q4
          have hm : R / p = m := Nat.div_eq_of_lt_le (by omega) (by rw [Nat.add_mul]; omega)
          refine ⟨?_, ?_⟩
          · rw [r1, q3, q1, List.range_eq_range']
            have := List.range'_append_1 0 (m * p) (R - m * p)
            rw [Nat.zero_add] at this
            rw [this]
            congr 1
            omega
          · rw [r2, q4, hm]

/-- C15: for every non-empty pool and every categorical-feature set (factor
indices of the pool), when `GenerateBorders` returns normally the outputs
`borders` and `hasNans` have exactly one entry for each non-categorical factor
index, entry `k` is the one computed from the `k`-th smallest such index,
`calcOneFeatureBorder` has run once on each `k`, in ascending order, the
`ExecRange` calls being the full batches of `p = threadCount` and the rest left
to the trailing loop; and a second normal return under any other memory
figures, hence any other `p`, leaves the same outputs. -/
theorem C15_one_entry_per_numeric_feature
    (BestSplit : List TFloat → Int → EBorderSelectionType → List TFloat)
    (bytesUsed : Nat) (doc0 : TDocInfo) (rest : List TDocInfo) (ctx : TLearnContext)
    (borders0 : List (List TFloat)) (hasNans0 : List Bool) (r : TBordersState)
    (hcat : CatFeaturesValid doc0 ctx.CatFeatures)
    (h : GenerateBorders BestSplit bytesUsed (doc0 :: rest) ctx borders0 hasNans0 = .ok r) :
    (floatIndexesOf ctx.CatFeatures doc0.Factors.length).Pairwise (fun a b => a < b) ∧
    (∀ j : Nat, j ∈ floatIndexesOf ctx.CatFeatures doc0.Factors.length ↔
      j < doc0.Factors.length ∧ (j : Int) ∉ ctx.CatFeatures) ∧
    r.borders.length = (floatIndexesOf ctx.CatFeatures doc0.Factors.length).length ∧
    r.hasNans.length = (floatIndexesOf ctx.CatFeatures doc0.Factors.length).length ∧
    (∀ k, k < (floatIndexesOf ctx.CatFeatures doc0.Factors.length).length →
      ∃ (floatFeatureIdx : Nat) (column : List TFloat),
        (floatIndexesOf ctx.CatFeatures doc0.Factors.length)[k]? = some floatFeatureIdx ∧
        (doc0 :: rest).map (fun d => d.Factors[floatFeatureIdx]?) = column.map some ∧
        r.hasNans[k]? = some (column.any TFloat.IsNan) ∧
        r.borders[k]? = some
          (bordersBlock BestSplit ctx.Params (column.filter fun v => !v.IsNan)
            (column.any TFloat.IsNan)).1) ∧
    r.calls = List.range (floatIndexesOf ctx.CatFeatures doc0.Factors.length).length ∧
    (∀ p, p = threadCountOf (floatIndexesOf ctx.CatFeatures doc0.Factors.length).length
        ctx.Params.UsedRAMLimit bytesUsed
        (bytesRequiredPerThread ctx.Params.BorderCount (doc0 :: rest).length) →
      r.execRanges =
        (List.range ((floatIndexesOf ctx.CatFeatures doc0.Factors.length).length / p)).map
          (fun k => (k * p, k * p + p))) ∧
    (∀ bytesUsed' usedRAMLimit' borders0' hasNans0' r',
      GenerateBorders BestSplit bytesUsed' (doc0 :: rest)
        ⟨ctx.CatFeatures, { ctx.Params with UsedRAMLimit := usedRAMLimit' }⟩
        borders0' hasNans0' = .ok r' →
      r'.borders = r.borders ∧ r'.hasNans = r.hasNans ∧ r'.calls = r.calls) := by
  have hR : reasonCountOf doc0.Factors.length ctx.CatFeatures.length =
      (floatIndexesOf ctx.CatFeatures doc0.Factors.length).length :=
    reasonCountOf_eq_numericFeatureCount doc0 ctx.CatFeatures hcat
  obtain ⟨g1, g2, g3, _⟩ := GenerateBorders_ok h
  obtain ⟨t1, t2⟩ := GenerateBorders_trace h
  rw [hR] at g1 g2 g3 t1 t2
  refine ⟨?_, ?_, g1, g2, fun k hk => (g3 k hk).column, t1, ?_, ?_⟩
  · exact (List.pairwise_lt_range _).filter _
  · intro j
    simp [floatIndexesOf]
  · intro p hp
    rw [t2, hp]
  · intro bytesUsed' usedRAMLimit' borders0' hasNans0' r' h'
    obtain ⟨g1', g2', g3', _⟩ := GenerateBorders_ok h'
    obtain ⟨t1', _⟩ := GenerateBorders_trace h'
    simp only [hR] at g1' g2' g3' t1'
    have hent : ∀ idx : Nat, r'.borders[idx]? = r.borders[idx]? ∧ r'.hasNans[idx]? = r.hasNans[idx]? := by
      intro idx
      by_cases hidx : idx < (floatIndexesOf ctx.CatFeatures doc0.Factors.length).length
      · obtain ⟨f, vals, hasNan, a1, a2, a3, a4⟩ := g3 idx hidx
        obtain ⟨f', vals', hasNan', b1, b2, b3, b4⟩ := g3' idx hidx
        rw [a1] at b1
        cases b1
        rw [a2] at b2
        cases b2
        exact ⟨b3.trans a3.symm, b4.trans a4.symm⟩
      · rw [List.getElem?_eq_none (by omega), List.getElem?_eq_none (by omega),
          List.getElem?_eq_none (by omega), List.getElem?_eq_none (by omega)]
        exact ⟨rfl, rfl⟩
    exact ⟨List.ext_getElem? fun idx => (hent idx).1, List.ext_getElem? fun idx => (hent idx).2,
      t1'.trans t1.symm⟩

/-- C15 on one document with the factors `1.0, 2.0, NaN` of which factor `1` is
categorical: two entries, computed from the factors `0` and `2`; with room for
two feature computations and with room for one the outputs are the same. -/
theorem C15_one_entry_per_numeric_feature_witness :
    CatFeaturesValid (docOf [f1, f2, TFloat.quietNaN]) (ctxOneCateg (2 * 2097208)).CatFeatures ∧
    GenerateBorders noBorders 0 [docOf [f1, f2, TFloat.quietNaN]] (ctxOneCateg (2 * 2097208)) [] [] =
      .ok { borders := [[], [TFloat.lowest]], hasNans := [false, true],
            execRanges := [(0, 2)], calls := [0, 1] } ∧
    GenerateBorders noBorders 0 [docOf [f1, f2, TFloat.quietNaN]] (ctxOneCateg 2097208) [] [] =
      .ok { borders := [[], [TFloat.lowest]], hasNans := [false, true],
            execRanges := [(0, 1), (1, 2)], calls := [0, 1] } ∧
    floatIndexesOf [1] 3 = [0, 2] ∧
    [0, 1] = List.range (floatIndexesOf [1] 3).length :=
  ⟨by decide, by decide, by decide, by decide,
    (C15_one_entry_per_numeric_feature noBorders 0 (docOf [f1, f2, TFloat.quietNaN]) []
      (ctxOneCateg (2 * 2097208)) [] []
      { borders := [[], [TFloat.lowest]], hasNans := [false, true],
        execRanges := [(0, 2)], calls := [0, 1] } (by decide) (by decide)).2.2.2.2.2.1⟩

/-! ## The builder calls of one line -/

theorem finishTrace_consCall (env : TEnv) (c : TBuilderCall)
    (t : List TBuilderCall × Option Fault) (b : TPoolBuilder) :
    finishTrace env (consCall c t) b =
      match c.run env b with
      | .error e => .error e
      | .ok b' => finishTrace env t b' := by
  simp only [finishTrace, consCall, runCalls]
  cases c.run env b <;> rfl

theorem parseWords_eq_finishTrace (env : TEnv) (r : TPoolReader) (lineIdx : Nat) :
    ∀ (words : List String) (columns : List TColumn) (i featureId baselineIdx : Nat)
      (b : TPoolBuilder),
      TPoolReader.parseWords env r lineIdx words columns i featureId baselineIdx b =
        finishTrace env (lineTrace env r lineIdx words columns i featureId baselineIdx) b := by
  intro words
  induction words with
  | nil =>
    intro columns i featureId baselineIdx b
    simp [TPoolReader.parseWords, lineTrace, finishTrace, runCalls]
  | cons word words ih =>
    intro columns i featureId baselineIdx b
    cases columns with
    | nil => simp [TPoolReader.parseWords, lineTrace, finishTrace, runCalls]
    | cons column columns =>
      unfold TPoolReader.parseWords lineTrace
      cases hc : column.ColType <;> simp only []
      · -- Num
        cases hp : TPoolReader.parseNum env r lineIdx i word with
        | error e => simp [finishTrace, runCalls]
        | ok val =>
          simp only [finishTrace_consCall, TBuilderCall.run]
          cases b.AddFloatFeature lineIdx featureId val with
          | error e => rfl
          | ok b' => exact ih _ _ _ _ _
      · -- Categ
        simp only [finishTrace_consCall, TBuilderCall.run]
        cases b.AddCatFeature env lineIdx featureId word with
        | error e => rfl
        | ok b' => exact ih _ _ _ _ _
      · -- Target
        by_cases hw : word = ""
        · simp [hw, finishTrace, runCalls]
        · simp only [hw, if_false]
          cases ht : TTargetConverter env r.ClassNames word with
          | error e => simp [finishTrace, runCalls]
          | ok v =>
            simp only [finishTrace_consCall, TBuilderCall.run]
            cases b.AddTarget lineIdx v with
            | error e => rfl
            | ok b' => exact ih _ _ _ _ _
      · -- Auxiliary
        exact ih _ _ _ _ _
      · -- DocId
        by_cases hw : word = ""
        · simp [hw, finishTrace, runCalls]
        · simp only [hw, if_false, finishTrace_consCall, TBuilderCall.run]
          cases b.AddDocId lineIdx word with
          | error e => rfl
          | ok b' => exact ih _ _ _ _ _
      · -- QueryId
        simp only [finishTrace_consCall, TBuilderCall.run]
        cases b.AddQueryId lineIdx word with
        | error e => rfl
        | ok b' => exact ih _ _ _ _ _
      · -- Weight
        by_cases hw : word = ""
        · simp [hw, finishTrace, runCalls]
        · simp only [hw, if_false]
          cases ht : env.TryFromStringFloat word with
          | none => simp [finishTrace, runCalls]
          | some v =>
            simp only [finishTrace_consCall, TBuilderCall.run]
            cases b.AddWeight lineIdx v with
            | error e => rfl
            | ok b' => exact ih _ _ _ _ _
      · -- Baseline
        by_cases hw : word = ""
        · simp [hw, finishTrace, runCalls]
        · simp only [hw, if_false]
          cases ht : env.FromStringDouble word with
          | none => simp [finishTrace, runCalls]
          | some v =>
            simp only [finishTrace_consCall, TBuilderCall.run]
            cases b.AddBaseline lineIdx baselineIdx v with
            | error e => rfl
            | ok b' => exact ih _ _ _ _ _

theorem parseFeaturesInBlock_eq_finishTrace (env : TEnv) (r : TPoolReader) (lineIdx : Nat)
    (b : TPoolBuilder) :
    r.parseFeaturesInBlock env lineIdx b = finishTrace env (lineDispatch env r lineIdx) b := by
  unfold TPoolReader.parseFeaturesInBlock lineDispatch
  cases r.ParseBuffer[lineIdx]? with
  | none => simp [finishTrace, runCalls]
  | some line =>
    simp only []
    split
    · exact parseWords_eq_finishTrace _ _ _ _ _ _ _ _ _
    · simp [finishTrace, runCalls]

/-! ## The factor index of a column -/

theorem factorsBefore_zero (columns : List TColumn) : factorsBefore columns 0 = 0 := by
  simp [factorsBefore]

theorem factorsBefore_cons_succ (column : TColumn) (columns : List TColumn) (k : Nat) :
    factorsBefore (column :: columns) (k + 1) =
      (if column.ColType = .Num ∨ column.ColType = .Categ then 1 else 0) +
        factorsBefore columns k := by
  simp only [factorsBefore, List.take_succ_cons, List.countP_cons, Bool.or_eq_true,
    decide_eq_true_eq]
  omega

theorem factorsBefore_mono :
    ∀ (columns : List TColumn) (k k' : Nat), k ≤ k' →
      factorsBefore columns k ≤ factorsBefore columns k' := by
  intro columns
  induction columns with
  | nil => intro k k' _; simp [factorsBefore]
  | cons column columns ih =>
    intro k k' hk
    cases k with
    | zero => rw [factorsBefore_zero]; exact Nat.zero_le _
    | succ k =>
      cases k' with
      | zero => omega
      | succ k' =>
        rw [factorsBefore_cons_succ, factorsBefore_cons_succ]
        exact Nat.add_le_add_left (ih k k' (by omega)) _

theorem factorsBefore_succ :
    ∀ (columns : List TColumn) (k : Nat) (column : TColumn), columns[k]? = some column →
      factorsBefore columns (k + 1) = factorsBefore columns k +
        (if column.ColType = .Num ∨ column.ColType = .Categ then 1 else 0) := by
  intro columns
  induction columns with
  | nil => intro k column h; simp at h
  | cons c columns ih =>
    intro k column h
    cases k with
    | zero =>
      simp only [List.getElem?_cons_zero, Option.some.injEq] at h
      subst h
      rw [factorsBefore_cons_succ, factorsBefore_zero, factorsBefore_zero]
      omega
    | succ k =>
      simp only [List.getElem?_cons_succ] at h
      rw [factorsBefore_cons_succ, factorsBefore_cons_succ, ih k column h]
      omega

/-- Two factor columns have different factor indices. -/
theorem factorsBefore_lt {columns : List TColumn} {k k' : Nat} {column : TColumn}
    (hk : columns[k]? = some column)
    (hf : column.ColType = .Num ∨ column.ColType = .Categ) (hlt : k < k') :
    factorsBefore columns k < factorsBefore columns k' := by
  have h1 := factorsBefore_succ columns k column hk
  rw [if_pos hf] at h1
  have h2 := factorsBefore_mono columns (k + 1) k' hlt
  omega

theorem mem_getCategFeaturesLoop :
    ∀ (columns : List TColumn) (featureId : Nat) (categFeatures : List Int) (x : Int),
      x ∈ getCategFeaturesLoop columns featureId categFeatures ↔
        x ∈ categFeatures ∨ ∃ (k : Nat) (column : TColumn), columns[k]? = some column ∧
          column.ColType = .Categ ∧ x = ((featureId + factorsBefore columns k : Nat) : Int) := by
  intro columns
  induction columns with
  | nil =>
    intro featureId categFeatures x
    simp [getCategFeaturesLoop]
  | cons c columns ih =>
    intro featureId categFeatures x
    have hstep : (∃ (k : Nat) (column : TColumn), (c :: columns)[k]? = some column ∧
            column.ColType = .Categ ∧
            x = ((featureId + factorsBefore (c :: columns) k : Nat) : Int)) ↔
          ((c.ColType = .Categ ∧ x = (featureId : Int)) ∨
            ∃ (k : Nat) (column : TColumn), columns[k]? = some column ∧
              column.ColType = .Categ ∧
              x = ((featureId + (if c.ColType = .Num ∨ c.ColType = .Categ then 1 else 0) +
                factorsBefore columns k : Nat) : Int)) := by
      constructor
      · rintro ⟨k, column, h1, h2, h3⟩
        cases k with
        | zero =>
          simp only [List.getElem?_cons_zero, Option.some.injEq] at h1
          subst h1
          rw [factorsBefore_zero] at h3
          exact Or.inl ⟨h2, by simpa using h3⟩
        | succ k =>
          simp only [List.getElem?_cons_succ] at h1
          rw [factorsBefore_cons_succ] at h3
          exact Or.inr ⟨k, column, h1, h2, by rw [h3]; congr 1; omega⟩
      · rintro (⟨h2, h3⟩ | ⟨k, column, h1, h2, h3⟩)
        · exact ⟨0, c, by simp, h2, by rw [factorsBefore_zero]; simpa using h3⟩
        · refine ⟨k + 1, column, by simpa using h1, h2, ?_⟩
          rw [factorsBefore_cons_succ, h3]
          congr 1
          omega
    rw [hstep]
    unfold getCategFeaturesLoop
    cases hc : c.ColType <;> simp only [] <;> rw [ih] <;>
      simp only [reduceCtorEq, or_false, false_or, or_true, true_or, if_true, if_false,
        false_and, true_and, List.mem_append, List.mem_singleton, Nat.add_zero, or_assoc]

/-- What a recorded factor call says: the token of a factor column, stored under
the number of factor columns before it. -/
theorem lineTrace_calls (env : TEnv) (r : TPoolReader) (lineIdx : Nat) :
    ∀ (words : List String) (columns : List TColumn) (i featureId baselineIdx : Nat)
      (c : TBuilderCall), c ∈ (lineTrace env r lineIdx words columns i featureId baselineIdx).1 →
      (∀ l f s, c = .AddCatFeature l f s → l = lineIdx ∧
        ∃ (k : Nat) (column : TColumn), columns[k]? = some column ∧ column.ColType = .Categ ∧
          words[k]? = some s ∧ f = featureId + factorsBefore columns k) ∧
      (∀ l f v, c = .AddFloatFeature l f v → l = lineIdx ∧
        ∃ (k : Nat) (column : TColumn) (w : String), columns[k]? = some column ∧
          column.ColType = .Num ∧ words[k]? = some w ∧
          TPoolReader.parseNum env r lineIdx (i + k) w = .ok v ∧
          f = featureId + factorsBefore columns k) := by
  intro words
  induction words with
  | nil =>
    intro columns i featureId baselineIdx c hc
    simp [lineTrace] at hc
  | cons word words ih =>
    intro columns i featureId baselineIdx c hc
    cases columns with
    | nil => simp [lineTrace] at hc
    | cons column columns =>
      have lift : ∀ (d bl : Nat),
          d = (if column.ColType = .Num ∨ column.ColType = .Categ then 1 else 0) →
          c ∈ (lineTrace env r lineIdx words columns (i + 1) (featureId + d) bl).1 →
          (∀ l f s, c = .AddCatFeature l f s → l = lineIdx ∧
            ∃ (k : Nat) (col : TColumn), (column :: columns)[k]? = some col ∧
              col.ColType = .Categ ∧
              (word :: words)[k]? = some s ∧
              f = featureId + factorsBefore (column :: columns) k) ∧
          (∀ l f v, c = .AddFloatFeature l f v → l = lineIdx ∧
            ∃ (k : Nat) (col : TColumn) (w : String), (column :: columns)[k]? = some col ∧
              col.ColType = .Num ∧ (word :: words)[k]? = some w ∧
              TPoolReader.parseNum env r lineIdx (i + k) w = .ok v ∧
              f = featureId + factorsBefore (column :: columns) k) := by
        intro d bl hd hmem
        obtain ⟨a1, a2⟩ := ih columns (i + 1) (featureId + d) bl c hmem
        constructor
        · intro l f s he
          obtain ⟨hl, k, col, h1, h2, h3, h4⟩ := a1 l f s he
          refine ⟨hl, k + 1, col, by simpa using h1, h2, by simpa using h3, ?_⟩
          rw [factorsBefore_cons_succ, ← hd, h4]
          omega
        · intro l f v he
          obtain ⟨hl, k, col, w, h1, h2, h3, h4, h5⟩ := a2 l f v he
          refine ⟨hl, k + 1, col, w, by simpa using h1, h2, by simpa using h3, ?_, ?_⟩
          · rw [← h4]; congr 1; omega
          · rw [factorsBefore_cons_succ, ← hd, h5]
            omega
      have other : ∀ (c0 : TBuilderCall) (d bl : Nat),
          d = (if column.ColType = .Num ∨ column.ColType = .Categ then 1 else 0) →
          (∀ l f s, c0 ≠ .AddCatFeature l f s) → (∀ l f v, c0 ≠ .AddFloatFeature l f v) →
          c ∈ (consCall c0
            (lineTrace env r lineIdx words columns (i + 1) (featureId + d) bl)).1 →
          (∀ l f s, c = .AddCatFeature l f s → l = lineIdx ∧
            ∃ (k : Nat) (col : TColumn), (column :: columns)[k]? = some col ∧
              col.ColType = .Categ ∧
              (word :: words)[k]? = some s ∧
              f = featureId + factorsBefore (column :: columns) k) ∧
          (∀ l f v, c = .AddFloatFeature l f v → l = lineIdx ∧
            ∃ (k : Nat) (col : TColumn) (w : String), (column :: columns)[k]? = some col ∧
              col.ColType = .Num ∧ (word :: words)[k]? = some w ∧
              TPoolReader.parseNum env r lineIdx (i + k) w = .ok v ∧
              f = featureId + factorsBefore (column :: columns) k) := by
        intro c0 d bl hd n1 n2 hmem
        simp only [consCall, List.mem_cons] at hmem
        rcases hmem with hmem | hmem
        · subst hmem
          exact ⟨fun l f s he => absurd he (n1 l f s), fun l f v he => absurd he (n2 l f v)⟩
        · exact lift d bl hd hmem
      unfold lineTrace at hc
      cases hcol : column.ColType <;> simp only [hcol] at hc
      · -- Num
        cases hp : TPoolReader.parseNum env r lineIdx i word with
        | error e => simp [hp] at hc
        | ok val =>
          simp only [hp, consCall, List.mem_cons] at hc
          rcases hc with hc | hc
          · subst hc
            constructor
            · intro l f s he; cases he
            · intro l f v he
              cases he
              exact ⟨rfl, 0, column, word, by simp, hcol, by simp, by simpa using hp,
                by rw [factorsBefore_zero]; rfl⟩
          · exact lift 1 _ (by simp [hcol]) hc
      · -- Categ
        simp only [consCall, List.mem_cons] at hc
        rcases hc with hc | hc
        · subst hc
          constructor
          · intro l f s he
            cases he
            exact ⟨rfl, 0, column, by simp, hcol, by simp, by rw [factorsBefore_zero]; rfl⟩
          · intro l f v he; cases he
        · exact lift 1 _ (by simp [hcol]) hc
      · -- Target
        by_cases hw : word = ""
        · simp [hw] at hc
        · simp only [hw, if_false] at hc
          cases ht : TTargetConverter env r.ClassNames word with
          | error e => simp [ht] at hc
          | ok v =>
            simp only [ht] at hc
            exact other _ 0 _ (by simp [hcol]) (fun _ _ _ he => by cases he)
              (fun _ _ _ he => by cases he) hc
      · -- Auxiliary
        exact lift 0 _ (by simp [hcol]) hc
      · -- DocId
        by_cases hw : word = ""
        · simp [hw] at hc
        · simp only [hw, if_false] at hc
          exact other _ 0 _ (by simp [hcol]) (fun _ _ _ he => by cases he)
            (fun _ _ _ he => by cases he) hc
      · -- QueryId
        exact other _ 0 _ (by simp [hcol]) (fun _ _ _ he => by cases he)
          (fun _ _ _ he => by cases he) hc
      · -- Weight
        by_cases hw : word = ""
        · simp [hw] at hc
        · simp only [hw, if_false] at hc
          cases ht : env.TryFromStringFloat word with
          | none => simp [ht] at hc
          | some v =>
            simp only [ht] at hc
            exact other _ 0 _ (by simp [hcol]) (fun _ _ _ he => by cases he)
              (fun _ _ _ he => by cases he) hc
      · -- Baseline
        by_cases hw : word = ""
        · simp [hw] at hc
        · simp only [hw, if_false] at hc
          cases ht : env.FromStringDouble word with
          | none => simp [ht] at hc
          | some v =>
            simp only [ht] at hc
            exact other _ 0 _ (by simp [hcol]) (fun _ _ _ he => by cases he)
              (fun _ _ _ he => by cases he) hc

/-- The first column of a line that is accepted: its call, then the calls of the
columns that follow. -/
theorem lineTrace_cons_ok (env : TEnv) (r : TPoolReader) (lineIdx : Nat)
    (word : String) (words : List String) (column : TColumn) (columns : List TColumn)
    (i featureId baselineIdx : Nat)
    (h : (lineTrace env r lineIdx (word :: words) (column :: columns) i featureId
      baselineIdx).2 = none) :
    ∃ (bl : Nat) (pre : List TBuilderCall),
      (lineTrace env r lineIdx (word :: words) (column :: columns) i featureId baselineIdx).1 =
        pre ++ (lineTrace env r lineIdx words columns (i + 1)
          (featureId + if column.ColType = .Num ∨ column.ColType = .Categ then 1 else 0) bl).1 ∧
      (lineTrace env r lineIdx words columns (i + 1)
          (featureId + if column.ColType = .Num ∨ column.ColType = .Categ then 1 else 0) bl).2 =
        none ∧
      (column.ColType = .Categ → pre = [.AddCatFeature lineIdx featureId word]) ∧
      (column.ColType = .Num → ∃ v, TPoolReader.parseNum env r lineIdx i word = .ok v ∧
        pre = [.AddFloatFeature lineIdx featureId v]) := by
  rw [lineTrace] at h ⊢
  cases hcol : column.ColType <;>
    simp only [hcol, reduceCtorEq, or_false, true_or, or_true, or_self, if_true, if_false,
      Nat.add_zero] at h ⊢
  · -- Num
    cases hp : TPoolReader.parseNum env r lineIdx i word with
    | error e => simp [hp] at h
    | ok val =>
      simp only [hp, consCall] at h ⊢
      exact ⟨baselineIdx, [_], rfl, by simpa using h, by simp, by simp⟩
  · -- Categ
    simp only [consCall] at h ⊢
    exact ⟨baselineIdx, [_], rfl, by simpa using h, by simp, by simp⟩
  · -- Target
    by_cases hw : word = ""
    · simp [hw] at h
    · simp only [hw, if_false] at h ⊢
      cases ht : TTargetConverter env r.ClassNames word with
      | error e => simp [ht] at h
      | ok v =>
        simp only [ht, consCall] at h ⊢
        exact ⟨baselineIdx, [_], rfl, by simpa using h, by simp, by simp⟩
  · -- Auxiliary
    exact ⟨baselineIdx, [], rfl, by simpa using h, by simp, by simp⟩
  · -- DocId
    by_cases hw : word = ""
    · simp [hw] at h
    · simp only [hw, if_false, consCall] at h ⊢
      exact ⟨baselineIdx, [_], rfl, by simpa using h, by simp, by simp⟩
  · -- QueryId
    simp only [consCall] at h ⊢
    exact ⟨baselineIdx, [_], rfl, by simpa using h, by simp, by simp⟩
  · -- Weight
    by_cases hw : word = ""
    · simp [hw] at h
    · simp only [hw, if_false] at h ⊢
      cases ht : env.TryFromStringFloat word with
      | none => simp [ht] at h
      | some v =>
        simp only [ht, consCall] at h ⊢
        exact ⟨baselineIdx, [_], rfl, by simpa using h, by simp, by simp⟩
  · -- Baseline
    by_cases hw : word = ""
    · simp [hw] at h
    · simp only [hw, if_false] at h ⊢
      cases ht : env.FromStringDouble word with
      | none => simp [ht] at h
      | some v =>
        simp only [ht, consCall] at h ⊢
        exact ⟨baselineIdx + 1, [_], rfl, by simpa using h, by simp, by simp⟩

/-- On a line that is accepted every factor column has its call. -/
theorem lineTrace_complete (env : TEnv) (r : TPoolReader) (lineIdx : Nat) :
    ∀ (words : List String) (columns : List TColumn) (i featureId baselineIdx : Nat),
      (lineTrace env r lineIdx words columns i featureId baselineIdx).2 = none →
      ∀ (k : Nat) (column : TColumn) (w : String),
        columns[k]? = some column → words[k]? = some w →
        (column.ColType = .Categ →
          TBuilderCall.AddCatFeature lineIdx (featureId + factorsBefore columns k) w ∈
            (lineTrace env r lineIdx words columns i featureId baselineIdx).1) ∧
        (column.ColType = .Num →
          ∃ v, TPoolReader.parseNum env r lineIdx (i + k) w = .ok v ∧
            TBuilderCall.AddFloatFeature lineIdx (featureId + factorsBefore columns k) v ∈
              (lineTrace env r lineIdx words columns i featureId baselineIdx).1) := by
  intro words
  induction words with
  | nil =>
    intro columns i featureId baselineIdx _ k column w _ hw
    simp at hw
  | cons word words ih =>
    intro columns i featureId baselineIdx h k column w hk hw
    cases columns with
    | nil => simp at hk
    | cons c columns =>
      obtain ⟨bl, pre, h1, h2, h3, h4⟩ :=
        lineTrace_cons_ok env r lineIdx word words c columns i featureId baselineIdx h
      cases k with
      | zero =>
        simp only [List.getElem?_cons_zero, Option.some.injEq] at hk hw
        subst hk hw
        rw [factorsBefore_zero, h1]
        constructor
        · intro hc
          rw [h3 hc]
          simp
        · intro hc
          obtain ⟨v, hv, hpre⟩ := h4 hc
          refine ⟨v, by simpa using hv, ?_⟩
          rw [hpre]
          simp
      | succ k =>
        simp only [List.getElem?_cons_succ] at hk hw
        obtain ⟨a1, a2⟩ := ih columns (i + 1) _ bl h2 k column w hk hw
        have hidx : featureId + factorsBefore (c :: columns) (k + 1) =
            featureId + (if c.ColType = .Num ∨ c.ColType = .Categ then 1 else 0) +
              factorsBefore columns k := by
          rw [factorsBefore_cons_succ]; omega
        rw [hidx, h1]
        constructor
        · intro hc
          exact List.mem_append_right _ (a1 hc)
        · intro hc
          obtain ⟨v, hv, hmem⟩ := a2 hc
          refine ⟨v, ?_, List.mem_append_right _ hmem⟩
          rw [← hv]; congr 1; omega

theorem mem_GetCategFeatures (columns : List TColumn) (x : Int) :
    x ∈ GetCategFeatures columns ↔
      ∃ (k : Nat) (column : TColumn), columns[k]? = some column ∧ column.ColType = .Categ ∧
        x = ((factorsBefore columns k : Nat) : Int) := by
  unfold GetCategFeatures
  rw [mem_getCategFeaturesLoop]
  simp only [List.not_mem_nil, false_or, Nat.zero_add]

/-- The factor index of a factor column is in `GetCategFeatures` exactly when
the column is `Categ`. -/
theorem factorsBefore_mem_GetCategFeatures {columns : List TColumn} {k : Nat} {column : TColumn}
    (hk : columns[k]? = some column)
    (hf : column.ColType = .Num ∨ column.ColType = .Categ) :
    ((factorsBefore columns k : Nat) : Int) ∈ GetCategFeatures columns ↔
      column.ColType = .Categ := by
  rw [mem_GetCategFeatures]
  constructor
  · rintro ⟨k', column', h1, h2, h3⟩
    have h3' : factorsBefore columns k = factorsBefore columns k' := by exact_mod_cast h3
    rcases Nat.lt_trichotomy k k' with hlt | heq | hgt
    · have := factorsBefore_lt hk hf hlt
      omega
    · subst heq
      rw [hk] at h1
      cases h1
      exact h2
    · have := factorsBefore_lt h1 (Or.inr h2) hgt
      omega
  · intro hc
    exact ⟨k, column, hk, hc, rfl⟩

/-- C11: for every column description and every line, each factor call that
the line processing makes stores the token of a factor column under the number
of `Num` and `Categ` columns that precede the column, and on an accepted line
every factor column has its call; `GetCategFeatures` (which `Start` puts into
the pool's `CatFeatures`) is exactly the set of these indices for the `Categ`
columns, so that the calls of `AddCatFeature` are those whose index is in
`CatFeatures` and the calls of `AddFloatFeature` those whose index is not. -/
theorem C11_factor_index_of_column (env : TEnv) (r : TPoolReader) (lineIdx : Nat)
    (words : List String) (columns : List TColumn) :
    (∀ b, TPoolReader.parseWords env r lineIdx words columns 0 0 0 b =
      finishTrace env (lineTrace env r lineIdx words columns 0 0 0) b) ∧
    (∀ c ∈ (lineTrace env r lineIdx words columns 0 0 0).1,
      (∀ l f s, c = .AddCatFeature l f s →
        l = lineIdx ∧ (f : Int) ∈ GetCategFeatures columns ∧
        ∃ (k : Nat) (column : TColumn), columns[k]? = some column ∧ column.ColType = .Categ ∧
          words[k]? = some s ∧ f = factorsBefore columns k) ∧
      (∀ l f v, c = .AddFloatFeature l f v →
        l = lineIdx ∧ (f : Int) ∉ GetCategFeatures columns ∧
        ∃ (k : Nat) (column : TColumn) (w : String), columns[k]? = some column ∧
          column.ColType = .Num ∧ words[k]? = some w ∧
          TPoolReader.parseNum env r lineIdx k w = .ok v ∧ f = factorsBefore columns k)) ∧
    ((lineTrace env r lineIdx words columns 0 0 0).2 = none →
      ∀ (k : Nat) (column : TColumn) (w : String),
        columns[k]? = some column → words[k]? = some w →
        (column.ColType = .Categ →
          TBuilderCall.AddCatFeature lineIdx (factorsBefore columns k) w ∈
            (lineTrace env r lineIdx words columns 0 0 0).1) ∧
        (column.ColType = .Num →
          ∃ v, TPoolReader.parseNum env r lineIdx k w = .ok v ∧
            TBuilderCall.AddFloatFeature lineIdx (factorsBefore columns k) v ∈
              (lineTrace env r lineIdx words columns 0 0 0).1)) ∧
    (∀ x : Int, x ∈ GetCategFeatures columns ↔
      ∃ (k : Nat) (column : TColumn), columns[k]? = some column ∧ column.ColType = .Categ ∧
        x = ((factorsBefore columns k : Nat) : Int)) ∧
    (∀ (k : Nat) (column : TColumn), columns[k]? = some column →
      (column.ColType = .Num ∨ column.ColType = .Categ) →
      (((factorsBefore columns k : Nat) : Int) ∈ GetCategFeatures columns ↔
        column.ColType = .Categ)) ∧
    (∀ cd columnsCount poolLines pairsFile threadCount fieldDelimiter hasHeader classNames
        blockSize r0 (b : TPoolBuilder),
      TPoolReader.create env cd columnsCount poolLines pairsFile threadCount fieldDelimiter
        hasHeader classNames blockSize = .ok r0 →
      (b.Start r0.PoolMetaInfo).Pool.CatFeatures = GetCategFeatures r0.ColumnsDescription) := by
  refine ⟨parseWords_eq_finishTrace env r lineIdx words columns 0 0 0, ?_, ?_,
    mem_GetCategFeatures columns, fun k column hk hf => factorsBefore_mem_GetCategFeatures hk hf,
    ?_⟩
  · intro c hc
    obtain ⟨a1, a2⟩ := lineTrace_calls env r lineIdx words columns 0 0 0 c hc
    constructor
    · intro l f s he
      obtain ⟨hl, k, column, h1, h2, h3, h4⟩ := a1 l f s he
      rw [Nat.zero_add] at h4
      refine ⟨hl, ?_, k, column, h1, h2, h3, h4⟩
      rw [h4]
      exact (factorsBefore_mem_GetCategFeatures h1 (Or.inr h2)).2 h2
    · intro l f v he
      obtain ⟨hl, k, column, w, h1, h2, h3, h4, h5⟩ := a2 l f v he
      rw [Nat.zero_add] at h4 h5
      refine ⟨hl, ?_, k, column, w, h1, h2, h3, h4, h5⟩
      rw [h5]
      intro hmem
      have := (factorsBefore_mem_GetCategFeatures h1 (Or.inl h2)).1 hmem
      rw [h2] at this
      cases this
  · intro hnone k column w hk hw
    have := lineTrace_complete env r lineIdx words columns 0 0 0 hnone k column w hk hw
    simpa only [Nat.zero_add] using this
  · intro cd columnsCount poolLines pairsFile threadCount fieldDelimiter hasHeader classNames
      blockSize r0 b hcreate
    obtain ⟨_, _, _, _, _, _, _, _, _, _, _, _, _, hcat⟩ := create_ok hcreate
    exact hcat

/-- C11 on the columns `Target, Categ, Auxiliary, Num` and the tokens
`1, red, x, 2`: the categorical token goes to factor `0`, the numeric one to
factor `1`, and `GetCategFeatures` is `[0]`. -/
theorem C11_factor_index_of_column_witness :
    lineTrace testEnv fourLinesReader 0 ["1", "red", "x", "2"]
        [⟨.Target, ""⟩, ⟨.Categ, ""⟩, ⟨.Auxiliary, ""⟩, ⟨.Num, ""⟩] 0 0 0 =
      ([.AddTarget 0 f1, .AddCatFeature 0 0 "red", .AddFloatFeature 0 1 f2], none) ∧
    GetCategFeatures [⟨.Target, ""⟩, ⟨.Categ, ""⟩, ⟨.Auxiliary, ""⟩, ⟨.Num, ""⟩] = [0] ∧
    (∀ x : Int,
      x ∈ GetCategFeatures [⟨.Target, ""⟩, ⟨.Categ, ""⟩, ⟨.Auxiliary, ""⟩, ⟨.Num, ""⟩] ↔
      ∃ (k : Nat) (column : TColumn),
        [(⟨.Target, ""⟩ : TColumn), ⟨.Categ, ""⟩, ⟨.Auxiliary, ""⟩, ⟨.Num, ""⟩][k]? =
          some column ∧ column.ColType = .Categ ∧
        x = ((factorsBefore
          [⟨.Target, ""⟩, ⟨.Categ, ""⟩, ⟨.Auxiliary, ""⟩, ⟨.Num, ""⟩] k : Nat) : Int)) :=
  ⟨by decide, by decide,
    (C11_factor_index_of_column testEnv fourLinesReader 0 ["1", "red", "x", "2"]
      [⟨.Target, ""⟩, ⟨.Categ, ""⟩, ⟨.Auxiliary, ""⟩, ⟨.Num, ""⟩]).2.2.2.1⟩

/-! ## The wrong-columns-number error -/

theorem TBuilderCall.run_ne_wrongColumnsNumber {env : TEnv} {c : TBuilderCall}
    {b : TPoolBuilder} {e : Fault} (h : c.run env b = .error e) :
    ∀ row expected found, e ≠ .wrongColumnsNumber row expected found := by
  intro row expected found he
  subst he
  cases c with
  | StartNextBlock n =>
    simp only [TBuilderCall.run, TPoolBuilder.StartNextBlock] at h
    split at h <;> cases h
  | AddCatFeature l f s => cases AddCatFeature_error h
  | AddFloatFeature l f v => cases AddFloatFeature_error h
  | AddTarget l v => cases AddTarget_error h
  | AddWeight l v => cases AddWeight_error h
  | AddQueryId l q => simp [TBuilderCall.run, TPoolBuilder.AddQueryId] at h
  | AddBaseline l o v => cases AddBaseline_error h
  | AddDocId l v => cases AddDocId_error h
  | SetFeatureIds ids =>
    simp only [TBuilderCall.run, TPoolBuilder.SetFeatureIds] at h
    split at h <;> cases h
  | SetPairs pairs => simp [TBuilderCall.run] at h

theorem runCalls_ne_wrongColumnsNumber {env : TEnv} :
    ∀ (calls : List TBuilderCall) (b : TPoolBuilder) (e : Fault),
      runCalls env calls b = .error e →
      ∀ row expected found, e ≠ .wrongColumnsNumber row expected found := by
  intro calls
  induction calls with
  | nil => intro b e h; simp [runCalls] at h
  | cons c cs ih =>
    intro b e h
    unfold runCalls at h
    split at h
    · rename_i e' he
      simp only [Except.error.injEq] at h
      subst h
      exact TBuilderCall.run_ne_wrongColumnsNumber he
    · exact ih _ _ h

theorem lineTrace_ne_wrongColumnsNumber (env : TEnv) (r : TPoolReader) (lineIdx : Nat) :
    ∀ (words : List String) (columns : List TColumn) (i featureId baselineIdx : Nat) (e : Fault),
      (lineTrace env r lineIdx words columns i featureId baselineIdx).2 = some e →
      ∀ row expected found, e ≠ .wrongColumnsNumber row expected found := by
  intro words
  induction words with
  | nil =>
    intro columns i featureId baselineIdx e h
    simp [lineTrace] at h
  | cons word words ih =>
    intro columns i featureId baselineIdx e h
    cases columns with
    | nil =>
      simp only [lineTrace, Option.some.injEq] at h
      subst h
      intro _ _ _ he
      cases he
    | cons column columns =>
      rw [lineTrace] at h
      cases hcol : column.ColType <;> simp only [hcol] at h
      · -- Num
        cases hp : TPoolReader.parseNum env r lineIdx i word with
        | error e' =>
          simp only [hp, Option.some.injEq] at h
          subst h
          intro _ _ _ he
          subst he
          rcases parseNum_error hp with h1 | ⟨h1, _⟩ <;> cases h1
        | ok val =>
          simp only [hp, consCall] at h
          exact ih _ _ _ _ _ h
      · -- Categ
        exact ih _ _ _ _ _ h
      · -- Target
        by_cases hw : word = ""
        · simp only [hw, if_true, Option.some.injEq] at h
          subst h
          intro _ _ _ he
          cases he
        · simp only [hw, if_false] at h
          cases ht : TTargetConverter env r.ClassNames word with
          | error e' =>
            simp only [ht, Option.some.injEq] at h
            subst h
            intro _ _ _ he
            subst he
            rcases TTargetConverter_error ht with h1 | h1 <;> cases h1
          | ok v =>
            simp only [ht, consCall] at h
            exact ih _ _ _ _ _ h
      · -- Auxiliary
        exact ih _ _ _ _ _ h
      · -- DocId
        by_cases hw : word = ""
        · simp only [hw, if_true, Option.some.injEq] at h
          subst h
          intro _ _ _ he
          cases he
        · simp only [hw, if_false, consCall] at h
          exact ih _ _ _ _ _ h
      · -- QueryId
        exact ih _ _ _ _ _ h
      · -- Weight
        by_cases hw : word = ""
        · simp only [hw, if_true, Option.some.injEq] at h
          subst h
          intro _ _ _ he
          cases he
        · simp only [hw, if_false] at h
          cases ht : env.TryFromStringFloat word with
          | none =>
            simp only [ht, Option.some.injEq] at h
            subst h
            intro _ _ _ he
            cases he
          | some v =>
            simp only [ht, consCall] at h
            exact ih _ _ _ _ _ h
      · -- Baseline
        by_cases hw : word = ""
        · simp only [hw, if_true, Option.some.injEq] at h
          subst h
          intro _ _ _ he
          cases he
        · simp only [hw, if_false] at h
          cases ht : env.FromStringDouble word with
          | none =>
            simp only [ht, Option.some.injEq] at h
            subst h
            intro _ _ _ he
            cases he
          | some v =>
            simp only [ht, consCall] at h
            exact ih _ _ _ _ _ h

theorem finishTrace_error {env : TEnv} {t : List TBuilderCall × Option Fault}
    {b : TPoolBuilder} {e : Fault} (h : finishTrace env t b = .error e) :
    runCalls env t.1 b = .error e ∨ t.2 = some e := by
  unfold finishTrace at h
  split at h
  · rename_i e' he
    simp only [Except.error.injEq] at h
    subst h
    exact Or.inl he
  · split at h
    · cases h
    · rename_i e' he
      simp only [Except.error.injEq] at h
      subst h
      exact Or.inr he

/-- C16: for every column description and every line of a block, the line is
rejected with the wrong-columns-number error if and only if the number of its
delimiter-separated tokens differs from the number of columns; the error then
reports `expected` = the number of columns and `found` = the number of tokens
(and the 1-based index of the line in its block), and no field of the line is
dispatched to the builder. -/
theorem C16_wrong_columns_number (env : TEnv) (r : TPoolReader) (lineIdx : Nat) (line : String)
    (b : TPoolBuilder) (hline : r.ParseBuffer[lineIdx]? = some line) :
    ((∃ row expected found, r.parseFeaturesInBlock env lineIdx b =
        .error (.wrongColumnsNumber row expected found)) ↔
      (env.SplitRangeTo r.FieldDelimiter line).length ≠ r.ColumnsDescription.length) ∧
    ((env.SplitRangeTo r.FieldDelimiter line).length ≠ r.ColumnsDescription.length →
      r.parseFeaturesInBlock env lineIdx b =
        .error (.wrongColumnsNumber (lineIdx + 1) r.ColumnsDescription.length
          (env.SplitRangeTo r.FieldDelimiter line).length) ∧
      (lineDispatch env r lineIdx).1 = []) ∧
    r.parseFeaturesInBlock env lineIdx b = finishTrace env (lineDispatch env r lineIdx) b := by
  have hbad : (env.SplitRangeTo r.FieldDelimiter line).length ≠ r.ColumnsDescription.length →
      r.parseFeaturesInBlock env lineIdx b =
        .error (.wrongColumnsNumber (lineIdx + 1) r.ColumnsDescription.length
          (env.SplitRangeTo r.FieldDelimiter line).length) ∧
      (lineDispatch env r lineIdx).1 = [] := by
    intro hne
    simp only [TPoolReader.parseFeaturesInBlock, lineDispatch, hline, hne, if_false, and_self]
  refine ⟨⟨?_, fun hne => ⟨_, _, _, (hbad hne).1⟩⟩, hbad,
    parseFeaturesInBlock_eq_finishTrace env r lineIdx b⟩
  rintro ⟨row, expected, found, h⟩ heq
  simp only [TPoolReader.parseFeaturesInBlock, hline, heq, if_true] at h
  rw [parseWords_eq_finishTrace] at h
  rcases finishTrace_error h with h1 | h1
  · exact runCalls_ne_wrongColumnsNumber _ _ _ h1 _ _ _ rfl
  · exact lineTrace_ne_wrongColumnsNumber env r lineIdx _ _ _ _ _ _ h1 _ _ _ rfl

set_option maxRecDepth 100000 in
/-- C16 at scenario F: three columns and a fifth line with two tokens give
`expected = 3` and `found = 2`. -/
theorem C16_wrong_columns_number_witness :
    scenarioFReader.ParseBuffer[4]? = some "1,2" ∧
    (((testEnv.SplitRangeTo scenarioFReader.FieldDelimiter "1,2").length ≠
        scenarioFReader.ColumnsDescription.length →
      scenarioFReader.parseFeaturesInBlock testEnv 4 (InitBuilder {}) =
        .error (.wrongColumnsNumber (4 + 1) scenarioFReader.ColumnsDescription.length
          (testEnv.SplitRangeTo scenarioFReader.FieldDelimiter "1,2").length) ∧
      (lineDispatch testEnv scenarioFReader 4).1 = [])) ∧
    scenarioFReader.parseFeaturesInBlock testEnv 4 (InitBuilder {}) =
      .error (.wrongColumnsNumber 5 3 2) :=
  ⟨by decide,
    (C16_wrong_columns_number testEnv scenarioFReader 4 "1,2" (InitBuilder {}) (by decide)).2.1,
    by decide⟩

/-! ## The token of a `Num` column -/

theorem IsNanToken_iff (word : String) :
    IsNanToken word = true ↔ word ∈ ["nan", "NaN", "NAN"] := by
  simp [IsNanToken, or_assoc]

set_option maxRecDepth 100000 in
/-- C17 as stated fails on the empty token: it is rejected by the check for
empty values, whose error names neither the token nor its column. -/
theorem C17_empty_token_counterexample :
    TPoolReader.parseNum testEnv fourLinesReader 0 1 "" = .error (.emptyValue "") ∧
    (¬ ∃ col row, TPoolReader.parseNum testEnv fourLinesReader 0 1 "" =
      .error (.cannotParseFloat "" col row)) ∧
    ReadPool testEnv 5 (some targetNum) 2 ["1,"] "" 1 ',' false [] 1 (InitBuilder {}) =
      .error (.emptyValue "") := by
  refine ⟨by decide, ?_, by decide⟩
  rintro ⟨col, row, h⟩
  simp [TPoolReader.parseNum] at h

/-- C17, amended: for every token of a `Num` column (float parsing an opaque
partial function): the token is accepted if and only if it is non-empty and
either parses as a float or is exactly one of `nan`, `NaN`, `NAN`; a parseable
token stores its parsed value, an unparseable NaN literal stores the quiet NaN,
every other non-empty token fails with an error carrying the token, its 1-based
column and its row, and the empty token fails with the empty-values error, which
carries neither token nor column. The value is stored by `AddFloatFeature`. -/
theorem C17_num_token (env : TEnv) (r : TPoolReader) (lineIdx i : Nat) (word : String) :
    ((∃ v, TPoolReader.parseNum env r lineIdx i word = .ok v) ↔
      word ≠ "" ∧ ((env.TryFromStringFloat word).isSome = true ∨
        word ∈ ["nan", "NaN", "NAN"])) ∧
    (∀ v, word ≠ "" → env.TryFromStringFloat word = some v →
      TPoolReader.parseNum env r lineIdx i word = .ok v) ∧
    (word ≠ "" → env.TryFromStringFloat word = none → word ∈ ["nan", "NaN", "NAN"] →
      TPoolReader.parseNum env r lineIdx i word = .ok TFloat.quietNaN) ∧
    (word ≠ "" → env.TryFromStringFloat word = none → word ∉ ["nan", "NaN", "NAN"] →
      TPoolReader.parseNum env r lineIdx i word =
        .error (.cannotParseFloat word (i + 1) (r.LinesRead + lineIdx + 1))) ∧
    (word = "" → TPoolReader.parseNum env r lineIdx i word = .error (.emptyValue "")) ∧
    TFloat.quietNaN.IsNan = true ∧
    (∀ (words : List String) (id : String) (columns : List TColumn)
        (featureId baselineIdx : Nat) (b : TPoolBuilder),
      TPoolReader.parseWords env r lineIdx (word :: words) (⟨.Num, id⟩ :: columns) i featureId
          baselineIdx b =
        match TPoolReader.parseNum env r lineIdx i word with
        | .error e => .error e
        | .ok val =>
          match b.AddFloatFeature lineIdx featureId val with
          | .error e => .error e
          | .ok b' =>
            TPoolReader.parseWords env r lineIdx words columns (i + 1) (featureId + 1)
              baselineIdx b') := by
  have hnan := IsNanToken_iff word
  refine ⟨?_, ?_, ?_, ?_, ?_, by decide, ?_⟩
  · unfold TPoolReader.parseNum
    by_cases hw : word = ""
    · simp [hw]
    · cases ht : env.TryFromStringFloat word with
      | some v => simp [hw]
      | none =>
        by_cases hn : IsNanToken word = true
        · simp only [hw, if_false, hn, if_true, Except.ok.injEq, exists_eq', ne_eq,
            not_false_eq_true, Option.isSome_none, Bool.false_eq_true, false_or, true_and, true_iff]
          exact hnan.1 hn
        · have hn' : word ∉ ["nan", "NaN", "NAN"] := fun h => hn (hnan.2 h)
          simp [hw, hn, hn']
  · intro v hw ht
    simp [TPoolReader.parseNum, hw, ht]
  · intro hw ht hn
    simp [TPoolReader.parseNum, hw, ht, hnan.2 hn]
  · intro hw ht hn
    have hn' : ¬ IsNanToken word = true := fun h => hn (hnan.1 h)
    simp [TPoolReader.parseNum, hw, ht, hn']
  · intro hw
    simp [TPoolReader.parseNum, hw]
  · intro words id columns featureId baselineIdx b
    rw [TPoolReader.parseWords]

/-- C17 (amended) on the tokens `2`, `NaN` and `x` of column 2 in the first line. -/
theorem C17_num_token_witness :
    TPoolReader.parseNum testEnv fourLinesReader 0 1 "2" = .ok f2 ∧
    TPoolReader.parseNum testEnv fourLinesReader 0 1 "NaN" = .ok TFloat.quietNaN ∧
    TPoolReader.parseNum testEnv fourLinesReader 0 1 "x" = .error (.cannotParseFloat "x" 2 1) ∧
    ((∃ v, TPoolReader.parseNum testEnv fourLinesReader 0 1 "x" = .ok v) ↔
      "x" ≠ "" ∧ ((testEnv.TryFromStringFloat "x").isSome = true ∨
        "x" ∈ ["nan", "NaN", "NAN"])) :=
  ⟨by decide, by decide, by decide, (C17_num_token testEnv fourLinesReader 0 1 "x").1⟩

/-! ## `ApplyPermutation`: the pairs name the same documents -/

/-- C22: for every pool whose pairs hold valid document indices and every
permutation `π` of `0 .. |Docs|-1`, `ApplyPermutation` returns, every pair of
the result holds valid indices, and pair `k` names the same two documents as
before: the document at the new `WinnerId` (`LoserId`) is the document that was
at the old `WinnerId` (`LoserId`). -/
theorem C22_pairs_name_same_documents (fuel : Nat) (permutation : List Nat) (pool : TPool)
    (hperm : IsPermutation permutation) (hlen : permutation.length = pool.Docs.length)
    (hpairs : PairsValid pool.Docs.length pool.Pairs)
    (hfuel : 2 * pool.Docs.length + 1 ≤ fuel) :
    ∃ pool', ApplyPermutation fuel permutation pool = .ok pool' ∧
      pool'.Docs.length = pool.Docs.length ∧
      pool'.Pairs.length = pool.Pairs.length ∧
      PairsValid pool'.Docs.length pool'.Pairs ∧
      ∀ (k : Nat) (pair pair' : TPair),
        pool.Pairs[k]? = some pair → pool'.Pairs[k]? = some pair' →
        ∃ winner loser,
          pool.Docs[pair.WinnerId]? = some winner ∧ pool'.Docs[pair'.WinnerId]? = some winner ∧
          pool.Docs[pair.LoserId]? = some loser ∧ pool'.Docs[pair'.LoserId]? = some loser := by
  obtain ⟨docs, h1, h2, h3⟩ := ApplyPermutation_ok fuel permutation pool hperm hlen hpairs hfuel
  have hmoved : ∀ a, a < pool.Docs.length →
      permutation.getD a 0 < pool.Docs.length ∧
        docs[permutation.getD a 0]? = pool.Docs[a]? := by
    intro a ha
    obtain ⟨p, hp1, hp2, hp3⟩ := h3 a ha
    have : permutation.getD a 0 = p := by
      rw [List.getD_eq_getElem?_getD, hp1]
      rfl
    rw [this]
    exact ⟨hp2, hp3⟩
  refine ⟨_, h1, h2, by simp, ?_, ?_⟩
  · intro pair' hmem
    simp only [List.mem_map] at hmem
    obtain ⟨pair, hp, rfl⟩ := hmem
    have hv := hpairs pair hp
    simp only [h2]
    exact ⟨(hmoved _ hv.1).1, (hmoved _ hv.2).1⟩
  · intro k pair pair' hk hk'
    simp only [List.getElem?_map, hk, Option.map_some', Option.some.injEq] at hk'
    subst hk'
    have hv := hpairs pair (List.mem_iff_getElem?.2 ⟨k, hk⟩)
    refine ⟨pool.Docs.get ⟨pair.WinnerId, hv.1⟩, pool.Docs.get ⟨pair.LoserId, hv.2⟩,
      ?_, ?_, ?_, ?_⟩
    · exact List.getElem?_eq_getElem hv.1
    · simp only []
      rw [(hmoved _ hv.1).2]
      exact List.getElem?_eq_getElem hv.1
    · exact List.getElem?_eq_getElem hv.2
    · simp only []
      rw [(hmoved _ hv.2).2]
      exact List.getElem?_eq_getElem hv.2

/-- C22 at scenario E: the pair `(0, 3)` names `A` and `D`, and after the call
the pair `(2, 1)` names them again. -/
theorem C22_pairs_name_same_documents_witness :
    (∃ pool', ApplyPermutation 9 [2, 0, 3, 1] scenarioE = .ok pool' ∧
      pool'.Docs.length = scenarioE.Docs.length ∧
      pool'.Pairs.length = scenarioE.Pairs.length ∧
      PairsValid pool'.Docs.length pool'.Pairs ∧
      ∀ (k : Nat) (pair pair' : TPair),
        scenarioE.Pairs[k]? = some pair → pool'.Pairs[k]? = some pair' →
        ∃ winner loser,
          scenarioE.Docs[pair.WinnerId]? = some winner ∧
          pool'.Docs[pair'.WinnerId]? = some winner ∧
          scenarioE.Docs[pair.LoserId]? = some loser ∧
          pool'.Docs[pair'.LoserId]? = some loser) ∧
    ApplyPermutation 9 [2, 0, 3, 1] scenarioE =
      .ok { Docs := [docNamed "B", docNamed "D", docNamed "A", docNamed "C"],
            Pairs := [⟨2, 1⟩] } :=
  ⟨C22_pairs_name_same_documents 9 [2, 0, 3, 1] scenarioE (by decide) (by decide) (by decide)
    (by decide), by decide⟩

/-! ## The indices that the line parser passes to the builder -/

theorem CallInRange.mono {lineIdx F B F' B' : Nat} {c : TBuilderCall}
    (h : CallInRange lineIdx F B c) (hF : F ≤ F') (hB : B ≤ B') :
    CallInRange lineIdx F' B' c := by
  cases c <;> simp only [CallInRange] at h ⊢ <;> first | exact h | exact ⟨h.1, by omega⟩

theorem countP_factor_cons (column : TColumn) (columns : List TColumn) :
    (column :: columns).countP (fun x => IsFactorColumn x.ColType) =
      columns.countP (fun x => IsFactorColumn x.ColType) +
        if column.ColType = .Num ∨ column.ColType = .Categ then 1 else 0 := by
  rw [List.countP_cons]
  simp [IsFactorColumn]

theorem countType_cons (column : TColumn) (columns : List TColumn) (t : EColumn) :
    countType (column :: columns) t = countType columns t + if column.ColType = t then 1 else 0 := by
  unfold countType
  rw [List.countP_cons]
  simp

/-- Every call that the column loop makes writes to the line's own document,
with a factor index below the number of factor columns and a baseline offset
below the number of baseline columns. -/
theorem lineTrace_inRange (env : TEnv) (r : TPoolReader) (lineIdx : Nat) :
    ∀ (words : List String) (columns : List TColumn) (i featureId baselineIdx : Nat)
      (c : TBuilderCall), c ∈ (lineTrace env r lineIdx words columns i featureId baselineIdx).1 →
      CallInRange lineIdx
        (featureId + columns.countP fun x => IsFactorColumn x.ColType)
        (baselineIdx + countType columns .Baseline) c := by
  intro words
  induction words with
  | nil =>
    intro columns i featureId baselineIdx c hc
    simp [lineTrace] at hc
  | cons word words ih =>
    intro columns i featureId baselineIdx c hc
    cases columns with
    | nil => simp [lineTrace] at hc
    | cons column columns =>
      have hF := countP_factor_cons column columns
      have hB := countType_cons column columns .Baseline
      have tail : ∀ (f bl : Nat),
          f + columns.countP (fun x => IsFactorColumn x.ColType) ≤
            featureId + (column :: columns).countP (fun x => IsFactorColumn x.ColType) →
          bl + countType columns .Baseline ≤
            baselineIdx + countType (column :: columns) .Baseline →
          c ∈ (lineTrace env r lineIdx words columns (i + 1) f bl).1 →
          CallInRange lineIdx
            (featureId + (column :: columns).countP fun x => IsFactorColumn x.ColType)
            (baselineIdx + countType (column :: columns) .Baseline) c :=
        fun f bl h1 h2 hmem => (ih columns (i + 1) f bl c hmem).mono h1 h2
      rw [lineTrace] at hc
      cases hcol : column.ColType <;>
        simp only [hcol, reduceCtorEq, or_false, true_or, or_true, or_self, if_true, if_false,
          Nat.add_zero] at hc hF hB
      · -- Num
        cases hp : TPoolReader.parseNum env r lineIdx i word with
        | error e => simp [hp] at hc
        | ok val =>
          simp only [hp, consCall, List.mem_cons] at hc
          rcases hc with hc | hc
          · subst hc
            exact ⟨rfl, by omega⟩
          · exact tail _ _ (by omega) (by omega) hc
      · -- Categ
        simp only [consCall, List.mem_cons] at hc
        rcases hc with hc | hc
        · subst hc
          exact ⟨rfl, by omega⟩
        · exact tail _ _ (by omega) (by omega) hc
      · -- Target
        by_cases hw : word = ""
        · simp [hw] at hc
        · simp only [hw, if_false] at hc
          cases ht : TTargetConverter env r.ClassNames word with
          | error e => simp [ht] at hc
          | ok v =>
            simp only [ht, consCall, List.mem_cons] at hc
            rcases hc with hc | hc
            · subst hc
              exact rfl
            · exact tail _ _ (by omega) (by omega) hc
      · -- Auxiliary
        exact tail _ _ (by omega) (by omega) hc
      · -- DocId
        by_cases hw : word = ""
        · simp [hw] at hc
        · simp only [hw, if_false, consCall, List.mem_cons] at hc
          rcases hc with hc | hc
          · subst hc
            exact rfl
          · exact tail _ _ (by omega) (by omega) hc
      · -- QueryId
        simp only [consCall, List.mem_cons] at hc
        rcases hc with hc | hc
        · subst hc
          exact rfl
        · exact tail _ _ (by omega) (by omega) hc
      · -- Weight
        by_cases hw : word = ""
        · simp [hw] at hc
        · simp only [hw, if_false] at hc
          cases ht : env.TryFromStringFloat word with
          | none => simp [ht] at hc
          | some v =>
            simp only [ht, consCall, List.mem_cons] at hc
            rcases hc with hc | hc
            · subst hc
              exact rfl
            · exact tail _ _ (by omega) (by omega) hc
      · -- Baseline
        by_cases hw : word = ""
        · simp [hw] at hc
        · simp only [hw, if_false] at hc
          cases ht : env.FromStringDouble word with
          | none => simp [ht] at hc
          | some v =>
            simp only [ht, consCall, List.mem_cons] at hc
            rcases hc with hc | hc
            · subst hc
              exact ⟨rfl, by omega⟩
            · exact tail _ _ (by omega) (by omega) hc

theorem modifyLine_run {localIdx : Nat} {f : TDocInfo → Except Fault TDocInfo}
    {b : TPoolBuilder} {doc doc' : TDocInfo}
    (h1 : b.Pool.Docs[b.GetLine localIdx]? = some doc) (h2 : f doc = .ok doc') :
    b.modifyLine localIdx f = .ok (setLine b (b.GetLine localIdx) doc') := by
  simp only [TPoolBuilder.modifyLine, h1, h2, setLine]

theorem setLine_kept (F B : Nat) (b : TPoolBuilder) (lineIdx : Nat) (doc doc' : TDocInfo)
    (hb : DocsSized F B b) (hl : b.GetLine lineIdx < b.Pool.Docs.length)
    (hp : b.LockedHashMapParts.length = 256)
    (hdoc : b.Pool.Docs[b.GetLine lineIdx]? = some doc)
    (h1 : doc'.Factors.length = doc.Factors.length)
    (h2 : doc'.Baseline.length = doc.Baseline.length) :
    DocsSized F B (setLine b (b.GetLine lineIdx) doc') ∧
      (setLine b (b.GetLine lineIdx) doc').GetLine lineIdx <
        (setLine b (b.GetLine lineIdx) doc').Pool.Docs.length ∧
      (setLine b (b.GetLine lineIdx) doc').LockedHashMapParts.length = 256 := by
  have hmem : doc ∈ b.Pool.Docs := List.mem_iff_getElem?.2 ⟨_, hdoc⟩
  refine ⟨⟨hb.1, hb.2.1, ?_⟩, ?_, hp⟩
  · intro d hd
    rcases List.mem_or_eq_of_mem_set hd with hd | hd
    · exact hb.2.2 d hd
    · subst hd
      rw [h1, h2]
      exact hb.2.2 doc hmem
  · simpa [setLine, TPoolBuilder.GetLine] using hl

/-- A call with indices in range returns on a builder whose documents are
sized and that holds the document of the line. -/
theorem TBuilderCall.run_inRange (env : TEnv) {lineIdx F B : Nat} {c : TBuilderCall}
    {b : TPoolBuilder} (hb : DocsSized F B b) (hl : b.GetLine lineIdx < b.Pool.Docs.length)
    (hp : b.LockedHashMapParts.length = 256) (hc : CallInRange lineIdx F B c) :
    ∃ b', c.run env b = .ok b' ∧ DocsSized F B b' ∧
      b'.GetLine lineIdx < b'.Pool.Docs.length ∧ b'.LockedHashMapParts.length = 256 := by
  have hdoc : b.Pool.Docs[b.GetLine lineIdx]? = some (b.Pool.Docs.get ⟨_, hl⟩) :=
    List.getElem?_eq_getElem hl
  have hmem : b.Pool.Docs.get ⟨_, hl⟩ ∈ b.Pool.Docs := List.get_mem _ _ _
  obtain ⟨hF, hB⟩ := hb.2.2 _ hmem
  cases c with
  | StartNextBlock n => exact absurd hc (by simp [CallInRange])
  | SetFeatureIds ids => exact absurd hc (by simp [CallInRange])
  | SetPairs pairs => exact absurd hc (by simp [CallInRange])
  | AddQueryId l q => exact ⟨b, rfl, hb, hl, hp⟩
  | AddTarget l v =>
    simp only [CallInRange] at hc
    subst hc
    simp only [TBuilderCall.run, TPoolBuilder.AddTarget]
    refine ⟨_, modifyLine_run hdoc rfl, ?_⟩
    exact setLine_kept F B b l _ _ hb hl hp hdoc rfl rfl
  | AddWeight l v =>
    simp only [CallInRange] at hc
    subst hc
    simp only [TBuilderCall.run, TPoolBuilder.AddWeight]
    refine ⟨_, modifyLine_run hdoc rfl, ?_⟩
    exact setLine_kept F B b l _ _ hb hl hp hdoc rfl rfl
  | AddDocId l v =>
    simp only [CallInRange] at hc
    subst hc
    simp only [TBuilderCall.run, TPoolBuilder.AddDocId]
    refine ⟨_, modifyLine_run hdoc rfl, ?_⟩
    exact setLine_kept F B b l _ _ hb hl hp hdoc rfl rfl
  | AddBaseline l o v =>
    simp only [CallInRange] at hc
    obtain ⟨rfl, ho⟩ := hc
    have ho' : o < (b.Pool.Docs.get ⟨_, hl⟩).Baseline.length := by rw [hB]; exact ho
    refine ⟨_, modifyLine_run hdoc (if_pos ho'), ?_⟩
    exact setLine_kept F B b l _ _ hb hl hp hdoc rfl (by simp)
  | AddFloatFeature l f v =>
    simp only [CallInRange] at hc
    obtain ⟨rfl, hf⟩ := hc
    have hf' : f < (b.Pool.Docs.get ⟨_, hl⟩).Factors.length := by rw [hF]; exact hf
    refine ⟨_, modifyLine_run hdoc (if_pos hf'), ?_⟩
    exact setLine_kept F B b l _ _ hb hl hp hdoc (by simp) rfl
  | AddCatFeature l f s =>
    simp only [CallInRange] at hc
    obtain ⟨rfl, hf⟩ := hc
    have hf' : f < (b.Pool.Docs.get ⟨_, hl⟩).Factors.length := by rw [hF]; exact hf
    have hpart : (env.CalcCatFeatureHash s % 256).toNat < b.LockedHashMapParts.length := by
      rw [hp]
      omega
    simp only [TBuilderCall.run, TPoolBuilder.AddCatFeature, List.getElem?_eq_getElem hpart,
      TPoolBuilder.AddFloatFeature]
    refine ⟨_, modifyLine_run (b := { b with LockedHashMapParts := _ }) hdoc (if_pos hf'), ?_⟩
    exact setLine_kept F B { b with LockedHashMapParts := _ } l _ _ hb hl (by simp [hp]) hdoc
      (by simp) rfl

theorem runCalls_inRange (env : TEnv) {lineIdx F B : Nat} :
    ∀ (calls : List TBuilderCall) (b : TPoolBuilder),
      (∀ c ∈ calls, CallInRange lineIdx F B c) → DocsSized F B b →
      b.GetLine lineIdx < b.Pool.Docs.length → b.LockedHashMapParts.length = 256 →
      ∃ b', runCalls env calls b = .ok b' ∧ DocsSized F B b' ∧
        b'.GetLine lineIdx < b'.Pool.Docs.length ∧ b'.LockedHashMapParts.length = 256 := by
  intro calls
  induction calls with
  | nil => intro b _ hb hl hp; exact ⟨b, rfl, hb, hl, hp⟩
  | cons c cs ih =>
    intro b hc hb hl hp
    obtain ⟨b1, h1, hb1, hl1, hp1⟩ :=
      TBuilderCall.run_inRange env hb hl hp (hc c (List.mem_cons_self _ _))
    obtain ⟨b', h2, r⟩ := ih b1 (fun c' hc' => hc c' (List.mem_cons_of_mem _ hc')) hb1 hl1 hp1
    refine ⟨b', ?_, r⟩
    simp only [runCalls, h1, h2]

/-- On an accepted line the first column contributes its factor slot, when it is
a factor column, before the slots of the columns that follow. -/
theorem lineTrace_cons_slots (env : TEnv) (r : TPoolReader) (lineIdx : Nat)
    (word : String) (words : List String) (column : TColumn) (columns : List TColumn)
    (i featureId baselineIdx : Nat)
    (h : (lineTrace env r lineIdx (word :: words) (column :: columns) i featureId
      baselineIdx).2 = none) :
    ∃ (bl : Nat),
      (lineTrace env r lineIdx (word :: words) (column :: columns) i featureId
          baselineIdx).1.filterMap TBuilderCall.factorSlot =
        List.range' featureId (if column.ColType = .Num ∨ column.ColType = .Categ then 1 else 0) ++
          (lineTrace env r lineIdx words columns (i + 1)
            (featureId + if column.ColType = .Num ∨ column.ColType = .Categ then 1 else 0)
            bl).1.filterMap TBuilderCall.factorSlot ∧
      (lineTrace env r lineIdx words columns (i + 1)
          (featureId + if column.ColType = .Num ∨ column.ColType = .Categ then 1 else 0) bl).2 =
        none := by
  rw [lineTrace] at h ⊢
  cases hcol : column.ColType <;>
    simp only [hcol, reduceCtorEq, or_false, true_or, or_true, or_self, if_true, if_false,
      Nat.add_zero] at h ⊢
  · -- Num
    cases hp : TPoolReader.parseNum env r lineIdx i word with
    | error e => simp [hp] at h
    | ok val =>
      simp only [hp, consCall] at h ⊢
      exact ⟨baselineIdx, by simp [TBuilderCall.factorSlot, List.range'], h⟩
  · -- Categ
    simp only [consCall] at h ⊢
    exact ⟨baselineIdx, by simp [TBuilderCall.factorSlot, List.range'], h⟩
  · -- Target
    by_cases hw : word = ""
    · simp [hw] at h
    · simp only [hw, if_false] at h ⊢
      cases ht : TTargetConverter env r.ClassNames word with
      | error e => simp [ht] at h
      | ok v =>
        simp only [ht, consCall] at h ⊢
        exact ⟨baselineIdx, by simp [TBuilderCall.factorSlot, List.range'], h⟩
  · -- Auxiliary
    exact ⟨baselineIdx, by simp [List.range'], h⟩
  · -- DocId
    by_cases hw : word = ""
    · simp [hw] at h
    · simp only [hw, if_false, consCall] at h ⊢
      exact ⟨baselineIdx, by simp [TBuilderCall.factorSlot, List.range'], h⟩
  · -- QueryId
    simp only [consCall] at h ⊢
    exact ⟨baselineIdx, by simp [TBuilderCall.factorSlot, List.range'], h⟩
  · -- Weight
    by_cases hw : word = ""
    · simp [hw] at h
    · simp only [hw, if_false] at h ⊢
      cases ht : env.TryFromStringFloat word with
      | none => simp [ht] at h
      | some v =>
        simp only [ht, consCall] at h ⊢
        exact ⟨baselineIdx, by simp [TBuilderCall.factorSlot, List.range'], h⟩
  · -- Baseline
    by_cases hw : word = ""
    · simp [hw] at h
    · simp only [hw, if_false] at h ⊢
      cases ht : env.FromStringDouble word with
      | none => simp [ht] at h
      | some v =>
        simp only [ht, consCall] at h ⊢
        exact ⟨baselineIdx + 1, by simp [TBuilderCall.factorSlot, List.range'], h⟩

/-- On an accepted line with as many tokens as columns the factor slots written
are `featureId, featureId + 1, ..`, one for each factor column, in this order. -/
theorem lineTrace_slots (env : TEnv) (r : TPoolReader) (lineIdx : Nat) :
    ∀ (words : List String) (columns : List TColumn) (i featureId baselineIdx : Nat),
      words.length = columns.length →
      (lineTrace env r lineIdx words columns i featureId baselineIdx).2 = none →
      (lineTrace env r lineIdx words columns i featureId baselineIdx).1.filterMap
          TBuilderCall.factorSlot =
        List.range' featureId (columns.countP fun x => IsFactorColumn x.ColType) := by
  intro words
  induction words with
  | nil =>
    intro columns i featureId baselineIdx hlen _
    have : columns = [] := List.length_eq_zero.1 hlen.symm
    subst this
    simp [lineTrace]
  | cons word words ih =>
    intro columns i featureId baselineIdx hlen h
    cases columns with
    | nil => simp at hlen
    | cons column columns =>
      obtain ⟨bl, h1, h2⟩ :=
        lineTrace_cons_slots env r lineIdx word words column columns i featureId baselineIdx h
      rw [h1, ih columns (i + 1) _ bl (by simpa using hlen) h2, countP_factor_cons]
      by_cases hf : column.ColType = .Num ∨ column.ColType = .Categ
      · simp only [hf, if_true]
        exact List.range'_append_1 featureId 1 _
      · simp only [hf, if_false, Nat.add_zero, List.range', List.nil_append]

theorem finishTrace_ok {env : TEnv} {t : List TBuilderCall × Option Fault}
    {b b' : TPoolBuilder} (h : finishTrace env t b = .ok b') :
    t.2 = none ∧ runCalls env t.1 b = .ok b' := by
  unfold finishTrace at h
  split at h
  · cases h
  · rename_i b1 h1
    split at h
    · rename_i h2
      simp only [Except.ok.injEq] at h
      subst h
      exact ⟨h2, h1⟩
    · cases h

/-- C23: for every column description that the reader accepts (of fewer than
`2^32` columns), with `FactorCount` the number of `Num` and `Categ` columns and
`BaselineCount` the number of `Baseline` columns, and for every line: each
call of the line parser writes to the line's own document, every factor index
passed to `AddCatFeature` or `AddFloatFeature` is below `FactorCount` and every
offset passed to `AddBaseline` is below `BaselineCount`, so on a builder whose
documents have these sizes all the calls return and none indexes outside
`Factors` or `Baseline`; and a line with as many tokens as columns that is
parsed without error writes the factor slots `0 .. FactorCount-1`, each once. -/
theorem C23_line_writes_in_range (env : TEnv) (cd : Option (List TColumn))
    (columnsCount : Nat) (poolLines : List String) (pairsFile : String) (threadCount : Int)
    (fieldDelimiter : Char) (hasHeader : Bool) (classNames : List String) (blockSize : Int)
    (r0 : TPoolReader)
    (hcreate : TPoolReader.create env cd columnsCount poolLines pairsFile threadCount
      fieldDelimiter hasHeader classNames blockSize = .ok r0)
    (hsize : r0.ColumnsDescription.length < 2 ^ 32) :
    r0.PoolMetaInfo.FactorCount =
      (r0.ColumnsDescription.countP fun x => IsFactorColumn x.ColType) ∧
    r0.PoolMetaInfo.BaselineCount = countType r0.ColumnsDescription .Baseline ∧
    ∀ (r : TPoolReader) (lineIdx : Nat) (words : List String),
      (∀ c ∈ (lineTrace env r lineIdx words r0.ColumnsDescription 0 0 0).1,
        CallInRange lineIdx r0.PoolMetaInfo.FactorCount r0.PoolMetaInfo.BaselineCount c) ∧
      (∀ l f s, TBuilderCall.AddCatFeature l f s ∈
          (lineTrace env r lineIdx words r0.ColumnsDescription 0 0 0).1 →
        f < r0.PoolMetaInfo.FactorCount) ∧
      (∀ l f v, TBuilderCall.AddFloatFeature l f v ∈
          (lineTrace env r lineIdx words r0.ColumnsDescription 0 0 0).1 →
        f < r0.PoolMetaInfo.FactorCount) ∧
      (∀ l o v, TBuilderCall.AddBaseline l o v ∈
          (lineTrace env r lineIdx words r0.ColumnsDescription 0 0 0).1 →
        o < r0.PoolMetaInfo.BaselineCount) ∧
      (∀ b : TPoolBuilder,
        DocsSized r0.PoolMetaInfo.FactorCount r0.PoolMetaInfo.BaselineCount b →
        b.GetLine lineIdx < b.Pool.Docs.length → b.LockedHashMapParts.length = 256 →
        ∃ b', runCalls env (lineTrace env r lineIdx words r0.ColumnsDescription 0 0 0).1 b =
          .ok b') ∧
      (∀ b, TPoolReader.parseWords env r lineIdx words r0.ColumnsDescription 0 0 0 b =
        finishTrace env (lineTrace env r lineIdx words r0.ColumnsDescription 0 0 0) b) ∧
      (words.length = r0.ColumnsDescription.length →
        ∀ b b', TPoolReader.parseWords env r lineIdx words r0.ColumnsDescription 0 0 0 b =
            .ok b' →
          (lineTrace env r lineIdx words r0.ColumnsDescription 0 0 0).1.filterMap
              TBuilderCall.factorSlot =
            List.range r0.PoolMetaInfo.FactorCount) := by
  obtain ⟨_, _, _, _, _, _, _, _, _, _, _, hfc, hbc, _⟩ := create_ok hcreate
  have hF : r0.PoolMetaInfo.FactorCount =
      (r0.ColumnsDescription.countP fun x => IsFactorColumn x.ColType) := by
    rw [hfc]
    apply Nat.mod_eq_of_lt
    exact lt_of_le_of_lt (List.countP_le_length _) hsize
  have hB : r0.PoolMetaInfo.BaselineCount = countType r0.ColumnsDescription .Baseline := by
    rw [hbc]
    apply Nat.mod_eq_of_lt
    exact lt_of_le_of_lt (List.countP_le_length _) hsize
  refine ⟨hF, hB, ?_⟩
  intro r lineIdx words
  have hall : ∀ c ∈ (lineTrace env r lineIdx words r0.ColumnsDescription 0 0 0).1,
      CallInRange lineIdx r0.PoolMetaInfo.FactorCount r0.PoolMetaInfo.BaselineCount c := by
    intro c hc
    have := lineTrace_inRange env r lineIdx words r0.ColumnsDescription 0 0 0 c hc
    rw [Nat.zero_add, Nat.zero_add, ← hF, ← hB] at this
    exact this
  refine ⟨hall, ?_, ?_, ?_, ?_, parseWords_eq_finishTrace env r lineIdx words _ 0 0 0, ?_⟩
  · intro l f s hc
    exact (hall _ hc).2
  · intro l f v hc
    exact (hall _ hc).2
  · intro l o v hc
    exact (hall _ hc).2
  · intro b hb hl hp
    obtain ⟨b', h, _⟩ := runCalls_inRange env _ b hall hb hl hp
    exact ⟨b', h⟩
  · intro hlen b b' h
    rw [parseWords_eq_finishTrace] at h
    rw [lineTrace_slots env r lineIdx words _ 0 0 0 hlen (finishTrace_ok h).1, ← hF,
      List.range_eq_range']

set_option maxRecDepth 100000 in
/-- C23 on the columns `Target, Num` and the line `1,2`: one factor, no
baseline, and the line writes factor slot `0` once. -/
theorem C23_line_writes_in_range_witness :
    TPoolReader.create testEnv (some targetNum) 2 fourLines "" 1 ',' false [] 2 =
      .ok fourLinesReader ∧
    fourLinesReader.PoolMetaInfo.FactorCount = 1 ∧
    fourLinesReader.PoolMetaInfo.BaselineCount = 0 ∧
    lineTrace testEnv fourLinesReader 0 ["1", "2"] fourLinesReader.ColumnsDescription 0 0 0 =
      ([.AddTarget 0 f1, .AddFloatFeature 0 0 f2], none) ∧
    (fourLinesReader.PoolMetaInfo.FactorCount =
        (fourLinesReader.ColumnsDescription.countP fun x => IsFactorColumn x.ColType)) ∧
    (∀ l f v, TBuilderCall.AddFloatFeature l f v ∈
        (lineTrace testEnv fourLinesReader 0 ["1", "2"]
          fourLinesReader.ColumnsDescription 0 0 0).1 →
      f < fourLinesReader.PoolMetaInfo.FactorCount) :=
  ⟨by decide, by decide, by decide, by decide,
    (C23_line_writes_in_range testEnv (some targetNum) 2 fourLines "" 1 ',' false [] 2
      fourLinesReader (by decide) (by decide)).1,
    ((C23_line_writes_in_range testEnv (some targetNum) 2 fourLines "" 1 ',' false [] 2
      fourLinesReader (by decide) (by decide)).2.2 fourLinesReader 0 ["1", "2"]).2.2.1⟩

/-! ## The cycle loop: the number of swaps -/

theorem numCycles_one (n : Nat) : numCycles (1 : Equiv.Perm (Fin n)) = n := by
  simp [numCycles]

theorem numCycles_swap_mul {n : Nat} (σ : Equiv.Perm (Fin n)) (x : Fin n) (hx : σ x ≠ x) :
    numCycles (Equiv.swap x (σ x) * σ) = numCycles σ + 1 := by
  have hxs : x ∈ σ.support := Equiv.Perm.mem_support.2 hx
  have hc : σ.cycleOf x ∈ σ.cycleFactorsFinset := Equiv.Perm.cycleOf_mem_cycleFactorsFinset_iff.2 hxs
  have hcyc : (σ.cycleOf x).IsCycle := Equiv.Perm.isCycle_cycleOf σ hx
  have hdis : Equiv.Perm.Disjoint (σ * (σ.cycleOf x)⁻¹) (σ.cycleOf x) :=
    Equiv.Perm.disjoint_mul_inv_of_mem_cycleFactorsFinset hc
  have hcx : σ.cycleOf x x = σ x := Equiv.Perm.cycleOf_apply_self σ x
  generalize hcdef : σ.cycleOf x = c at hc hcyc hdis hcx
  generalize hrdef : σ * c⁻¹ = r at hdis
  have hσ : σ = c * r := by
    have h1 : σ = r * c := by rw [← hrdef]; simp
    rw [← hdis.commute.eq]
    exact h1
  have hcx' : c x ≠ x := by rw [hcx]; exact hx
  have hsle : σ.support.card ≤ n := by
    simpa using Finset.card_le_univ σ.support
  have hxc : x ∈ c.support := Equiv.Perm.mem_support.2 hcx'
  have hτ : Equiv.swap x (σ x) * σ = (Equiv.swap x (c x) * c) * r := by
    rw [hcx, hσ, mul_assoc]
  have hσt : σ.cycleType = c.cycleType + r.cycleType := by
    rw [hσ]; exact hdis.symm.cycleType
  have hσs : σ.support.card = c.support.card + r.support.card := by
    rw [hσ]; exact hdis.symm.card_support_mul
  rw [hcyc.cycleType] at hσt
  by_cases h2 : c (c x) = x
  · have hsw : c = Equiv.swap x (c x) := hcyc.eq_swap_of_apply_apply_eq_self hcx' h2
    have h1 : Equiv.swap x (c x) * c = 1 := by
      nth_rewrite 2 [hsw]
      simp
    have hcs : c.support.card = 2 := by
      rw [hsw]
      exact Equiv.Perm.card_support_swap (Ne.symm hcx')
    rw [hτ, h1, one_mul]
    simp only [numCycles, hσt, hσs, hcs]
    simp only [Multiset.coe_singleton, Multiset.card_add, Multiset.card_singleton]
    omega
  · have hcyc' : (Equiv.swap x (c x) * c).IsCycle := hcyc.swap_mul hcx' h2
    have hsupp : (Equiv.swap x (c x) * c).support = c.support \ {x} :=
      Equiv.Perm.support_swap_mul_eq c x h2
    have hdis' : Equiv.Perm.Disjoint (Equiv.swap x (c x) * c) r := by
      refine hdis.symm.mono ?_ (le_refl _)
      rw [hsupp]
      exact Finset.sdiff_subset
    have hcard : (Equiv.swap x (c x) * c).support.card + 1 = c.support.card := by
      rw [hsupp, Finset.card_sdiff (Finset.singleton_subset_iff.2 hxc), Finset.card_singleton]
      have : 0 < c.support.card := Finset.card_pos.2 ⟨x, hxc⟩
      omega
    rw [hτ]
    simp only [numCycles, hdis'.cycleType, hdis'.card_support_mul, hcyc'.cycleType, hσt, hσs]
    simp only [Multiset.coe_singleton, Multiset.card_add, Multiset.card_singleton]
    omega

theorem numCycles_mul_swap {n : Nat} (σ : Equiv.Perm (Fin n)) (x : Fin n) (hx : σ x ≠ x) :
    numCycles (σ * Equiv.swap x (σ x)) = numCycles σ + 1 := by
  have hconj : σ * Equiv.swap x (σ x) = σ * (Equiv.swap x (σ x) * σ) * σ⁻¹ := by
    simp [mul_assoc]
  rw [← numCycles_swap_mul σ x hx, hconj]
  simp only [numCycles, Equiv.Perm.cycleType_conj, Equiv.Perm.card_support_conj]

/-- A list that is a permutation of `0 .. n-1` is the table of a bijection. -/
theorem IsPermutation.exists_perm {p : List Nat} (hp : IsPermutation p) :
    ∃ σ : Equiv.Perm (Fin p.length), ∀ j : Fin p.length, p[j.val]? = some (σ j).val := by
  have hmem : ∀ j : Fin p.length, p.get j < p.length := fun j => hp.2 _ (List.get_mem _ _ _)
  have hinj : Function.Injective (fun j : Fin p.length => (⟨p.get j, hmem j⟩ : Fin p.length)) := by
    intro a b hab
    simp only [Fin.mk.injEq] at hab
    exact (List.Nodup.get_inj_iff hp.1).1 hab
  refine ⟨Equiv.ofBijective _ (Finite.injective_iff_bijective.1 hinj), ?_⟩
  intro j
  rw [List.getElem?_eq_getElem j.isLt]
  rfl

/-- Each swap of the cycle loop adds one cycle: when the loop is left the
swaps made and the cycles of the table it started from add up to `n`. -/
theorem cycleLoop_swaps (n : Nat) :
    ∀ (fuel i : Nat) (docs : List TDocInfo) (toIndices : List Nat) (swaps : Nat)
      (σ : Equiv.Perm (Fin n)) (r : List TDocInfo × List Nat × Nat),
      (∀ j : Fin n, toIndices[j.val]? = some (σ j).val) →
      (∀ j : Fin n, j.val < i → σ j = j) →
      cycleLoop n fuel i docs toIndices swaps = .ok r →
      r.2.2 + numCycles σ = swaps + n := by
  intro fuel
  induction fuel with
  | zero =>
    intro i docs toIndices swaps σ r _ _ h
    simp [cycleLoop] at h
  | succ fuel ih =>
    intro i docs toIndices swaps σ r hrel hset h
    unfold cycleLoop at h
    split at h
    · rename_i hin
      split at h
      · cases h
      · rename_i d hd
        have hσi : (σ ⟨i, hin⟩).val = d := by
          have := hrel ⟨i, hin⟩
          rw [hd] at this
          exact (Option.some.inj this).symm
        split at h
        · rename_i hne
          split at h
          · rename_i docs' to' hs1 hs2
            obtain ⟨_, _, _, hto⟩ := DoSwap_eq_some hs2
            have hx : σ ⟨i, hin⟩ ≠ ⟨i, hin⟩ := by
              intro hc
              apply hne
              rw [← hσi, hc]
            have := ih i docs' to' (swaps + 1) (σ * Equiv.swap ⟨i, hin⟩ (σ ⟨i, hin⟩)) r ?_ ?_ h
            · rw [numCycles_mul_swap σ _ hx] at this
              omega
            · intro j
              rw [hto j.val, Equiv.Perm.mul_apply, ← hrel]
              congr 1
              rw [Equiv.swap_apply_def]
              unfold swapIdx
              by_cases h1 : j = ⟨i, hin⟩
              · subst h1
                simp only [if_true]
                have : ¬ i = d := fun hc => hne hc.symm
                simp only [this, if_false, if_true, hσi]
              · have h1' : ¬ j.val = i := fun hc => h1 (Fin.ext hc)
                by_cases h2 : j = σ ⟨i, hin⟩
                · have h2' : j.val = d := by rw [h2, hσi]
                  simp only [h2, hx, if_false, if_true, hσi]
                · have h2' : ¬ j.val = d := fun hc => h2 (Fin.ext (by rw [hc, hσi]))
                  simp only [h1, h2, h1', h2', if_false]
            · intro j hj
              have h1 : j ≠ ⟨i, hin⟩ := by
                intro hc
                rw [hc] at hj
                exact Nat.lt_irrefl _ hj
              have h2 : j ≠ σ ⟨i, hin⟩ := by
                intro hc
                have hsj := hset j hj
                rw [hc] at hsj
                exact hx (σ.injective hsj)
              rw [Equiv.Perm.mul_apply, Equiv.swap_apply_of_ne_of_ne h1 h2]
              exact hset j hj
          · cases h
        · rename_i heq
          have heq' : d = i := by
            by_contra hc
            exact heq hc
          refine ih (i + 1) docs toIndices swaps σ r hrel ?_ h
          intro j hj
          rcases Nat.lt_succ_iff_lt_or_eq.1 hj with hlt | hje
          · exact hset j hlt
          · have : j = ⟨i, hin⟩ := Fin.ext hje
            rw [this]
            exact Fin.ext (by rw [hσi, heq'])
    · rename_i hin
      simp only [Except.ok.injEq] at h
      subst h
      have hone : σ = 1 := by
        ext j
        rw [hset j (by have := j.isLt; omega)]
        rfl
      rw [hone, numCycles_one]

/-- C21: for every permutation `π` of `0 .. n-1` and every document vector of
`n` entries, the cycle loop of `ApplyPermutation` is left within `2n + 1` loop
tests, without an index outside `[0, n)`, with the working copy `toIndices`
equal to the identity, after at most `n - 1` swaps; the number of swaps is `n`
minus the number of cycles of `π` (fixed points counted). -/
theorem C21_cycle_loop_swaps (permutation : List Nat) (docs : List TDocInfo) (fuel : Nat)
    (hperm : IsPermutation permutation) (hlen : permutation.length = docs.length)
    (hfuel : 2 * permutation.length + 1 ≤ fuel) :
    ∃ docs' swaps,
      cycleLoop permutation.length fuel 0 docs permutation 0 =
        .ok (docs', List.range permutation.length, swaps) ∧
      swaps ≤ permutation.length - 1 ∧
      (∃ σ : Equiv.Perm (Fin permutation.length),
        ∀ j : Fin permutation.length, permutation[j.val]? = some (σ j).val) ∧
      (∀ σ : Equiv.Perm (Fin permutation.length),
        (∀ j : Fin permutation.length, permutation[j.val]? = some (σ j).val) →
        swaps + numCycles σ = permutation.length) := by
  have hinv := CycleInv.init hperm hlen
  have hcard := nonFixed_card_le permutation
  obtain ⟨docs', to', swaps, h1, h2, h3⟩ :=
    cycleLoop_ok permutation.length docs permutation fuel 0 docs permutation 0 hinv
      (Nat.zero_le _) (by omega)
  rw [h2.toIndices_eq] at h1
  refine ⟨docs', swaps, h1, by omega, hperm.exists_perm, ?_⟩
  intro σ hσ
  have := cycleLoop_swaps permutation.length fuel 0 docs permutation 0 σ _ hσ
    (fun j hj => absurd hj (Nat.not_lt_zero _)) h1
  simpa using this

/-- C21 at `π = [2, 0, 3, 1]`, a single cycle of four: three swaps. -/
theorem C21_cycle_loop_swaps_witness :
    (∃ docs' swaps,
      cycleLoop [2, 0, 3, 1].length 9 0 scenarioE.Docs [2, 0, 3, 1] 0 =
        .ok (docs', List.range [2, 0, 3, 1].length, swaps) ∧
      swaps ≤ [2, 0, 3, 1].length - 1 ∧
      (∃ σ : Equiv.Perm (Fin [2, 0, 3, 1].length),
        ∀ j : Fin [2, 0, 3, 1].length, [2, 0, 3, 1][j.val]? = some (σ j).val) ∧
      (∀ σ : Equiv.Perm (Fin [2, 0, 3, 1].length),
        (∀ j : Fin [2, 0, 3, 1].length, [2, 0, 3, 1][j.val]? = some (σ j).val) →
        swaps + numCycles σ = [2, 0, 3, 1].length)) ∧
    cycleLoop 4 9 0 scenarioE.Docs [2, 0, 3, 1] 0 =
      .ok ([docNamed "B", docNamed "D", docNamed "A", docNamed "C"], [0, 1, 2, 3], 3) ∧
    cycleLoop 4 5 0 scenarioE.Docs [0, 1, 2, 3] 0 = .ok (scenarioE.Docs, [0, 1, 2, 3], 0) :=
  ⟨C21_cycle_loop_swaps [2, 0, 3, 1] scenarioE.Docs 9 (by decide) (by decide) (by decide),
    by decide, by decide⟩

/-! ## The document that a line is written to -/

theorem modifyLine_effect {localIdx : Nat} {f : TDocInfo → Except Fault TDocInfo}
    {b b' : TPoolBuilder} (h : b.modifyLine localIdx f = .ok b') :
    (∀ q, q ≠ b.GetLine localIdx → b'.Pool.Docs[q]? = b.Pool.Docs[q]?) ∧
      ∀ doc, b.Pool.Docs[b.GetLine localIdx]? = some doc →
        ∃ doc', f doc = .ok doc' ∧ b'.Pool.Docs[b.GetLine localIdx]? = some doc' := by
  obtain ⟨doc0, doc0', h1, h2, h3⟩ := modifyLine_ok h
  subst h3
  have hlt : b.GetLine localIdx < b.Pool.Docs.length := (List.getElem?_eq_some.1 h1).1
  constructor
  · intro q hq
    simp only [List.getElem?_set, Ne.symm hq, if_false]
  · intro doc hdoc
    rw [h1] at hdoc
    cases hdoc
    refine ⟨doc0', h2, ?_⟩
    simp only [List.getElem?_set, if_true, hlt]

/-- A call of the line parser changes the document of its line only, as
`onDoc` says. -/
theorem TBuilderCall.run_onDoc {env : TEnv} {l F B : Nat} {c : TBuilderCall}
    {b b' : TPoolBuilder} (hc : CallInRange l F B c) (h : c.run env b = .ok b') :
    SameFrame b b' ∧
      (∀ q, q ≠ b.GetLine l → b'.Pool.Docs[q]? = b.Pool.Docs[q]?) ∧
      ∀ doc, b.Pool.Docs[b.GetLine l]? = some doc →
        ∃ doc', c.onDoc env doc = .ok doc' ∧ b'.Pool.Docs[b.GetLine l]? = some doc' := by
  cases c with
  | StartNextBlock n => exact absurd hc (by simp [CallInRange])
  | SetFeatureIds ids => exact absurd hc (by simp [CallInRange])
  | SetPairs pairs => exact absurd hc (by simp [CallInRange])
  | AddQueryId l' q =>
    simp only [TBuilderCall.run, TPoolBuilder.AddQueryId, Except.ok.injEq] at h
    subst h
    exact ⟨SameFrame.refl _, fun _ _ => rfl, fun doc hdoc => ⟨doc, rfl, hdoc⟩⟩
  | AddTarget l' v =>
    simp only [CallInRange] at hc
    subst hc
    have h' : b.AddTarget l' v = .ok b' := h
    exact ⟨AddTarget_frame h', modifyLine_effect h'⟩
  | AddWeight l' v =>
    simp only [CallInRange] at hc
    subst hc
    have h' : b.AddWeight l' v = .ok b' := h
    exact ⟨AddWeight_frame h', modifyLine_effect h'⟩
  | AddDocId l' v =>
    simp only [CallInRange] at hc
    subst hc
    have h' : b.AddDocId l' v = .ok b' := h
    exact ⟨AddDocId_frame h', modifyLine_effect h'⟩
  | AddBaseline l' o v =>
    simp only [CallInRange] at hc
    obtain ⟨rfl, _⟩ := hc
    have h' : b.AddBaseline l' o v = .ok b' := h
    exact ⟨AddBaseline_frame h', modifyLine_effect h'⟩
  | AddFloatFeature l' f v =>
    simp only [CallInRange] at hc
    obtain ⟨rfl, _⟩ := hc
    have h' : b.AddFloatFeature l' f v = .ok b' := h
    exact ⟨AddFloatFeature_frame h', modifyLine_effect h'⟩
  | AddCatFeature l' f s =>
    simp only [CallInRange] at hc
    obtain ⟨rfl, _⟩ := hc
    have h' : b.AddCatFeature env l' f s = .ok b' := h
    refine ⟨AddCatFeature_frame h', ?_⟩
    unfold TPoolBuilder.AddCatFeature at h'
    simp only [] at h'
    split at h'
    · cases h'
    · unfold TPoolBuilder.AddFloatFeature at h'
      have e := modifyLine_effect h'
      exact e

/-- A call of the line parser returns when `onDoc` does on the document of its
line and the builder has its 256 hash parts. -/
theorem TBuilderCall.run_of_onDoc (env : TEnv) {l F B : Nat} {c : TBuilderCall}
    {b : TPoolBuilder} {doc doc' : TDocInfo} (hc : CallInRange l F B c)
    (hp : b.LockedHashMapParts.length = 256)
    (hdoc : b.Pool.Docs[b.GetLine l]? = some doc) (h : c.onDoc env doc = .ok doc') :
    ∃ b', c.run env b = .ok b' ∧ b'.LockedHashMapParts.length = 256 := by
  cases c with
  | StartNextBlock n => exact absurd hc (by simp [CallInRange])
  | SetFeatureIds ids => exact absurd hc (by simp [CallInRange])
  | SetPairs pairs => exact absurd hc (by simp [CallInRange])
  | AddQueryId l' q => exact ⟨b, rfl, hp⟩
  | AddTarget l' v =>
    simp only [CallInRange] at hc
    subst hc
    simp only [TBuilderCall.run, TPoolBuilder.AddTarget]
    exact ⟨_, modifyLine_run hdoc h, hp⟩
  | AddWeight l' v =>
    simp only [CallInRange] at hc
    subst hc
    simp only [TBuilderCall.run, TPoolBuilder.AddWeight]
    exact ⟨_, modifyLine_run hdoc h, hp⟩
  | AddDocId l' v =>
    simp only [CallInRange] at hc
    subst hc
    simp only [TBuilderCall.run, TPoolBuilder.AddDocId]
    exact ⟨_, modifyLine_run hdoc h, hp⟩
  | AddBaseline l' o v =>
    simp only [CallInRange] at hc
    obtain ⟨rfl, _⟩ := hc
    simp only [TBuilderCall.run, TPoolBuilder.AddBaseline]
    exact ⟨_, modifyLine_run hdoc h, hp⟩
  | AddFloatFeature l' f v =>
    simp only [CallInRange] at hc
    obtain ⟨rfl, _⟩ := hc
    simp only [TBuilderCall.run, TPoolBuilder.AddFloatFeature]
    exact ⟨_, modifyLine_run hdoc h, hp⟩
  | AddCatFeature l' f s =>
    simp only [CallInRange] at hc
    obtain ⟨rfl, _⟩ := hc
    have hpart : (env.CalcCatFeatureHash s % 256).toNat < b.LockedHashMapParts.length := by
      rw [hp]
      omega
    simp only [TBuilderCall.run, TPoolBuilder.AddCatFeature, List.getElem?_eq_getElem hpart,
      TPoolBuilder.AddFloatFeature]
    exact ⟨_, modifyLine_run (b := { b with LockedHashMapParts := _ }) hdoc h, by simp [setLine, hp]⟩

theorem SameFrame.getLine {b b' : TPoolBuilder} (h : SameFrame b b') (l : Nat) :
    b'.GetLine l = b.GetLine l := by
  simp only [TPoolBuilder.GetLine, h.2.1]

/-- The calls of a line, run on a builder, change the document of the line
only, as `docAfter` says. -/
theorem runCalls_docAfter (env : TEnv) {l F B : Nat} :
    ∀ (calls : List TBuilderCall) (b b' : TPoolBuilder),
      (∀ c ∈ calls, CallInRange l F B c) → runCalls env calls b = .ok b' →
      SameFrame b b' ∧
        (∀ q, q ≠ b.GetLine l → b'.Pool.Docs[q]? = b.Pool.Docs[q]?) ∧
        ∀ doc, b.Pool.Docs[b.GetLine l]? = some doc →
          ∃ doc', docAfter env calls doc = .ok doc' ∧
            b'.Pool.Docs[b.GetLine l]? = some doc' := by
  intro calls
  induction calls with
  | nil =>
    intro b b' _ h
    simp only [runCalls, Except.ok.injEq] at h
    subst h
    exact ⟨SameFrame.refl _, fun _ _ => rfl, fun doc hdoc => ⟨doc, rfl, hdoc⟩⟩
  | cons c cs ih =>
    intro b b' hc h
    unfold runCalls at h
    split at h
    · cases h
    · rename_i b1 h1
      obtain ⟨f1, o1, d1⟩ := TBuilderCall.run_onDoc (hc c (List.mem_cons_self _ _)) h1
      obtain ⟨f2, o2, d2⟩ := ih b1 b' (fun c' hc' => hc c' (List.mem_cons_of_mem _ hc')) h
      have hg := f1.getLine l
      rw [hg] at o2 d2
      refine ⟨f1.trans f2, fun q hq => (o2 q hq).trans (o1 q hq), ?_⟩
      intro doc hdoc
      obtain ⟨doc1, e1, p1⟩ := d1 doc hdoc
      obtain ⟨doc', e2, p2⟩ := d2 doc1 p1
      refine ⟨doc', ?_, p2⟩
      simp only [docAfter, e1, e2]

/-- The calls of a line return on a builder when `docAfter` does on the
document of the line. -/
theorem runCalls_of_docAfter (env : TEnv) {l F B : Nat} :
    ∀ (calls : List TBuilderCall) (b : TPoolBuilder) (doc doc' : TDocInfo),
      (∀ c ∈ calls, CallInRange l F B c) → b.LockedHashMapParts.length = 256 →
      b.Pool.Docs[b.GetLine l]? = some doc → docAfter env calls doc = .ok doc' →
      ∃ b', runCalls env calls b = .ok b' := by
  intro calls
  induction calls with
  | nil => intro b _ _ _ _ _ _; exact ⟨b, rfl⟩
  | cons c cs ih =>
    intro b doc doc' hc hp hdoc h
    unfold docAfter at h
    split at h
    · cases h
    · rename_i doc1 e1
      have hin := hc c (List.mem_cons_self _ _)
      obtain ⟨b1, h1, hp1⟩ := TBuilderCall.run_of_onDoc env hin hp hdoc e1
      obtain ⟨f1, _, d1⟩ := TBuilderCall.run_onDoc hin h1
      obtain ⟨doc1', e1', p1⟩ := d1 doc hdoc
      rw [e1] at e1'
      cases e1'
      rw [← f1.getLine l] at p1
      obtain ⟨b', h2⟩ := ih b1 doc1 doc' (fun c' hc' => hc c' (List.mem_cons_of_mem _ hc')) hp1 p1 h
      exact ⟨b', by simp only [runCalls, h1, h2]⟩

theorem parseNum_ok_iff (env : TEnv) (r r' : TPoolReader) (l l' i : Nat) (word : String)
    (v : TFloat) :
    TPoolReader.parseNum env r l i word = .ok v ↔
      TPoolReader.parseNum env r' l' i word = .ok v := by
  unfold TPoolReader.parseNum
  by_cases hw : word = ""
  · simp [hw]
  · simp only [hw, if_false]
    cases env.TryFromStringFloat word with
    | some u => simp
    | none =>
      by_cases hn : IsNanToken word = true
      · simp [hn]
      · simp [hn]

theorem consCall_congr (env : TEnv) {c c' : TBuilderCall}
    {t t' : List TBuilderCall × Option Fault}
    (hc : ∀ doc, c.onDoc env doc = c'.onDoc env doc)
    (ht : (t.2 = none ↔ t'.2 = none) ∧ ∀ doc, docAfter env t.1 doc = docAfter env t'.1 doc) :
    ((consCall c t).2 = none ↔ (consCall c' t').2 = none) ∧
      ∀ doc, docAfter env (consCall c t).1 doc = docAfter env (consCall c' t').1 doc := by
  refine ⟨ht.1, ?_⟩
  intro doc
  simp only [consCall, docAfter, hc doc]
  cases c'.onDoc env doc with
  | error e => rfl
  | ok d => exact ht.2 d

theorem fault_congr (env : TEnv) (e e' : Fault) :
    ((([], some e) : List TBuilderCall × Option Fault).2 = none ↔
        (([], some e') : List TBuilderCall × Option Fault).2 = none) ∧
      ∀ doc, docAfter env (([], some e) : List TBuilderCall × Option Fault).1 doc =
        docAfter env (([], some e') : List TBuilderCall × Option Fault).1 doc := by
  simp

/-- Whether a line is accepted, and what its calls do to a document, does not
depend on the index of the line in its block nor on the lines read before. -/
theorem lineTrace_docAfter (env : TEnv) (r r' : TPoolReader) (l l' : Nat)
    (hcn : r.ClassNames = r'.ClassNames) :
    ∀ (words : List String) (columns : List TColumn) (i featureId baselineIdx : Nat),
      ((lineTrace env r l words columns i featureId baselineIdx).2 = none ↔
        (lineTrace env r' l' words columns i featureId baselineIdx).2 = none) ∧
      ∀ doc, docAfter env (lineTrace env r l words columns i featureId baselineIdx).1 doc =
        docAfter env (lineTrace env r' l' words columns i featureId baselineIdx).1 doc := by
  intro words
  induction words with
  | nil =>
    intro columns i featureId baselineIdx
    simp [lineTrace]
  | cons word words ih =>
    intro columns i featureId baselineIdx
    cases columns with
    | nil => simp [lineTrace]
    | cons column columns =>
      simp only [lineTrace]
      cases hcol : column.ColType <;> simp only []
      · -- Num
        cases hp : TPoolReader.parseNum env r l i word with
        | error e =>
          cases hp' : TPoolReader.parseNum env r' l' i word with
          | error e' => exact fault_congr env e e'
          | ok v' =>
            rw [← parseNum_ok_iff env r r' l l' i word v', hp] at hp'
            cases hp'
        | ok v =>
          rw [(parseNum_ok_iff env r r' l l' i word v).1 hp]
          exact consCall_congr env (fun _ => rfl) (ih _ _ _ _)
      · -- Categ
        exact consCall_congr env (fun _ => rfl) (ih _ _ _ _)
      · -- Target
        rw [hcn]
        by_cases hw : word = ""
        · simp [hw]
        · simp only [hw, if_false]
          cases TTargetConverter env r'.ClassNames word with
          | error e => exact fault_congr env _ _
          | ok v => exact consCall_congr env (fun _ => rfl) (ih _ _ _ _)
      · -- Auxiliary
        exact ih _ _ _ _
      · -- DocId
        by_cases hw : word = ""
        · simp [hw]
        · simp only [hw, if_false]
          exact consCall_congr env (fun _ => rfl) (ih _ _ _ _)
      · -- QueryId
        exact consCall_congr env (fun _ => rfl) (ih _ _ _ _)
      · -- Weight
        by_cases hw : word = ""
        · simp [hw]
        · simp only [hw, if_false]
          cases env.TryFromStringFloat word with
          | none => exact fault_congr env _ _
          | some v => exact consCall_congr env (fun _ => rfl) (ih _ _ _ _)
      · -- Baseline
        by_cases hw : word = ""
        · simp [hw]
        · simp only [hw, if_false]
          cases env.FromStringDouble word with
          | none => exact fault_congr env _ _
          | some v => exact consCall_congr env (fun _ => rfl) (ih _ _ _ _)

/-- The parse of a line that returns: the line has as many tokens as there are
columns, no token is rejected, and the document of the line becomes what the
calls of the line make of it; no other document changes. -/
theorem parseFeaturesInBlock_doc {env : TEnv} {r : TPoolReader} {lineIdx : Nat}
    {b b' : TPoolBuilder} (h : r.parseFeaturesInBlock env lineIdx b = .ok b') :
    SameFrame b b' ∧
      (∀ q, q ≠ b.GetLine lineIdx → b'.Pool.Docs[q]? = b.Pool.Docs[q]?) ∧
      ∃ line, r.ParseBuffer[lineIdx]? = some line ∧
        (env.SplitRangeTo r.FieldDelimiter line).length = r.ColumnsDescription.length ∧
        (lineTrace env r lineIdx (env.SplitRangeTo r.FieldDelimiter line)
          r.ColumnsDescription 0 0 0).2 = none ∧
        ∀ doc, b.Pool.Docs[b.GetLine lineIdx]? = some doc →
          ∃ doc', docAfter env (lineTrace env r lineIdx
              (env.SplitRangeTo r.FieldDelimiter line) r.ColumnsDescription 0 0 0).1 doc =
              .ok doc' ∧
            b'.Pool.Docs[b.GetLine lineIdx]? = some doc' := by
  unfold TPoolReader.parseFeaturesInBlock at h
  split at h
  · cases h
  · rename_i line hline
    simp only [] at h
    split at h
    · rename_i hlen
      rw [parseWords_eq_finishTrace] at h
      obtain ⟨hnone, hrun⟩ := finishTrace_ok h
      obtain ⟨f1, o1, d1⟩ := runCalls_docAfter env _ b b'
        (fun c hc => lineTrace_inRange env r lineIdx _ _ 0 0 0 c hc) hrun
      exact ⟨f1, o1, line, hline, hlen, hnone, d1⟩
    · cases h

/-- The lines `first, first + 1, ..` of a block, parsed in order on a builder
whose cursor is `C`: line `first + t` makes the document at `C + first + t`,
and the documents outside this range stay. -/
theorem forRange_block (env : TEnv) (r : TPoolReader) (C : Nat) :
    ∀ (count first : Nat) (b b' : TPoolBuilder),
      forRange (r.parseFeaturesInBlock env) count first b = .ok b' →
      b.Cursor = C → C + first + count < 2 ^ 32 →
      SameFrame b b' ∧
        (∀ q, (q < C + first ∨ C + first + count ≤ q) →
          b'.Pool.Docs[q]? = b.Pool.Docs[q]?) ∧
        ∀ t, t < count → ∀ doc, b.Pool.Docs[C + first + t]? = some doc →
          ∃ line doc', r.ParseBuffer[first + t]? = some line ∧
            (env.SplitRangeTo r.FieldDelimiter line).length = r.ColumnsDescription.length ∧
            (lineTrace env r (first + t) (env.SplitRangeTo r.FieldDelimiter line)
              r.ColumnsDescription 0 0 0).2 = none ∧
            docAfter env (lineTrace env r (first + t)
              (env.SplitRangeTo r.FieldDelimiter line) r.ColumnsDescription 0 0 0).1 doc =
              .ok doc' ∧
            b'.Pool.Docs[C + first + t]? = some doc' := by
  intro count
  induction count with
  | zero =>
    intro first b b' h _ _
    simp only [forRange, Except.ok.injEq] at h
    subst h
    exact ⟨SameFrame.refl _, fun _ _ => rfl, fun t ht => absurd ht (Nat.not_lt_zero _)⟩
  | succ count ih =>
    intro first b b' h hC hsize
    unfold forRange at h
    split at h
    · cases h
    · rename_i b1 h1
      obtain ⟨f1, o1, line, hline, hlen, hnone, d1⟩ := parseFeaturesInBlock_doc h1
      have hg : b.GetLine first = C + first := by
        simp only [TPoolBuilder.GetLine, hC]
        exact Nat.mod_eq_of_lt (by omega)
      rw [hg] at o1 d1
      obtain ⟨f2, o2, d2⟩ := ih (first + 1) b1 b' h (f1.2.1.trans hC) (by omega)
      refine ⟨f1.trans f2, ?_, ?_⟩
      · intro q hq
        rw [o2 q (by omega), o1 q (by omega)]
      · intro t ht doc hdoc
        cases t with
        | zero =>
          obtain ⟨doc', e1, p1⟩ := d1 doc hdoc
          refine ⟨line, doc', hline, hlen, hnone, e1, ?_⟩
          rw [Nat.add_zero, o2 _ (Or.inl (by omega))]
          exact p1
        | succ t =>
          have hdoc1 : b1.Pool.Docs[C + (first + 1) + t]? = some doc := by
            rw [o1 _ (by omega)]
            rw [← hdoc]
            congr 1
            omega
          obtain ⟨line', doc', a1, a2, a3, a4, a5⟩ := d2 t (by omega) doc hdoc1
          have hidx : first + 1 + t = first + (t + 1) := by omega
          have hidx' : C + (first + 1) + t = C + first + (t + 1) := by omega
          rw [hidx] at a1 a3 a4
          rw [hidx'] at a5
          exact ⟨line', doc', a1, a2, a3, a4, a5⟩

theorem ReadBlock_ClassNames (r : TPoolReader) : r.ReadBlock.1.ClassNames = r.ClassNames := by
  unfold TPoolReader.ReadBlock
  simp only []
  split
  · rw [ReadBlockAsync_eq]
  · rfl

/-- The loop of `ReadPool` when it returns: it has added one document for each
line still to deliver, line `k` of these making the document `k` places after
those that were there, and it has left the earlier documents alone. What a line
makes of its document is given on the reader `rc` at line index `0`. -/
theorem readLoop_docs (env : TEnv) (rc : TPoolReader) :
    ∀ (fuel : Nat) (r : TPoolReader) (b : TPoolBuilder) (rest : List String)
      (r' : TPoolReader) (b' : TPoolBuilder),
      ReaderReady r rest → 0 < toSizeT r.BlockSize → toSizeT r.BlockSize < 2 ^ 32 →
      r.ClassNames = rc.ClassNames →
      readLoop env fuel r b = .ok (r', b') →
      b'.Pool.Docs.length = b.Pool.Docs.length + rest.length ∧
      (∀ q, q < b.Pool.Docs.length → b'.Pool.Docs[q]? = b.Pool.Docs[q]?) ∧
      ∀ (k : Nat) (line : String), rest[k]? = some line →
        (env.SplitRangeTo r.FieldDelimiter line).length = r.ColumnsDescription.length ∧
        (lineTrace env rc 0 (env.SplitRangeTo r.FieldDelimiter line)
          r.ColumnsDescription 0 0 0).2 = none ∧
        ∃ doc', docAfter env (lineTrace env rc 0 (env.SplitRangeTo r.FieldDelimiter line)
            r.ColumnsDescription 0 0 0).1
            (TPoolBuilder.initDoc b.FactorCount b.BaselineCount ({} : TDocInfo)) = .ok doc' ∧
          b'.Pool.Docs[b.Pool.Docs.length + k]? = some doc' := by
  intro fuel
  induction fuel with
  | zero => intro r b rest r' b' _ _ _ _ h; simp [readLoop] at h
  | succ fuel ih =>
    intro r b rest r' b' hr hpos hlt hcn h
    obtain ⟨hnil, hcons⟩ := ReadBlock_ready hr hpos
    by_cases hrest : rest = []
    · have h2 := hnil hrest
      have hrb : r.ReadBlock = (r.ReadBlock.1, false) := Prod.ext rfl h2
      unfold readLoop at h
      rw [hrb] at h
      simp only [Except.ok.injEq, Prod.mk.injEq] at h
      obtain ⟨_, rfl⟩ := h
      subst hrest
      exact ⟨rfl, fun _ _ => rfl, fun k line hk => by simp at hk⟩
    · obtain ⟨h2, hpb, hne, hready, _, hbs, hcol, hdel⟩ := hcons hrest
      have hrb : r.ReadBlock = (r.ReadBlock.1, true) := Prod.ext rfl h2
      have hcn1 : r.ReadBlock.1.ClassNames = rc.ClassNames := (ReadBlock_ClassNames r).trans hcn
      unfold readLoop at h
      rw [hrb] at h
      simp only [] at h
      generalize r.ReadBlock.1 = r1 at h hpb hne hready hbs hcol hdel hcn1
      split at h
      · cases h
      · rename_i r2 b2 hproc
        unfold TPoolReader.ProcessBlock at hproc
        split at hproc
        · cases hproc
        · rename_i b1 hstart
          split at hproc
          · cases hproc
          · rename_i b2' hfor
            simp only [Except.ok.injEq, Prod.mk.injEq] at hproc
            obtain ⟨hr2, hb2⟩ := hproc
            subst hb2
            have hm : r1.ParseBuffer.length ≤ toSizeT r.BlockSize := by
              rw [hpb, List.length_take]
              exact Nat.min_le_left _ _
            have hmlen : r1.ParseBuffer.length = min (toSizeT r.BlockSize) rest.length := by
              rw [hpb, List.length_take]
            have hmod : r1.ParseBuffer.length % 2 ^ 32 = r1.ParseBuffer.length :=
              Nat.mod_eq_of_lt (by omega)
            rw [hmod] at hstart
            have hsz := StartNextBlock_eq_ok hstart
            obtain ⟨b1', hs1, hcur, hdocs, hF, hB, _, _⟩ :=
              StartNextBlock_ok b r1.ParseBuffer.length hsz
            rw [hstart] at hs1
            cases hs1
            obtain ⟨f1, o1, d1⟩ := forRange_block env r1 b.Pool.Docs.length
              r1.ParseBuffer.length 0 b1 b2' hfor hcur (by omega)
            have hready2 : ReaderReady r2 (rest.drop (toSizeT r.BlockSize)) := by
              rw [← hr2]
              exact hready
            have hbs2 : r2.BlockSize = r.BlockSize := by rw [← hr2]; exact hbs
            have hcn2 : r2.ClassNames = rc.ClassNames := by rw [← hr2]; exact hcn1
            have hcol2 : r2.ColumnsDescription = r.ColumnsDescription := by rw [← hr2]; exact hcol
            have hdel2 : r2.FieldDelimiter = r.FieldDelimiter := by rw [← hr2]; exact hdel
            obtain ⟨i1, i2, i3⟩ := ih r2 b2' (rest.drop (toSizeT r.BlockSize)) r' b' hready2
              (by rw [hbs2]; exact hpos) (by rw [hbs2]; exact hlt) hcn2 h
            have hlen2 : b2'.Pool.Docs.length = b.Pool.Docs.length + r1.ParseBuffer.length := by
              rw [f1.1, hdocs, List.length_append, List.length_replicate]
            have hF2 : b2'.FactorCount = b.FactorCount := f1.2.2.1.trans hF
            have hB2 : b2'.BaselineCount = b.BaselineCount := f1.2.2.2.1.trans hB
            rw [hlen2, hF2, hB2, hcol2, hdel2] at i3
            rw [hlen2] at i1 i2
            refine ⟨?_, ?_, ?_⟩
            · rw [i1, List.length_drop, hmlen]
              omega
            · intro q hq
              rw [i2 q (by omega), o1 q (Or.inl (by omega)), hdocs,
                List.getElem?_append_left hq]
            · intro k line hk
              have hklt : k < rest.length := (List.getElem?_eq_some.1 hk).1
              by_cases hkm : k < r1.ParseBuffer.length
              · have hfresh : b1.Pool.Docs[b.Pool.Docs.length + 0 + k]? =
                    some (TPoolBuilder.initDoc b.FactorCount b.BaselineCount ({} : TDocInfo)) := by
                  rw [hdocs, Nat.add_zero, List.getElem?_append_right (by omega)]
                  simp only [Nat.add_sub_cancel_left]
                  exact List.getElem?_replicate_of_lt hkm
                obtain ⟨line', doc', a1, a2, a3, a4, a5⟩ := d1 k hkm _ hfresh
                have hline : line' = line := by
                  rw [Nat.zero_add, hpb, List.getElem?_take_of_lt (by omega), hk] at a1
                  exact (Option.some.inj a1).symm
                subst hline
                rw [hcol, hdel] at a2 a3 a4
                have hind := lineTrace_docAfter env r1 rc (0 + k) 0 hcn1
                  (env.SplitRangeTo r.FieldDelimiter line') r.ColumnsDescription 0 0 0
                refine ⟨a2, hind.1.1 a3, doc', ?_, ?_⟩
                · rw [← hind.2]
                  exact a4
                · rw [Nat.add_zero] at a5
                  rw [i2 _ (by omega)]
                  exact a5
              · have hN : r1.ParseBuffer.length = toSizeT r.BlockSize := by omega
                have hk' : (rest.drop (toSizeT r.BlockSize))[k - toSizeT r.BlockSize]? =
                    some line := by
                  rw [List.getElem?_drop, ← hk]
                  congr 1
                  omega
                obtain ⟨a2, a3, doc', a4, a5⟩ := i3 _ line hk'
                refine ⟨a2, a3, doc', a4, ?_⟩
                rw [← a5]
                congr 1
                omega

/-- `ProcessBlock` on a block that holds one line, with a builder that has just
been started: when the line has as many tokens as there are columns and none
is rejected, the call returns, with the one document that the calls of the
line make. -/
theorem ProcessBlock_single (env : TEnv) (r0 : TPoolReader) (line : String) (doc' : TDocInfo)
    (hlen : (env.SplitRangeTo r0.FieldDelimiter line).length = r0.ColumnsDescription.length)
    (hnone : (lineTrace env { r0 with ParseBuffer := [line] } 0
      (env.SplitRangeTo r0.FieldDelimiter line) r0.ColumnsDescription 0 0 0).2 = none)
    (hdoc : docAfter env (lineTrace env { r0 with ParseBuffer := [line] } 0
        (env.SplitRangeTo r0.FieldDelimiter line) r0.ColumnsDescription 0 0 0).1
        (TPoolBuilder.initDoc r0.PoolMetaInfo.FactorCount r0.PoolMetaInfo.BaselineCount
          ({} : TDocInfo)) = .ok doc') :
    ∃ r1 b1, TPoolReader.ProcessBlock env { r0 with ParseBuffer := [line] }
        ((InitBuilder {}).Start r0.PoolMetaInfo) = .ok (r1, b1) ∧
      b1.Pool.Docs = [doc'] := by
  obtain ⟨b1, hs, hcur, hdocs, hF, hB, hparts, _⟩ :=
    StartNextBlock_ok ((InitBuilder {}).Start r0.PoolMetaInfo) 1 (by
      show 0 + 1 < 2 ^ 32
      omega)
  have hdocs1 : b1.Pool.Docs =
      [TPoolBuilder.initDoc r0.PoolMetaInfo.FactorCount r0.PoolMetaInfo.BaselineCount
        ({} : TDocInfo)] := hdocs
  have hcur0 : b1.Cursor = 0 := hcur
  have hp1 : b1.LockedHashMapParts.length = 256 := by
    rw [hparts]
    show (List.replicate 256 ([] : List (Int × String))).length = 256
    exact List.length_replicate _ _
  have hg : b1.GetLine 0 = 0 := by
    simp only [TPoolBuilder.GetLine, hcur0]
    rfl
  have hfresh : b1.Pool.Docs[b1.GetLine 0]? =
      some (TPoolBuilder.initDoc r0.PoolMetaInfo.FactorCount r0.PoolMetaInfo.BaselineCount
        ({} : TDocInfo)) := by
    rw [hg, hdocs1]
    rfl
  have hall := fun c hc => lineTrace_inRange env { r0 with ParseBuffer := [line] } 0
    (env.SplitRangeTo r0.FieldDelimiter line) r0.ColumnsDescription 0 0 0 c hc
  obtain ⟨b2, hrun⟩ := runCalls_of_docAfter env _ b1 _ doc' hall hp1 hfresh hdoc
  obtain ⟨f1, _, d1⟩ := runCalls_docAfter env _ b1 b2 hall hrun
  obtain ⟨doc2, e2, p2⟩ := d1 _ hfresh
  rw [hdoc] at e2
  cases e2
  have hb2 : b2.Pool.Docs = [doc'] := by
    have hl : b2.Pool.Docs.length = 1 := by rw [f1.1, hdocs1]; rfl
    rw [hg] at p2
    obtain ⟨d, hd⟩ := List.length_eq_one.1 hl
    rw [hd] at p2 ⊢
    simp only [List.getElem?_cons_zero, Option.some.injEq] at p2
    rw [p2]
  have hparse : TPoolReader.parseFeaturesInBlock env { r0 with ParseBuffer := [line] } 0 b1 =
      .ok b2 := by
    rw [parseFeaturesInBlock_eq_finishTrace]
    have hd : lineDispatch env { r0 with ParseBuffer := [line] } 0 =
        lineTrace env { r0 with ParseBuffer := [line] } 0
          (env.SplitRangeTo r0.FieldDelimiter line) r0.ColumnsDescription 0 0 0 := by
      simp only [lineDispatch, List.getElem?_cons_zero, hlen, if_true]
    rw [hd]
    simp only [finishTrace, hrun, hnone]
  have hmod : (1 : Nat) % 2 ^ 32 = 1 := by norm_num
  have hP : ∃ r1, TPoolReader.ProcessBlock env { r0 with ParseBuffer := [line] }
      ((InitBuilder {}).Start r0.PoolMetaInfo) = .ok (r1, b2) := by
    simp only [TPoolReader.ProcessBlock, List.length_singleton, hmod, hs, forRange, hparse]
    exact ⟨_, rfl⟩
  obtain ⟨r1, hP⟩ := hP
  exact ⟨r1, b2, hP, hb2⟩

/-! ## The loop of `ReadPool` is left -/

theorem TBuilderCall.run_ne_outOfFuel {env : TEnv} {c : TBuilderCall}
    {b : TPoolBuilder} : c.run env b ≠ .error .outOfFuel := by
  intro h
  cases c with
  | StartNextBlock n =>
    simp only [TBuilderCall.run, TPoolBuilder.StartNextBlock] at h
    split at h <;> cases h
  | AddCatFeature l f s => cases AddCatFeature_error h
  | AddFloatFeature l f v => cases AddFloatFeature_error h
  | AddTarget l v => cases AddTarget_error h
  | AddWeight l v => cases AddWeight_error h
  | AddQueryId l q => simp [TBuilderCall.run, TPoolBuilder.AddQueryId] at h
  | AddBaseline l o v => cases AddBaseline_error h
  | AddDocId l v => cases AddDocId_error h
  | SetFeatureIds ids =>
    simp only [TBuilderCall.run, TPoolBuilder.SetFeatureIds] at h
    split at h <;> cases h
  | SetPairs pairs => simp [TBuilderCall.run] at h

theorem runCalls_ne_outOfFuel {env : TEnv} :
    ∀ (calls : List TBuilderCall) (b : TPoolBuilder),
      runCalls env calls b ≠ .error .outOfFuel := by
  intro calls
  induction calls with
  | nil => intro b h; simp [runCalls] at h
  | cons c cs ih =>
    intro b h
    unfold runCalls at h
    split at h
    · rename_i e' he
      simp only [Except.error.injEq] at h
      subst h
      exact TBuilderCall.run_ne_outOfFuel he
    · exact ih _ h

theorem lineTrace_ne_outOfFuel (env : TEnv) (r : TPoolReader) (lineIdx : Nat) :
    ∀ (words : List String) (columns : List TColumn) (i featureId baselineIdx : Nat),
      (lineTrace env r lineIdx words columns i featureId baselineIdx).2 ≠ some .outOfFuel := by
  intro words
  induction words with
  | nil =>
    intro columns i featureId baselineIdx h
    simp [lineTrace] at h
  | cons word words ih =>
    intro columns i featureId baselineIdx h
    cases columns with
    | nil => simp [lineTrace] at h
    | cons column columns =>
      rw [lineTrace] at h
      cases hcol : column.ColType <;> simp only [hcol] at h
      · -- Num
        cases hp : TPoolReader.parseNum env r lineIdx i word with
        | error e' =>
          simp only [hp, Option.some.injEq] at h
          subst h
          rcases parseNum_error hp with h1 | ⟨h1, _⟩ <;> cases h1
        | ok val =>
          simp only [hp, consCall] at h
          exact ih _ _ _ _ h
      · -- Categ
        exact ih _ _ _ _ h
      · -- Target
        by_cases hw : word = ""
        · simp [hw] at h
        · simp only [hw, if_false] at h
          cases ht : TTargetConverter env r.ClassNames word with
          | error e' =>
            simp only [ht, Option.some.injEq] at h
            subst h
            rcases TTargetConverter_error ht with h1 | h1 <;> cases h1
          | ok v =>
            simp only [ht, consCall] at h
            exact ih _ _ _ _ h
      · -- Auxiliary
        exact ih _ _ _ _ h
      · -- DocId
        by_cases hw : word = ""
        · simp [hw] at h
        · simp only [hw, if_false, consCall] at h
          exact ih _ _ _ _ h
      · -- QueryId
        exact ih _ _ _ _ h
      · -- Weight
        by_cases hw : word = ""
        · simp [hw] at h
        · simp only [hw, if_false] at h
          cases ht : env.TryFromStringFloat word with
          | none => simp [ht] at h
          | some v =>
            simp only [ht, consCall] at h
            exact ih _ _ _ _ h
      · -- Baseline
        by_cases hw : word = ""
        · simp [hw] at h
        · simp only [hw, if_false] at h
          cases ht : env.FromStringDouble word with
          | none => simp [ht] at h
          | some v =>
            simp only [ht, consCall] at h
            exact ih _ _ _ _ h

theorem parseFeaturesInBlock_ne_outOfFuel (env : TEnv) (r : TPoolReader) (lineIdx : Nat)
    (b : TPoolBuilder) : r.parseFeaturesInBlock env lineIdx b ≠ .error .outOfFuel := by
  intro h
  rw [parseFeaturesInBlock_eq_finishTrace] at h
  rcases finishTrace_error h with h1 | h1
  · exact runCalls_ne_outOfFuel _ _ h1
  · unfold lineDispatch at h1
    split at h1
    · cases h1
    · simp only [] at h1
      split at h1
      · exact lineTrace_ne_outOfFuel env r lineIdx _ _ _ _ _ h1
      · cases h1

theorem ProcessBlock_ne_outOfFuel (env : TEnv) (r : TPoolReader) (b : TPoolBuilder) :
    r.ProcessBlock env b ≠ .error .outOfFuel := by
  intro h
  unfold TPoolReader.ProcessBlock at h
  split at h
  · rename_i e he
    simp only [Except.error.injEq] at h
    subst h
    unfold TPoolBuilder.StartNextBlock at he
    simp only [] at he
    split at he <;> cases he
  · split at h
    · rename_i e he
      simp only [Except.error.injEq] at h
      subst h
      obtain ⟨idx, s', _, _, hp⟩ := forRange_error_at _ _ _ _ _ he
      exact parseFeaturesInBlock_ne_outOfFuel env r idx s' hp
    · cases h

/-- With a call of `ReadBlock` for each line still to deliver and one more, the
loop of `ReadPool` is left: by a normal return, or by the fault of a block. -/
theorem readLoop_ne_outOfFuel (env : TEnv) :
    ∀ (fuel : Nat) (r : TPoolReader) (b : TPoolBuilder) (rest : List String),
      ReaderReady r rest → 0 < toSizeT r.BlockSize → rest.length + 1 ≤ fuel →
      readLoop env fuel r b ≠ .error .outOfFuel := by
  intro fuel
  induction fuel with
  | zero => intro r b rest _ _ hf; omega
  | succ fuel ih =>
    intro r b rest hr hpos hf h
    obtain ⟨hnil, hcons⟩ := ReadBlock_ready hr hpos
    by_cases hrest : rest = []
    · have h2 := hnil hrest
      have hrb : r.ReadBlock = (r.ReadBlock.1, false) := Prod.ext rfl h2
      unfold readLoop at h
      rw [hrb] at h
      cases h
    · obtain ⟨h2, hpb, hne, hready, _, hbs, _, _⟩ := hcons hrest
      have hrb : r.ReadBlock = (r.ReadBlock.1, true) := Prod.ext rfl h2
      unfold readLoop at h
      rw [hrb] at h
      simp only [] at h
      generalize r.ReadBlock.1 = r1 at h hpb hne hready hbs
      split at h
      · rename_i e he
        simp only [Except.error.injEq] at h
        subst h
        exact ProcessBlock_ne_outOfFuel env r1 b he
      · rename_i r2 b2 hproc
        obtain ⟨hr2, _⟩ := ProcessBlock_ok hproc
        have hready2 : ReaderReady r2 (rest.drop (toSizeT r.BlockSize)) := by
          rw [hr2]
          exact hready
        have hbs2 : r2.BlockSize = r.BlockSize := by rw [hr2]; exact hbs
        refine ih r2 b2 _ hready2 (by rw [hbs2]; exact hpos) ?_ h
        rw [List.length_drop]
        have : 0 < rest.length := List.length_pos.2 hrest
        omega

/-! ## The documents of the pool and the data lines -/

theorem StartBuilder_ok {featureIds : List String} {poolMetaInfo : TPoolColumnsMetaInfo}
    {hasHeader : Bool} {b b' : TPoolBuilder}
    (h : StartBuilder featureIds poolMetaInfo hasHeader b = .ok b') :
    b'.Pool.Docs = [] ∧ b'.FactorCount = poolMetaInfo.FactorCount ∧
      b'.BaselineCount = poolMetaInfo.BaselineCount := by
  unfold StartBuilder at h
  split at h
  · unfold TPoolBuilder.SetFeatureIds at h
    split at h
    · simp only [Except.ok.injEq] at h
      subst h
      exact ⟨rfl, rfl, rfl⟩
    · cases h
  · simp only [Except.ok.injEq] at h
    subst h
    exact ⟨rfl, rfl, rfl⟩

theorem SetFeatureIds_docs {featureIds : List String} {b b' : TPoolBuilder}
    (h : b.SetFeatureIds featureIds = .ok b') : b'.Pool.Docs = b.Pool.Docs := by
  unfold TPoolBuilder.SetFeatureIds at h
  split at h
  · simp only [Except.ok.injEq] at h
    subst h
    rfl
  · cases h

theorem Finish_docs (b : TPoolBuilder) : b.Finish.Pool.Docs = b.Pool.Docs := by
  unfold TPoolBuilder.Finish
  split <;> rfl

/-- `FinalizeBuilder` leaves the documents as they are. -/
theorem FinalizeBuilder_docs {env : TEnv} {columnsDescription : List TColumn}
    {pairsFile : String} {b b' : TPoolBuilder}
    (h : FinalizeBuilder env columnsDescription pairsFile b = .ok b') :
    b'.Pool.Docs = b.Pool.Docs := by
  unfold FinalizeBuilder at h
  simp only [] at h
  split at h
  · cases h
  · rename_i b1 hb1
    have h1 : b1.Pool.Docs = b.Pool.Docs := by
      split at hb1
      · exact SetFeatureIds_docs hb1
      · simp only [Except.ok.injEq] at hb1
        subst hb1
        rfl
    split at h
    · split at h
      · cases h
      · simp only [Except.ok.injEq] at h
        subst h
        exact (Finish_docs b1).trans h1
    · simp only [Except.ok.injEq] at h
      subst h
      exact (Finish_docs b1).trans h1

/-- C9: for every pool file whose constructor succeeds and every block size
`1 ≤ BlockSize` (an `int`), in the sequential model of the reader, with a call
of `ReadBlock` for each data line and one more: the blocks delivered until
`ReadBlock` returns false are each non-empty and at most `BlockSize` lines long
and their concatenation is the data lines in order; whenever `ReadPool`
returns, `|Docs|` is the number of data lines (no extra document at a block
boundary) and document `k` is the document that the line parser makes of data
line `k`, that is the one document `ProcessBlock` leaves when it is given a
block holding this line alone; and the loop of `ReadPool` does not run out of
calls of `ReadBlock`. -/
theorem C9_blocks_are_the_data_lines (env : TEnv) (cd : Option (List TColumn))
    (columnsCount : Nat) (poolLines : List String) (pairsFile : String) (threadCount : Int)
    (fieldDelimiter : Char) (hasHeader : Bool) (classNames : List String) (blockSize : Int)
    (r0 : TPoolReader) (b0 : TPoolBuilder) (fuel : Nat)
    (hcreate : TPoolReader.create env cd columnsCount poolLines pairsFile threadCount
      fieldDelimiter hasHeader classNames blockSize = .ok r0)
    (hblock : 1 ≤ blockSize) (hint : blockSize < 2 ^ 31)
    (hfuel : (dataLines hasHeader poolLines).length + 1 ≤ fuel) :
    (∃ blocks, deliveredBlocks fuel r0 = some blocks ∧
      (∀ blk ∈ blocks, blk ≠ [] ∧ (blk.length : Int) ≤ blockSize) ∧
      blocks.flatten = dataLines hasHeader poolLines) ∧
    (∀ b', ReadPool env fuel cd columnsCount poolLines pairsFile threadCount fieldDelimiter
        hasHeader classNames blockSize b0 = .ok b' →
      b'.Pool.Docs.length = (dataLines hasHeader poolLines).length ∧
      ∀ (k : Nat) (line : String), (dataLines hasHeader poolLines)[k]? = some line →
        ∃ r1 b1 doc,
          TPoolReader.ProcessBlock env { r0 with ParseBuffer := [line] }
            ((InitBuilder {}).Start r0.PoolMetaInfo) = .ok (r1, b1) ∧
          b1.Pool.Docs = [doc] ∧ b'.Pool.Docs[k]? = some doc) ∧
    (∀ b, readLoop env fuel r0 b ≠ .error .outOfFuel) := by
  obtain ⟨hready, _, _, hbs, _⟩ := create_ok hcreate
  have hN : toSizeT r0.BlockSize = blockSize.toNat := by
    rw [hbs]; exact toSizeT_of_nonneg (by omega) (by omega)
  have hpos : 0 < toSizeT r0.BlockSize := by rw [hN]; omega
  have hlt : toSizeT r0.BlockSize < 2 ^ 32 := by rw [hN]; omega
  refine ⟨?_, ?_, fun b => readLoop_ne_outOfFuel env fuel r0 b _ hready hpos hfuel⟩
  · obtain ⟨blocks, h1, h2, h3⟩ := deliveredBlocks_ok fuel r0 _ hready hpos hfuel
    refine ⟨blocks, h1, ?_, h3⟩
    intro blk hmem
    obtain ⟨h4, h5⟩ := h2 blk hmem
    refine ⟨h4, ?_⟩
    rw [hN] at h5
    omega
  · intro b' h
    unfold ReadPool at h
    rw [hcreate] at h
    simp only [] at h
    split at h
    · cases h
    · rename_i b1 hsb
      split at h
      · cases h
      · rename_i r2 b2 hloop
        obtain ⟨hd0, hF0, hB0⟩ := StartBuilder_ok hsb
        obtain ⟨i1, _, i3⟩ := readLoop_docs env r0 fuel r0 b1 _ r2 b2 hready hpos hlt rfl hloop
        have hdocs := FinalizeBuilder_docs h
        rw [hd0] at i1 i3
        rw [hF0, hB0] at i3
        simp only [List.length_nil, Nat.zero_add] at i1 i3
        refine ⟨by rw [hdocs]; exact i1, ?_⟩
        intro k line hk
        obtain ⟨a2, a3, doc', a4, a5⟩ := i3 k line hk
        have hind := lineTrace_docAfter env r0 { r0 with ParseBuffer := [line] } 0 0 rfl
          (env.SplitRangeTo r0.FieldDelimiter line) r0.ColumnsDescription 0 0 0
        obtain ⟨r1, bs, hp, hb⟩ := ProcessBlock_single env r0 line doc' a2 (hind.1.1 a3)
          (by rw [← hind.2]; exact a4)
        exact ⟨r1, bs, doc', hp, hb, by rw [hdocs]; exact a5⟩

set_option maxRecDepth 100000 in
/-- C9 on four data lines and blocks of two lines, the line count an exact
multiple of the block size: two blocks, four documents, and the second
document is the one made of the line `0,1`. -/
theorem C9_blocks_are_the_data_lines_witness :
    ((∃ blocks, deliveredBlocks 5 fourLinesReader = some blocks ∧
      (∀ blk ∈ blocks, blk ≠ [] ∧ (blk.length : Int) ≤ 2) ∧
      blocks.flatten = dataLines false fourLines) ∧
    (∀ b', ReadPool testEnv 5 (some targetNum) 2 fourLines "" 1 ',' false [] 2
        (InitBuilder {}) = .ok b' →
      b'.Pool.Docs.length = (dataLines false fourLines).length ∧
      ∀ (k : Nat) (line : String), (dataLines false fourLines)[k]? = some line →
        ∃ r1 b1 doc,
          TPoolReader.ProcessBlock testEnv { fourLinesReader with ParseBuffer := [line] }
            ((InitBuilder {}).Start fourLinesReader.PoolMetaInfo) = .ok (r1, b1) ∧
          b1.Pool.Docs = [doc] ∧ b'.Pool.Docs[k]? = some doc) ∧
    (∀ b, readLoop testEnv 5 fourLinesReader b ≠ .error .outOfFuel)) ∧
    deliveredBlocks 5 fourLinesReader = some [["1,2", "0,1"], ["1,0", "2,2"]] ∧
    (ReadPool testEnv 5 (some targetNum) 2 fourLines "" 1 ',' false [] 2
        (InitBuilder {})).toOption.map
      (fun b => b.Pool.Docs.map fun d => (d.Target, d.Factors)) =
      some [(f1, [f2]), (⟨0⟩, [f1]), (f1, [⟨0⟩]), (f2, [f2])] ∧
    (TPoolReader.ProcessBlock testEnv { fourLinesReader with ParseBuffer := ["0,1"] }
        ((InitBuilder {}).Start fourLinesReader.PoolMetaInfo)).toOption.map
      (fun rb => rb.2.Pool.Docs.map fun d => (d.Target, d.Factors)) =
      some [(⟨0⟩, [f1])] :=
  ⟨C9_blocks_are_the_data_lines testEnv (some targetNum) 2 fourLines "" 1 ',' false [] 2
    fourLinesReader (InitBuilder {}) 5 (by decide) (by decide) (by decide) (by decide),
    by decide, by decide, by decide⟩

end Catboost
